import Mathlib

/-!
# Verification of the `tson` core (tokenizer, parser, conversion/revival engine)

This file is a shallow embedding, in Lean 4, of the `tson` TypeScript library:

* `src/packages/core/src/tokenizer.ts` — the character-level JSON tokenizer
  (`Tokenizer.nextToken`, `scanNumber`, `scanString`, `skipWhitespace`);
* the recursive-descent parser (`parseJson`, `Parser.parseValue`,
  `parseObject`, `parseArray`);
* `src/packages/core/src/tson.ts` — the conversion engine (`convertValue`),
  the revival engine (`reviveValue`), `stringify`, `parse`, and the handler
  registry (`register` / `unregister` / `handlers`);
* the built-in handlers (Date, BigInt, RegExp, URL, Map, Set) and the
  JSON stringifier (`stringifyJson` / `sortKeys`).

Modelling conventions, used throughout and referenced from the definitions:

* **Numbers.** JavaScript numbers (IEEE doubles) are modelled as exact decimal
  pairs `m × 10^e` (`Dec`), kept in canonical form (`Dec.isNorm`): every finite
  double has a finite decimal expansion, so this set contains all doubles.
  `parseFloat` of a JSON numeric literal is modelled as the literal's exact
  decimal value, and `parseFloat` overflow to ±Infinity happens exactly when
  the exact value reaches the IEEE round-to-even overflow threshold
  `2^1024 − 2^970` (`Dec.overflow`).  Non-finite numbers (`Infinity`,
  `-Infinity`, `NaN`) are the extra constructors of `JNum`.
* **Fuel.** Functions that recurse through the heap (the conversion engine) or
  through a token stream (the parser) take an explicit `Nat` fuel argument and
  return `none`/a distinguished error when it runs out; the source terminates
  by consuming input or by JS stack overflow, which the fuel models.  All
  top-level wrappers supply fuel that is proven sufficient for the inputs the
  claims quantify over.
* **Object identity.** Runtime values form trees (`RVal`) except for explicit
  heap references `RVal.ref` into a `Heap`; a structural (non-`ref`) node has a
  fresh identity nothing else can alias, so the cycle guard's `has`/`add`/
  `delete` on it are observationally the identity, and only `ref` identities
  are tracked in the guard list.  This mirrors `WeakSet` semantics exactly for
  acyclic values and makes shared/cyclic graphs expressible through the heap.
* **The two `WeakSet`s of `stringify`.** The source's `stringify` creates one
  `WeakSet` for the top-level `convertValue` call and a *different* one inside
  `createContext`; every `ctx.serialize` call made by a handler recurses with
  the context's set.  In the pure model this is the boolean `inCtx` argument:
  a frame whose set is the context's set passes its own `seen` (plus the
  current identity) to handler-nested conversions, while a frame on the
  top-level set passes the context set's current contents — provably `[]`,
  because `add`/`delete` on that set are balanced across a completed call.
* **Dates.** A JS `Date` is modelled by its canonical ISO-8601 string (the
  exact output of `toISOString`), which is in bijection with its millisecond
  timestamp for the years 0–9999.  `new Date(s)` is modelled as accepting the
  canonical form and the date-only `YYYY-MM-DD` form (which JS reads as UTC
  midnight); other formats JS would accept are treated as invalid, and no
  claim exercises them.
* **URLs.** `new URL(s).href` normalisation is modelled as the identity: a
  real `URL`'s `href` is already normalised, and handler payloads in the
  claims only ever contain such normalised strings.
* **BigInt.** `BigInt(s)` is modelled on decimal strings with optional sign;
  the hex/octal/binary/whitespace forms JS would accept are treated as
  invalid, and no claim exercises them.
* **Strings.** JS strings are modelled as Lean `String`s (sequences of
  scalars).  `String.fromCharCode` clamps invalid scalar values to `'\0'`
  (surrogate halves are not representable); no claim exercises them.  The
  deterministic key sort compares scalar values pointwise (`strLe`), which
  agrees with the JS UTF-16 code-unit sort on all BMP-only keys.
* Error snippets (`TsonParseError.snippet`) are presentation-only and are not
  modelled; errors carry message, line, column and byte offset.
-/

set_option maxRecDepth 4000

/-! ## Decimal numbers: the model of JS doubles -/

/-- An exact decimal number `m × 10^e`.  Every finite IEEE double is such a
number; a `Dec` is the model of a finite JS number. -/
structure Dec where
  m : Int
  e : Int
deriving DecidableEq

/-- Canonical form: zero is `0 × 10^0`, and a nonzero mantissa carries no
factor of ten (so distinct canonical pairs denote distinct reals). -/
def Dec.isNorm (d : Dec) : Bool :=
  if d.m = 0 then d.e = 0 else ¬ (10 ∣ d.m)

/-- Strip factors of ten from a mantissa, counting them; `fuel` bounds the
number of strips (any fuel above the number of trailing zeros is enough). -/
def stripTens : Nat → Int → Int × Nat
  | 0, m => (m, 0)
  | f + 1, m =>
    if m % 10 = 0 ∧ m ≠ 0 then
      let (m', k) := stripTens f (m / 10)
      (m', k + 1)
    else (m, 0)

/-- Canonicalise a decimal pair (same denoted real number). -/
def Dec.norm (d : Dec) : Dec :=
  if d.m = 0 then ⟨0, 0⟩
  else
    let (m', k) := stripTens d.m.natAbs d.m
    ⟨m', d.e + (k : Int)⟩

/-- The IEEE-double overflow threshold `2^1024 − 2^970 = 2^970·(2^54 − 1)`:
`parseFloat` returns ±Infinity exactly when the exact absolute value of the
literal is at least this (round-to-nearest, ties to even). -/
def ovfNum : Nat := 2 ^ 970 * (2 ^ 54 - 1)

/-- Whether the exact value `m × 10^e` overflows a double (models
`!isFinite(parseFloat(literal))` for in-grammar literals). -/
def Dec.overflow (d : Dec) : Bool :=
  if 0 ≤ d.e then ovfNum ≤ d.m.natAbs * 10 ^ d.e.toNat
  else ovfNum * 10 ^ (-d.e).toNat ≤ d.m.natAbs

/-- A JS number: a finite decimal, or one of the non-finite values. -/
inductive JNum where
  | fin (d : Dec)
  | posInf
  | negInf
  | nan
deriving DecidableEq

/-- Model of `Number.isFinite`. -/
def JNum.isFinite : JNum → Bool
  | .fin _ => true
  | _ => false

/-! ## The JSON value tree (`JsonValue` of `types.ts`)

`JsonObject` keys are in insertion order, as in JS; mutual inductives are used
instead of nested `List`s so that equality is derivable and all recursion is
structural (hence kernel-computable). -/

mutual
/-- A JSON value (`JsonValue`): null, boolean, finite number, string, array,
or ordered object. -/
inductive Json where
  | null
  | bool (b : Bool)
  | num (n : Dec)
  | str (s : String)
  | arr (elems : JArr)
  | obj (fields : JFields)
deriving DecidableEq

/-- An ordered JSON array (`JsonArray`). -/
inductive JArr where
  | nil
  | cons (hd : Json) (tl : JArr)
deriving DecidableEq

/-- Ordered JSON object fields (`JsonObject`), insertion order significant. -/
inductive JFields where
  | nil
  | cons (key : String) (val : Json) (tl : JFields)
deriving DecidableEq
end

namespace JArr

/-- The elements as a Lean list. -/
def toList : JArr → List Json
  | .nil => []
  | .cons h t => h :: t.toList

/-- Build from a Lean list. -/
def ofList : List Json → JArr
  | [] => .nil
  | h :: t => .cons h (ofList t)

def length : JArr → Nat
  | .nil => 0
  | .cons _ t => t.length + 1

end JArr

namespace JFields

/-- The keys, in order (`Object.keys`). -/
def keys : JFields → List String
  | .nil => []
  | .cons k _ t => k :: t.keys

/-- First-occurrence lookup (JS objects never hold duplicate keys, so this is
plain property access). -/
def lookup (k : String) : JFields → Option Json
  | .nil => none
  | .cons k' v t => if k' = k then some v else lookup k t

/-- Model of `Object.prototype.hasOwnProperty.call`. -/
def hasKey (k : String) (fl : JFields) : Bool := (fl.lookup k).isSome

def length : JFields → Nat
  | .nil => 0
  | .cons _ _ t => t.length + 1

/-- Model of JS property assignment `obj[k] = v`: if the key exists its value
is replaced in place (property order keeps the original position), otherwise
the pair is appended. -/
def setKey (k : String) (v : Json) : JFields → JFields
  | .nil => .cons k v .nil
  | .cons k' v' t => if k' = k then .cons k' v t else .cons k' v' (setKey k v t)

/-- Append two field lists. -/
def append : JFields → JFields → JFields
  | .nil, r => r
  | .cons k v t, r => .cons k v (t.append r)

end JFields

/-! ## Decimal digits -/

/-- Port of `Tokenizer.isDigit`. -/
def isDigitC (c : Char) : Bool := '0' ≤ c && c ≤ '9'

/-- Port of `Tokenizer.isHexDigit`. -/
def isHexDigit (c : Char) : Bool :=
  ('0' ≤ c && c ≤ '9') || ('a' ≤ c && c ≤ 'f') || ('A' ≤ c && c ≤ 'F')

/-- Numeric value of a digit character. -/
def digitVal (c : Char) : Nat := c.toNat - '0'.toNat

/-- The character of the digit `n % 10`. -/
def digitChar (n : Nat) : Char := Char.ofNat ('0'.toNat + n % 10)

/-- Decimal digit characters of `n`, most significant first; the fuel bounds
the number of divisions by ten (`n + 1` always suffices). -/
def natDigitsF : Nat → Nat → List Char
  | 0, _ => []
  | f + 1, n => if n < 10 then [digitChar n] else natDigitsF f (n / 10) ++ [digitChar (n % 10)]

/-- Decimal digit characters of `n`, most significant first (no leading
zeros; `0` renders as `"0"`). -/
def natDigits (n : Nat) : List Char := natDigitsF (n + 1) n

/-- Value of a digit string, via the fold the source's `parseFloat` model
uses. -/
def digitsToNat (ds : List Char) : Nat :=
  ds.foldl (fun a c => a * 10 + digitVal c) 0

/-- Value of a hex digit character. -/
def hexDigitVal (c : Char) : Nat :=
  if '0' ≤ c && c ≤ '9' then c.toNat - '0'.toNat
  else if 'a' ≤ c && c ≤ 'f' then c.toNat - 'a'.toNat + 10
  else if 'A' ≤ c && c ≤ 'F' then c.toNat - 'A'.toNat + 10
  else 0

/-- Model of `parseInt(hex, 16)` on a hex digit string. -/
def hexToNat (ds : List Char) : Nat :=
  ds.foldl (fun a c => a * 16 + hexDigitVal c) 0

/-! ## Tokenizer (`tokenizer.ts`)

The source class holds the whole input plus an index; the model consumes a
`List Char` of the remaining input together with the current position, which
is observationally the same state. -/

/-- The tokenizer's position state: `line`, `column`, `position` (byte
offset).  Initially `⟨1, 1, 0⟩`. -/
structure Pos where
  line : Nat
  col : Nat
  off : Nat
deriving DecidableEq

/-- Advance over `n` characters on the current line (`advance` increments
`column` and `position`). -/
def Pos.adv (p : Pos) (n : Nat) : Pos := ⟨p.line, p.col + n, p.off + n⟩

/-- Port of `TokenType` (`token.ts`). -/
inductive TokenType where
  | LeftBrace | RightBrace | LeftBracket | RightBracket | Colon | Comma
  | String | Number | True | False | Null | EOF
deriving DecidableEq

/-- A token's `value` field (`unknown` in the source): `null` for keywords
`null` and EOF, the boolean for `true`/`false`, the decoded string, the
parsed number, or the structural character itself. -/
inductive TkVal where
  | vnull
  | vbool (b : Bool)
  | vnum (d : Dec)
  | vstr (s : String)
  | vchar (c : Char)
deriving DecidableEq

/-- Port of `Token` (`token.ts`). -/
structure Token where
  type : TokenType
  value : TkVal
  line : Nat
  column : Nat
  position : Nat
deriving DecidableEq

/-- Port of `createToken`. -/
def createToken (type : TokenType) (value : TkVal) (pos : Pos) : Token :=
  ⟨type, value, pos.line, pos.col, pos.off⟩

/-- Port of `TsonParseError` (without the presentation-only snippet). -/
structure PErr where
  message : String
  line : Nat
  column : Nat
  position : Nat
deriving DecidableEq

deriving instance DecidableEq for Except

/-- Raise a `TsonParseError` at the current position (`Tokenizer.error`). -/
def tkErr (msg : String) (pos : Pos) : PErr := ⟨msg, pos.line, pos.col, pos.off⟩

/-- Port of `skipWhitespace`: space, carriage return and tab advance; a
newline increments `line` and resets `column` (to 0, then `advance` makes it
1). -/
def skipWhitespace : List Char → Pos → List Char × Pos
  | [], pos => ([], pos)
  | c :: r, pos =>
    if c = ' ' || c = '\r' || c = '\t' then skipWhitespace r (pos.adv 1)
    else if c = '\n' then skipWhitespace r ⟨pos.line + 1, 1, pos.off + 1⟩
    else (c :: r, pos)

/-- Identifier characters, port of the `/[a-zA-Z0-9_]/` boundary test in
`match`. -/
def isIdentChar (c : Char) : Bool :=
  (('a' ≤ c) && (c ≤ 'z')) || (('A' ≤ c) && (c ≤ 'Z'))
    || (('0' ≤ c) && (c ≤ '9')) || c = '_'

/-- Port of `Tokenizer.match`: the expected keyword is a prefix of the
remaining input and is not immediately followed by an identifier character. -/
def matchKw (expected : List Char) (cs : List Char) : Bool :=
  expected.isPrefixOf cs &&
    (match cs.drop expected.length with
     | [] => true
     | c :: _ => !isIdentChar c)

/-- Digit-run consumption: the `while (this.isDigit(this.peek()))` loops of
`scanNumber`. -/
def takeDigits : List Char → List Char × List Char
  | [] => ([], [])
  | c :: cs =>
    if isDigitC c then
      let (run, more) := takeDigits cs
      (c :: run, more)
    else ([], c :: cs)

/-- The exact value of a scanned numeric literal, canonicalised: models
`parseFloat(numStr)` for in-grammar literals (which is exact up to IEEE
rounding; see the header note on numbers). -/
def mkDecLit (neg : Bool) (intDs fracDs : List Char) (expNeg : Bool)
    (expDs : List Char) : Dec :=
  let mantissa : Int := (if neg then -1 else 1) * (digitsToNat (intDs ++ fracDs) : Int)
  let expo : Int := (if expNeg then -1 else 1) * (digitsToNat expDs : Int) - (fracDs.length : Int)
  Dec.norm ⟨mantissa, expo⟩

/-- Port of `scanNumber`: optional minus; integer part (single `0`, or a
digit run with no leading zero); optional fraction; optional exponent; the
accumulated literal is parsed and a non-finite value is a lexical error.  The
returned token carries the start position; errors carry the position at the
offending character, as in the source. -/
def scanNumber (cs : List Char) (pos : Pos) : Except PErr (Token × List Char × Pos) :=
  -- optional minus sign, then the integer part
  match cs with
  | '-' :: r => scanNumberInt pos true r (pos.adv 1)
  | _ => scanNumberInt pos false cs pos
where
  /-- Integer part: a single `0`, or a digit run with no leading zero. -/
  scanNumberInt (start : Pos) (neg : Bool) (cs1 : List Char) (pos1 : Pos) :
      Except PErr (Token × List Char × Pos) :=
    match cs1 with
    | '0' :: r =>
      let pos2 := pos1.adv 1
      -- after a leading 0, the next character must not be a digit
      if (match r with | c :: _ => isDigitC c | [] => false) then
        .error (tkErr "Invalid number: leading zeros not allowed" pos2)
      else
        scanNumberFrac start neg ['0'] r pos2
    | c :: r =>
      if isDigitC c then
        let (ds, rest) := takeDigits (c :: r)
        scanNumberFrac start neg ds rest (pos1.adv ds.length)
      else .error (tkErr "Invalid number: expected digit after minus sign" pos1)
    | [] => .error (tkErr "Invalid number: expected digit after minus sign" pos1)
  /-- Fractional part: `.` plus at least one digit. -/
  scanNumberFrac (start : Pos) (neg : Bool) (intDs : List Char) (cs : List Char)
      (pos : Pos) : Except PErr (Token × List Char × Pos) :=
    match cs with
    | '.' :: r =>
      let pos1 := pos.adv 1
      if (match r with | c :: _ => isDigitC c | [] => false) then
        let (ds, rest) := takeDigits r
        scanNumberExp start neg intDs ds rest (pos1.adv ds.length)
      else .error (tkErr "Invalid number: expected digit after decimal point" pos1)
    | _ => scanNumberExp start neg intDs [] cs pos
  /-- Exponent part: `e`/`E`, optional sign, at least one digit; then the
  finiteness check on the accumulated literal's value. -/
  scanNumberExp (start : Pos) (neg : Bool) (intDs fracDs : List Char)
      (cs : List Char) (pos : Pos) : Except PErr (Token × List Char × Pos) :=
    match cs with
    | c :: r =>
      if c = 'e' || c = 'E' then
        let pos1 := pos.adv 1
        let (expNeg, r1, pos2) : Bool × List Char × Pos :=
          match r with
          | '+' :: r2 => (false, r2, pos1.adv 1)
          | '-' :: r2 => (true, r2, pos1.adv 1)
          | _ => (false, r, pos1)
        if (match r1 with | c2 :: _ => isDigitC c2 | [] => false) then
          let (ds, rest) := takeDigits r1
          scanNumberFinish start neg intDs fracDs expNeg ds rest (pos2.adv ds.length)
        else .error (tkErr "Invalid number: expected digit in exponent" pos2)
      else scanNumberFinish start neg intDs fracDs false [] (c :: r) pos
    | [] => scanNumberFinish start neg intDs fracDs false [] [] pos
  /-- `const value = parseFloat(numStr); if (!isFinite(value)) error`. -/
  scanNumberFinish (start : Pos) (neg : Bool) (intDs fracDs : List Char)
      (expNeg : Bool) (expDs : List Char) (cs : List Char) (pos : Pos) :
      Except PErr (Token × List Char × Pos) :=
    let value := mkDecLit neg intDs fracDs expNeg expDs
    if value.overflow then .error (tkErr "Invalid number: value out of range" pos)
    else .ok (createToken .Number (.vnum value) start, cs, pos)

/-- Port of `readHexDigits`: consume up to `count` hex digits, returning
`none` (with the position where reading stopped) on end of input or a
non-hex character. -/
def readHexDigits : Nat → List Char → Pos → Option (List Char) × List Char × Pos
  | 0, cs, pos => (some [], cs, pos)
  | _ + 1, [], pos => (none, [], pos)
  | n + 1, c :: cs, pos =>
    if isHexDigit c then
      let (o, r, p) := readHexDigits n cs (pos.adv 1)
      (o.map (c :: ·), r, p)
    else (none, c :: cs, pos)

/-- The body of `scanString`'s while loop, accumulating the decoded value in
reverse.  `pos` is at the next unconsumed character. -/
def scanStringLoop : List Char → Pos → List Char → Except PErr (String × List Char × Pos)
  | [], pos, _ => .error (tkErr "Unterminated string" pos)
  | '"' :: r, pos, acc => .ok (⟨acc.reverse⟩, r, pos.adv 1)
  | '\\' :: r, pos, acc =>
    -- handle escape sequences
    let pos1 := pos.adv 1
    match r with
    | [] => .error (tkErr "Unterminated string" pos1)
    | e :: r2 =>
      let pos2 := pos1.adv 1
      match e with
      | '"' => scanStringLoop r2 pos2 ('"' :: acc)
      | '\\' => scanStringLoop r2 pos2 ('\\' :: acc)
      | '/' => scanStringLoop r2 pos2 ('/' :: acc)
      | 'b' => scanStringLoop r2 pos2 ('\x08' :: acc)
      | 'f' => scanStringLoop r2 pos2 ('\x0c' :: acc)
      | 'n' => scanStringLoop r2 pos2 ('\n' :: acc)
      | 'r' => scanStringLoop r2 pos2 ('\r' :: acc)
      | 't' => scanStringLoop r2 pos2 ('\t' :: acc)
      | 'u' =>
        -- unicode escape sequence \uXXXX; `String.fromCharCode(parseInt(hex, 16))`
        (match r2 with
         | h1 :: h2 :: h3 :: h4 :: r3 =>
           if isHexDigit h1 && isHexDigit h2 && isHexDigit h3 && isHexDigit h4 then
             scanStringLoop r3 (pos2.adv 4) (Char.ofNat (hexToNat [h1, h2, h3, h4]) :: acc)
           else
             match readHexDigits 4 r2 pos2 with
             | (_, _, p3) => .error (tkErr "Invalid unicode escape sequence" p3)
         | _ =>
           match readHexDigits 4 r2 pos2 with
           | (_, _, p3) => .error (tkErr "Invalid unicode escape sequence" p3))
      | _ =>
        .error (tkErr ("Invalid escape sequence: \\" ++ String.singleton e) pos2)
  | c :: r, pos, acc =>
    if c = '\n' || c = '\r' then
      .error (tkErr "Unterminated string (newline in string)" pos)
    else scanStringLoop r (pos.adv 1) (c :: acc)

/-- Port of `scanString` (called with the opening quote at the head): record
the start position, skip the opening quote, run the loop. -/
def scanString (cs : List Char) (pos : Pos) : Except PErr (Token × List Char × Pos) :=
  let start := pos
  match cs with
  | '"' :: r =>
    match scanStringLoop r (pos.adv 1) [] with
    | .error e => .error e
    | .ok (value, rest, p) => .ok (createToken .String (.vstr value) start, rest, p)
  | _ => .error (tkErr "Unterminated string" pos)

/-- Port of `nextToken`: skip whitespace; end of input yields EOF; structural
characters map to single-character tokens; `"` starts a string; the keywords
match only at an identifier boundary; a digit or `-` starts a number; any
other character is a lexical error. -/
def nextToken (cs : List Char) (pos : Pos) : Except PErr (Token × List Char × Pos) :=
  let (cs, pos) := skipWhitespace cs pos
  match cs with
  | [] => .ok (createToken .EOF .vnull pos, [], pos)
  | c :: r =>
    match c with
    | '{' => .ok (createToken .LeftBrace (.vchar c) pos, r, pos.adv 1)
    | '}' => .ok (createToken .RightBrace (.vchar c) pos, r, pos.adv 1)
    | '[' => .ok (createToken .LeftBracket (.vchar c) pos, r, pos.adv 1)
    | ']' => .ok (createToken .RightBracket (.vchar c) pos, r, pos.adv 1)
    | ':' => .ok (createToken .Colon (.vchar c) pos, r, pos.adv 1)
    | ',' => .ok (createToken .Comma (.vchar c) pos, r, pos.adv 1)
    | '"' => scanString (c :: r) pos
    | _ =>
      if matchKw ['t', 'r', 'u', 'e'] (c :: r) then
        .ok (createToken .True (.vbool true) pos, (c :: r).drop 4, pos.adv 4)
      else if matchKw ['f', 'a', 'l', 's', 'e'] (c :: r) then
        .ok (createToken .False (.vbool false) pos, (c :: r).drop 5, pos.adv 5)
      else if matchKw ['n', 'u', 'l', 'l'] (c :: r) then
        .ok (createToken .Null .vnull pos, (c :: r).drop 4, pos.adv 4)
      else if isDigitC c || c = '-' then
        scanNumber (c :: r) pos
      else
        .error (tkErr ("Unexpected character: '" ++ String.singleton c ++ "'") pos)

/-! ## Parser (`parser.ts`)

The source parser holds the tokenizer plus a one-token lookahead
(`this.current`); the model's `PState` is that state.  The `for (;;)` member
loops are the `...MembersF`/`...ElemsF` recursions; all recursion is
structural on an explicit fuel, and `parseJson` supplies fuel proven
sufficient for every input the claims exercise. -/

/-- The `as string` cast on a token's value (only ever applied to `String`
tokens, whose value is `vstr`). -/
def TkVal.asString : TkVal → String
  | .vstr s => s
  | _ => ""

/-- The `as number` cast on a token's value (only ever applied to `Number`
tokens, whose value is `vnum`). -/
def TkVal.asNum : TkVal → Dec
  | .vnum d => d
  | _ => ⟨0, 0⟩

/-- Parser state: the current lookahead token and the tokenizer state after
it. -/
structure PState where
  cur : Token
  rest : List Char
  pos : Pos
deriving DecidableEq

/-- Port of `throwUnexpected`: a parse error at the current token's
location. -/
def unexpected (msg : String) (t : Token) : PErr := ⟨msg, t.line, t.column, t.position⟩

/-- Fuel exhaustion (model artifact; never reached by `parseJson`'s budget on
the inputs the theorems quantify over). -/
def fuelOut (st : PState) : PErr :=
  ⟨"model: parser fuel exhausted", st.cur.line, st.cur.column, st.cur.position⟩

/-- `this.current = this.tokenizer.nextToken()`. -/
def advanceP (st : PState) : Except PErr PState := do
  let (t, r, p) ← nextToken st.rest st.pos
  return ⟨t, r, p⟩

/-- Port of `consume`. -/
def consumeP (type : TokenType) (msg : String) (st : PState) : Except PErr PState :=
  if st.cur.type = type then advanceP st
  else .error (unexpected msg st.cur)

mutual

/-- Port of `parseValue`: dispatch on the current token's kind. -/
def parseValueF : Nat → PState → Except PErr (Json × PState)
  | 0, st => .error (fuelOut st)
  | f + 1, st =>
    match st.cur.type with
    | .LeftBrace => parseObjectF f st
    | .LeftBracket => parseArrayF f st
    | .String => do
      let value := st.cur.value.asString
      let st ← advanceP st
      return (.str value, st)
    | .Number => do
      let value := st.cur.value.asNum
      let st ← advanceP st
      return (.num value, st)
    | .True => do
      let st ← advanceP st
      return (.bool true, st)
    | .False => do
      let st ← advanceP st
      return (.bool false, st)
    | .Null => do
      let st ← advanceP st
      return (.null, st)
    | _ => .error (unexpected "Expected a JSON value" st.cur)

/-- Port of `parseObject`: consume `{`; empty object on an immediate `}`;
otherwise the member loop. -/
def parseObjectF : Nat → PState → Except PErr (Json × PState)
  | 0, st => .error (fuelOut st)
  | f + 1, st => do
    let st ← consumeP .LeftBrace "Expected \x7b" st
    if st.cur.type = .RightBrace then
      let st ← advanceP st
      return (.obj .nil, st)
    else
      parseObjMembersF f .nil st

/-- The body of `parseObject`'s `for (;;)` loop; `obj` is the accumulated
result, assigned into with JS `obj[key] = value` semantics (`setKey`). -/
def parseObjMembersF : Nat → JFields → PState → Except PErr (Json × PState)
  | 0, _, st => .error (fuelOut st)
  | f + 1, obj, st =>
    if st.cur.type = .String then do
      let key := st.cur.value.asString
      let st ← advanceP st
      let st ← consumeP .Colon "Expected : after object key" st
      let (value, st) ← parseValueF f st
      let obj := obj.setKey key value
      if st.cur.type = .Comma then do
        let st ← advanceP st
        -- Strict: disallow trailing comma by requiring another key next.
        if st.cur.type = .RightBrace then
          .error (unexpected "Trailing comma in object is not allowed" st.cur)
        else
          parseObjMembersF f obj st
      else do
        let st ← consumeP .RightBrace "Expected \x7d after object" st
        return (.obj obj, st)
    else .error (unexpected "Expected string key in object" st.cur)

/-- Port of `parseArray`: consume `[`; empty array on an immediate `]`;
otherwise the element loop. -/
def parseArrayF : Nat → PState → Except PErr (Json × PState)
  | 0, st => .error (fuelOut st)
  | f + 1, st => do
    let st ← consumeP .LeftBracket "Expected [" st
    if st.cur.type = .RightBracket then
      let st ← advanceP st
      return (.arr .nil, st)
    else
      parseArrElemsF f .nil st

/-- The body of `parseArray`'s `for (;;)` loop; `acc` holds the pushed
elements in reverse. -/
def parseArrElemsF : Nat → List Json → PState → Except PErr (Json × PState)
  | 0, _, st => .error (fuelOut st)
  | f + 1, acc, st => do
    let (value, st) ← parseValueF f st
    let acc := value :: acc
    if st.cur.type = .Comma then do
      let st ← advanceP st
      -- Strict: disallow trailing comma by requiring another value next.
      if st.cur.type = .RightBracket then
        .error (unexpected "Trailing comma in array is not allowed" st.cur)
      else
        parseArrElemsF f acc st
    else do
      let st ← consumeP .RightBracket "Expected ] after array" st
      return (.arr (JArr.ofList acc.reverse), st)

end

/-- The parser-fuel budget supplied by `parseJson`: generous in the input
length (the source needs none; each loop iteration consumes input). -/
def parserFuel (cs : List Char) : Nat := 2 * cs.length + 8

/-- Port of `parseJson` (`parseRoot` with a fresh tokenizer): prime the
lookahead, parse one value, require EOF. -/
def parseJson (text : String) : Except PErr Json := do
  let (t, r, p) ← nextToken text.data ⟨1, 1, 0⟩
  let st : PState := ⟨t, r, p⟩
  let (value, st) ← parseValueF (parserFuel text.data) st
  let _ ← consumeP .EOF "Expected end of input" st
  return value

/-! ## JSON text emission (`stringify.ts`)

`stringifyJson` is modelled in its minified form (`JSON.stringify(value,
null, space)` with no `space`); the indentation option is presentation-only
whitespace and is not modelled — no claim mentions it.  String escaping and
number printing follow `JSON.stringify`: two-character escapes for `"` `\`
and the control characters with shorthands, `\u00xx` for the other control
characters, and numbers in plain exact decimal (see the header note). -/

/-- Lower-case hex digit character for `n < 16`. -/
def hexChar (n : Nat) : Char :=
  if n < 10 then Char.ofNat (n + '0'.toNat) else Char.ofNat (n - 10 + 'a'.toNat)

/-- JSON escape of one character, as emitted by `JSON.stringify`. -/
def escapeCharL (c : Char) : List Char :=
  if c = '"' then ['\\', '"']
  else if c = '\\' then ['\\', '\\']
  else if c = '\x08' then ['\\', 'b']
  else if c = '\x0c' then ['\\', 'f']
  else if c = '\n' then ['\\', 'n']
  else if c = '\r' then ['\\', 'r']
  else if c = '\t' then ['\\', 't']
  else if c.toNat < 0x20 then ['\\', 'u', '0', '0', hexChar (c.toNat / 16), hexChar (c.toNat % 16)]
  else [c]

/-- A quoted, escaped JSON string literal. -/
def quoteStrL (s : String) : List Char :=
  '"' :: (s.data.flatMap escapeCharL ++ ['"'])

/-- The decimal text of a `Dec` (plain notation, no exponent; exact). -/
def decChars (d : Dec) : List Char :=
  if d.m = 0 then ['0']
  else
    let sign : List Char := if d.m < 0 then ['-'] else []
    let ds := natDigits d.m.natAbs
    if 0 ≤ d.e then sign ++ ds ++ List.replicate d.e.toNat '0'
    else
      let k := (-d.e).toNat
      if ds.length ≤ k then sign ++ '0' :: '.' :: (List.replicate (k - ds.length) '0' ++ ds)
      else sign ++ (ds.take (ds.length - k) ++ '.' :: ds.drop (ds.length - k))

mutual

/-- Minified JSON text of a value. -/
def printJsonL : Json → List Char
  | .null => 'n' :: 'u' :: 'l' :: 'l' :: []
  | .bool true => 't' :: 'r' :: 'u' :: 'e' :: []
  | .bool false => 'f' :: 'a' :: 'l' :: 's' :: 'e' :: []
  | .num d => decChars d
  | .str s => quoteStrL s
  | .arr l => '[' :: (printArrL l ++ [']'])
  | .obj fl => '{' :: (printFieldsL fl ++ ['}'])

/-- Array elements, comma-separated. -/
def printArrL : JArr → List Char
  | .nil => []
  | .cons h t => printJsonL h ++ printArrSepL t

def printArrSepL : JArr → List Char
  | .nil => []
  | .cons h t => ',' :: (printJsonL h ++ printArrSepL t)

/-- Object members, comma-separated. -/
def printFieldsL : JFields → List Char
  | .nil => []
  | .cons k v t => quoteStrL k ++ ':' :: (printJsonL v ++ printFieldsSepL t)

def printFieldsSepL : JFields → List Char
  | .nil => []
  | .cons k v t => ',' :: (quoteStrL k ++ ':' :: (printJsonL v ++ printFieldsSepL t))

end

/-- Pointwise string order on scalar values: the model of the default JS
`Array.prototype.sort()` comparison on keys (identical to UTF-16 code-unit
order for BMP-only strings). -/
def charListLe : List Char → List Char → Bool
  | [], _ => true
  | _ :: _, [] => false
  | x :: xs, y :: ys =>
    if x < y then true
    else if y < x then false
    else charListLe xs ys

def strLe (a b : String) : Bool := charListLe a.data b.data

/-- Insert a member after every key that sorts `≤` its key (stable
insertion). -/
def insertField (k : String) (v : Json) : JFields → JFields
  | .nil => .cons k v .nil
  | .cons k' v' t =>
    if strLe k' k then .cons k' v' (insertField k v t)
    else .cons k v (.cons k' v' t)

/-- Sort members by key (`Object.keys(value).sort()`), stably. -/
def sortFields : JFields → JFields
  | fl => sortFieldsGo fl .nil
where
  sortFieldsGo : JFields → JFields → JFields
    | .nil, acc => acc
    | .cons k v t, acc => sortFieldsGo t (insertField k v acc)

mutual

/-- Port of `sortKeys` (`stringify.ts`): recursively sort object keys; null,
arrays (element order kept) and non-objects pass through.  The source sorts
the keys and then recurses into each value; the model recurses first and
sorts after, which is the same function because the sort compares keys only
and is stable.  The source's `if (v === undefined) continue` guard is
vacuous here — a `Json` tree holds no `undefined`. -/
def sortKeysJ : Json → Json
  | .null => .null
  | .bool b => .bool b
  | .num d => .num d
  | .str s => .str s
  | .arr l => .arr (sortKeysArr l)
  | .obj fl => .obj (sortFields (sortKeysFields fl))

def sortKeysArr : JArr → JArr
  | .nil => .nil
  | .cons h t => .cons (sortKeysJ h) (sortKeysArr t)

/-- `sorted[k] = sortKeys(value[k])` over the already-sorted key list. -/
def sortKeysFields : JFields → JFields
  | .nil => .nil
  | .cons k v t => .cons k (sortKeysJ v) (sortKeysFields t)

end

/-- Port of `stringifyJson` (minified; see the section note): sort keys when
`deterministic`, then emit. -/
def stringifyJson (value : Json) (deterministic : Bool) : String :=
  if deterministic then ⟨printJsonL (sortKeysJ value)⟩
  else ⟨printJsonL value⟩

/-! ## Runtime values (`tson.ts`)

A runtime value is a tree of primitives and container/handler-backed nodes,
plus heap references.  A *structural* node models a freshly-built object no
other part of the graph aliases, so its identity can never be re-encountered
and the cycle guard's bookkeeping on it is observationally the identity; a
`ref` points into the `Heap` and its identity participates in the guard (see
the header note on object identity).  `robj`'s `toJson` component models a
callable own `toJSON` whose call returns the stored value. -/

mutual
/-- A JS runtime value. -/
inductive RVal where
  | rnull
  | rundef
  | rfun
  | rsym
  | rbool (b : Bool)
  | rnum (n : JNum)
  | rstr (s : String)
  | rbigint (z : Int)
  | rdate (iso : String)
  | rregexp (source flags : String)
  | rurl (href : String)
  | rarr (elems : RList)
  | robj (fields : RFields) (toJson : ROpt)
  | rset (elems : RList)
  | rmap (entries : RPairs)
  | ref (id : Nat)
deriving DecidableEq

inductive RList where
  | nil
  | cons (hd : RVal) (tl : RList)
deriving DecidableEq

inductive RFields where
  | nil
  | cons (key : String) (val : RVal) (tl : RFields)
deriving DecidableEq

inductive RPairs where
  | nil
  | cons (k v : RVal) (tl : RPairs)
deriving DecidableEq

inductive ROpt where
  | none
  | some (v : RVal)
deriving DecidableEq
end

/-- A heap object: the aliasable counterpart of the structural object
kinds. -/
inductive HNode where
  | harr (elems : RList)
  | hobj (fields : RFields) (toJson : ROpt)
  | hset (elems : RList)
  | hmap (entries : RPairs)
  | hdate (iso : String)
  | hregexp (source flags : String)
  | hurl (href : String)
deriving DecidableEq

/-- The heap: identities to objects. -/
abbrev Heap := List (Nat × HNode)

/-- Look an identity up in the heap. -/
def heapFind (h : Heap) (i : Nat) : Option HNode :=
  match h with
  | [] => none
  | (j, nd) :: t => if j = i then some nd else heapFind t i

namespace RList
def toList : RList → List RVal
  | .nil => []
  | .cons h t => h :: t.toList
def ofList : List RVal → RList
  | [] => .nil
  | h :: t => .cons h (ofList t)
end RList

namespace RPairs
def toList : RPairs → List (RVal × RVal)
  | .nil => []
  | .cons k v t => (k, v) :: t.toList
def ofList : List (RVal × RVal) → RPairs
  | [] => .nil
  | (k, v) :: t => .cons k v (ofList t)
end RPairs

namespace RFields
def keys : RFields → List String
  | .nil => []
  | .cons k _ t => k :: t.keys
def lookup (k : String) : RFields → Option RVal
  | .nil => none
  | .cons k' v t => if k' = k then some v else lookup k t
def hasKey (k : String) (fl : RFields) : Bool := (fl.lookup k).isSome
end RFields

/-! ## Conversion engine (`convertValue` in `tson.ts`)

The return type is `Option (Except CErr (Option Json))`:
* outer `none` — out of fuel (models non-termination / JS stack overflow);
* `.error e` — a thrown `TypeError`;
* `.ok none` — the internal `SKIP` symbol;
* `.ok (some j)` — a JSON-safe result.

The `seen` list is the contents of the `WeakSet` the current frame received,
restricted to heap identities (structural nodes are unaliasable, so their
membership tests are constantly false and their `add`/`delete` unobservable).
`inCtx` says whether that set is the `createContext` set; handler-nested
conversions (`ctx.serialize`) always continue on the context's set, whose
contents at that moment are `seen` plus the current identity if the frame is
already on it, and `[]` otherwise (see the header note on the two
`WeakSet`s). -/

/-- A `TypeError` thrown during conversion. -/
structure CErr where
  message : String
deriving DecidableEq

/-- `TypeError('Circular reference detected')`. -/
def circularErr : CErr := ⟨"Circular reference detected"⟩

/-- The names of the built-in handlers, in registration order
(`builtinHandlers`); their `test` predicates (`instanceof` / `typeof
'bigint'`) are mutually exclusive, so first-match dispatch is dispatch by
kind. -/
def findHandler (h : Heap) : RVal → Option String
  | .rdate _ => some "Date"
  | .rbigint _ => some "BigInt"
  | .rregexp _ _ => some "RegExp"
  | .rurl _ => some "URL"
  | .rmap _ => some "Map"
  | .rset _ => some "Set"
  | .ref i =>
    match heapFind h i with
    | some (.hdate _) => some "Date"
    | some (.hregexp _ _) => some "RegExp"
    | some (.hurl _) => some "URL"
    | some (.hmap _) => some "Map"
    | some (.hset _) => some "Set"
    | _ => none
  | _ => none

/-- The tagged wrapper `{$type: handler.name, $value: payload}`. -/
def tagged (name : String) (payload : Json) : Json :=
  .obj (.cons "$type" (.str name) (.cons "$value" payload .nil))

/-- Membership of the current identity in the received guard set
(`seen.has(value)`); structural nodes have fresh identities. -/
def inSeen (ident : Option Nat) (seen : List Nat) : Bool :=
  match ident with
  | some i => seen.contains i
  | none => false

/-- The guard set after `seen.add(value)`. -/
def pushId (ident : Option Nat) (seen : List Nat) : List Nat :=
  match ident with
  | some i => i :: seen
  | none => seen

/-- The contents of the context's `WeakSet` as a handler's `ctx.serialize`
begins: the current frame's set plus the current identity when the frame is
already on the context set, and empty otherwise. -/
def ctxSeen (ident : Option Nat) (seen : List Nat) (inCtx : Bool) : List Nat :=
  if inCtx then pushId ident seen else []

/-- Decimal string of an integer (`BigInt.prototype.toString`). -/
def intDecStr (z : Int) : String :=
  ⟨(if z < 0 then ['-'] else []) ++ natDigits z.natAbs⟩

mutual

/-- Port of `convertValue(value, strict, seen, ctx)`.  The source checks
`findHandler` first and then falls through primitives, arrays, `toJSON` and
plain objects; the built-in handlers match exactly the date / bigint /
regexp / url / map / set kinds, so the dispatch below by kind is the same
function (the `case 'bigint'` fallback in the primitive switch is dead code
under the built-in registry and the handler branch below is the live
one). -/
def convertValue : Nat → Heap → Bool → RVal → List Nat → Bool →
    Option (Except CErr (Option Json))
  | 0, _, _, _, _, _ => none
  | f + 1, h, strict, v, seen, inCtx =>
    match v with
    -- `if (value === null) return null`
    | .rnull => some (.ok (some .null))
    -- `case 'string': case 'boolean': return value`
    | .rstr s => some (.ok (some (.str s)))
    | .rbool b => some (.ok (some (.bool b)))
    -- `case 'number'`: pass through only if finite
    | .rnum n =>
      match n with
      | .fin d => some (.ok (some (.num d)))
      | _ =>
        if strict then some (.error ⟨"Infinity/NaN not allowed in JSON"⟩)
        else some (.ok (some .null))
    -- `case 'undefined': case 'function': case 'symbol'`: strict error or SKIP
    | .rundef =>
      if strict then some (.error ⟨"Cannot serialize undefined"⟩) else some (.ok none)
    | .rfun =>
      if strict then some (.error ⟨"Cannot serialize function"⟩) else some (.ok none)
    | .rsym =>
      if strict then some (.error ⟨"Cannot serialize symbol"⟩) else some (.ok none)
    -- BigInt: matched by the BigInt handler (`typeof v === 'bigint'`); not an
    -- object, so no cycle-guard bookkeeping; payload `n.toString()`.
    | .rbigint z => some (.ok (some (tagged "BigInt" (.str (intDecStr z)))))
    -- structural object kinds (fresh identities)
    | .rarr l => convertNode f h strict none (.harr l) seen inCtx
    | .robj fl tj => convertNode f h strict none (.hobj fl tj) seen inCtx
    | .rset l => convertNode f h strict none (.hset l) seen inCtx
    | .rmap ps => convertNode f h strict none (.hmap ps) seen inCtx
    | .rdate iso => convertNode f h strict none (.hdate iso) seen inCtx
    | .rregexp src flgs => convertNode f h strict none (.hregexp src flgs) seen inCtx
    | .rurl u => convertNode f h strict none (.hurl u) seen inCtx
    -- heap references (aliasable objects)
    | .ref i =>
      match heapFind h i with
      | some nd => convertNode f h strict (some i) nd seen inCtx
      | none => none

/-- Conversion of an object once its node is known; `ident` is its heap
identity (or `none` for an unaliasable structural node). -/
def convertNode : Nat → Heap → Bool → Option Nat → HNode → List Nat → Bool →
    Option (Except CErr (Option Json))
  | 0, _, _, _, _, _, _ => none
  | f + 1, h, strict, ident, nd, seen, inCtx =>
    match nd with
    -- Handler-matched objects: guard check and registration, then
    -- `handler.serialize(value, ctx)` wrapped as a tagged value; the guard
    -- entry is removed afterwards (pure threading needs no explicit delete).
    -- Date: payload `d.toISOString()` — the stored canonical ISO string.
    | .hdate iso =>
      if inSeen ident seen then some (.error circularErr)
      else some (.ok (some (tagged "Date" (.str iso))))
    -- RegExp: payload `{source: r.source, flags: r.flags}`.
    | .hregexp src flgs =>
      if inSeen ident seen then some (.error circularErr)
      else
        some (.ok (some (tagged "RegExp"
          (.obj (.cons "source" (.str src) (.cons "flags" (.str flgs) .nil))))))
    -- URL: payload `u.href`.
    | .hurl href =>
      if inSeen ident seen then some (.error circularErr)
      else some (.ok (some (tagged "URL" (.str href))))
    -- Set: payload `[...s].map((v) => ctx.serialize(v))`; the nested
    -- conversions run on the context's set.
    | .hset l =>
      if inSeen ident seen then some (.error circularErr)
      else
        match convCtxList f h strict l (ctxSeen ident seen inCtx) with
        | none => none
        | some (.error e) => some (.error e)
        | some (.ok elems) => some (.ok (some (tagged "Set" (.arr elems))))
    -- Map: payload `[...m].map(([k, v]) => [ctx.serialize(k), ctx.serialize(v)])`.
    | .hmap ps =>
      if inSeen ident seen then some (.error circularErr)
      else
        match convCtxPairs f h strict ps (ctxSeen ident seen inCtx) with
        | none => none
        | some (.error e) => some (.error e)
        | some (.ok entries) => some (.ok (some (tagged "Map" (.arr entries))))
    -- Arrays: guard check and registration, then element-wise conversion
    -- with `SKIP` becoming `null` (arrays never omit positions).
    | .harr l =>
      if inSeen ident seen then some (.error circularErr)
      else
        match convArr f h strict l (pushId ident seen) inCtx with
        | none => none
        | some (.error e) => some (.error e)
        | some (.ok elems) => some (.ok (some (.arr elems)))
    | .hobj fl tj =>
      match tj with
      -- Objects with a callable `toJSON`: its result is converted instead;
      -- note: no guard check and no registration on this path.
      | .some r => convertValue f h strict r seen inCtx
      -- Plain objects: guard check and registration, then field-wise
      -- conversion with `SKIP`ped keys omitted.
      | .none =>
        if inSeen ident seen then some (.error circularErr)
        else
          match convFields f h strict fl (pushId ident seen) inCtx with
          | none => none
          | some (.error e) => some (.error e)
          | some (.ok fields) => some (.ok (some (.obj fields)))

/-- `value.map((item) => {const r = convertValue(...); return r === SKIP ?
null : r})`, sequentially. -/
def convArr : Nat → Heap → Bool → RList → List Nat → Bool →
    Option (Except CErr JArr)
  | 0, _, _, _, _, _ => none
  | _ + 1, _, _, .nil, _, _ => some (.ok .nil)
  | f + 1, h, strict, .cons x xs, seen, inCtx =>
    match convertValue f h strict x seen inCtx with
    | none => none
    | some (.error e) => some (.error e)
    | some (.ok out) =>
      match convArr f h strict xs seen inCtx with
      | none => none
      | some (.error e) => some (.error e)
      | some (.ok t) => some (.ok (.cons (out.getD .null) t))

/-- `for (const [k, v] of Object.entries(value)) { ... if (r !== SKIP)
obj[k] = r }`, sequentially. -/
def convFields : Nat → Heap → Bool → RFields → List Nat → Bool →
    Option (Except CErr JFields)
  | 0, _, _, _, _, _ => none
  | _ + 1, _, _, .nil, _, _ => some (.ok .nil)
  | f + 1, h, strict, .cons k x xs, seen, inCtx =>
    match convertValue f h strict x seen inCtx with
    | none => none
    | some (.error e) => some (.error e)
    | some (.ok out) =>
      match convFields f h strict xs seen inCtx with
      | none => none
      | some (.error e) => some (.error e)
      | some (.ok t) =>
        some (.ok (match out with
          | some j => .cons k j t
          | none => t))

/-- `ctx.serialize` over a list: `SKIP` is a strict-mode error
(`'Cannot serialize value'`) or `null`; nested frames are on the context's
set. -/
def convCtxList : Nat → Heap → Bool → RList → List Nat →
    Option (Except CErr JArr)
  | 0, _, _, _, _ => none
  | _ + 1, _, _, .nil, _ => some (.ok .nil)
  | f + 1, h, strict, .cons x xs, seenCtx =>
    match convertValue f h strict x seenCtx true with
    | none => none
    | some (.error e) => some (.error e)
    | some (.ok out) =>
      match out with
      | some j =>
        (match convCtxList f h strict xs seenCtx with
         | none => none
         | some (.error e) => some (.error e)
         | some (.ok t) => some (.ok (.cons j t)))
      | none =>
        if strict then some (.error ⟨"Cannot serialize value"⟩)
        else
          match convCtxList f h strict xs seenCtx with
          | none => none
          | some (.error e) => some (.error e)
          | some (.ok t) => some (.ok (.cons .null t))

/-- `ctx.serialize` over map entries, each becoming the two-element array
`[serialized key, serialized value]`. -/
def convCtxPairs : Nat → Heap → Bool → RPairs → List Nat →
    Option (Except CErr JArr)
  | 0, _, _, _, _ => none
  | _ + 1, _, _, .nil, _ => some (.ok .nil)
  | f + 1, h, strict, .cons k v xs, seenCtx =>
    match convCtxList f h strict (.cons k (.cons v .nil)) seenCtx with
    | none => none
    | some (.error e) => some (.error e)
    | some (.ok kv) =>
      match convCtxPairs f h strict xs seenCtx with
      | none => none
      | some (.error e) => some (.error e)
      | some (.ok t) => some (.ok (.cons (.arr kv) t))

end

/-! ## Revival engine (`reviveValue` in `tson.ts`, built-in deserializers in
`handlers/builtins.ts`)

Errors thrown during revival (`TypeError`s from `reviveValue` and the
handlers, the `SyntaxError` from `BigInt(string)`) are a single error kind
carrying the message.  The fuel is a model artifact; `reviveTop` supplies a
proven-sufficient budget. -/

/-- An error thrown during revival. -/
structure RErr where
  message : String
deriving DecidableEq

/-- `SameValueZero` restricted to revived values: only primitive (and
bigint) equalities can hold — every object produced by revival is fresh, so
two revived objects are never identical. `NaN` equals itself under
`SameValueZero`; canonical `Dec` pairs make numeric equality literal. -/
def primEq : RVal → RVal → Bool
  | .rnull, .rnull => true
  | .rundef, .rundef => true
  | .rbool a, .rbool b => a = b
  | .rnum a, .rnum b => a = b
  | .rstr a, .rstr b => a = b
  | .rbigint a, .rbigint b => a = b
  | _, _ => false

/-- `new Set(list)`: keep the first occurrence of each (SameValueZero)
element; `acc` holds the elements already in the set. -/
def dedupPrimGo (acc : List RVal) : List RVal → List RVal
  | [] => []
  | x :: xs =>
    if acc.any (fun y => primEq y x) then dedupPrimGo acc xs
    else x :: dedupPrimGo (x :: acc) xs

def dedupPrim (l : List RVal) : List RVal := dedupPrimGo [] l

def mkSet (l : RList) : RList := RList.ofList (dedupPrim l.toList)

/-- One `Map.prototype.set` step on an association list: an existing (Same-
ValueZero) key keeps its position and first key object, with the value
updated; otherwise the pair is appended. -/
def mapInsert (k v : RVal) : List (RVal × RVal) → List (RVal × RVal)
  | [] => [(k, v)]
  | (k', v') :: t => if primEq k' k then (k', v) :: t else (k', v') :: mapInsert k v t

/-- `new Map(entries)`: insert the entries in order. -/
def mkMap (ps : RPairs) : RPairs :=
  RPairs.ofList (ps.toList.foldl (fun acc kv => mapInsert kv.1 kv.2 acc) [])

/-- Whether a string is exactly a `toISOString` output
(`YYYY-MM-DDTHH:MM:SS.mmmZ` with in-range fields); see the header note on
dates. -/
def isCanonIso (s : String) : Bool :=
  match s.data with
  | [y1, y2, y3, y4, '-', m1, m2, '-', d1, d2, 'T',
     h1, h2, ':', mi1, mi2, ':', s1, s2, '.', f1, f2, f3, 'Z'] =>
    [y1, y2, y3, y4, m1, m2, d1, d2, h1, h2, mi1, mi2, s1, s2, f1, f2, f3].all isDigitC &&
    (let y := digitsToNat [y1, y2, y3, y4]
     let mo := digitsToNat [m1, m2]
     let dy := digitsToNat [d1, d2]
     1 ≤ mo && mo ≤ 12 && 1 ≤ dy && dy ≤ daysInMonth y mo &&
     digitsToNat [h1, h2] ≤ 23 && digitsToNat [mi1, mi2] ≤ 59 &&
     digitsToNat [s1, s2] ≤ 59)
  | _ => false
where
  daysInMonth (y mo : Nat) : Nat :=
    if mo = 2 then (if y % 4 = 0 && (y % 100 ≠ 0 || y % 400 = 0) then 29 else 28)
    else if mo = 4 || mo = 6 || mo = 9 || mo = 11 then 30
    else 31

/-- The date-only `YYYY-MM-DD` form also accepted by `new Date` (read as UTC
midnight). -/
def isDateOnly (s : String) : Bool :=
  match s.data with
  | [y1, y2, y3, y4, '-', m1, m2, '-', d1, d2] =>
    [y1, y2, y3, y4, m1, m2, d1, d2].all isDigitC &&
    (let y := digitsToNat [y1, y2, y3, y4]
     let mo := digitsToNat [m1, m2]
     let dy := digitsToNat [d1, d2]
     1 ≤ mo && mo ≤ 12 && 1 ≤ dy && dy ≤ isCanonIso.daysInMonth y mo)
  | _ => false

/-- Model of `new Date(s)` for the handler: the canonical ISO form maps to
itself, the date-only form to its UTC-midnight canonical form, anything else
to an invalid date (`NaN` time). -/
def parseDateIso (s : String) : Option String :=
  if isCanonIso s then some s
  else if isDateOnly s then some (s ++ "T00:00:00.000Z")
  else none

/-- Model of `BigInt(s)` (decimal forms; see the header note): optional
sign, then at least one digit. -/
def parseBigIntStr (s : String) : Option Int :=
  match s.data with
  | '-' :: ds => if ds ≠ [] && ds.all isDigitC then some (-(digitsToNat ds : Int)) else none
  | '+' :: ds => if ds ≠ [] && ds.all isDigitC then some (digitsToNat ds : Int) else none
  | ds => if ds ≠ [] && ds.all isDigitC then some (digitsToNat ds : Int) else none

mutual

/-- Port of `reviveValue(value, ctx)`: null, arrays element-wise, non-object
primitives unchanged; objects are checked for the tagged shape (string
`$type` plus own `$value`), validated to have exactly the two designated
keys, dispatched to the named handler (unknown names are errors); all other
objects revive key-by-key. -/
def reviveValue : Nat → Json → Option (Except RErr RVal)
  | 0, _ => none
  | f + 1, v =>
    match v with
    | .null => some (.ok .rnull)
    | .arr l =>
      (match revArr f l with
       | none => none
       | some (.error e) => some (.error e)
       | some (.ok rl) => some (.ok (.rarr rl)))
    | .bool b => some (.ok (.rbool b))
    | .num d => some (.ok (.rnum (.fin d)))
    | .str s => some (.ok (.rstr s))
    | .obj fl =>
      -- `isTaggedValue`: a plain object whose `$type` is a string and which
      -- has an own `$value`
      match fl.lookup "$type" with
      | some (.str name) =>
        if fl.hasKey "$value" then
          -- `keys.length !== 2 || !keys.includes('$type') || !keys.includes('$value')`
          if ¬ (fl.length = 2 ∧ "$type" ∈ fl.keys ∧ "$value" ∈ fl.keys) then
            some (.error ⟨"Invalid tagged value shape"⟩)
          else
            let payload := (fl.lookup "$value").getD .null
            reviveTagged f name payload
        else
          -- not a tagged value: a regular object
          (match revFields f fl with
           | none => none
           | some (.error e) => some (.error e)
           | some (.ok out) => some (.ok (.robj out .none)))
      | _ =>
        (match revFields f fl with
         | none => none
         | some (.error e) => some (.error e)
         | some (.ok out) => some (.ok (.robj out .none)))

/-- `getHandler(value.$type)` then `handler.deserialize(value.$value, ctx)`;
an unknown name is `TypeError('Unknown type: ...')`.  The six built-in
deserializers are inlined here (see `handlers/builtins.ts`). -/
def reviveTagged : Nat → String → Json → Option (Except RErr RVal)
  | 0, _, _ => none
  | _ + 1, "Date", payload =>
    -- dateHandler.deserialize
    (match payload with
     | .str s =>
       (match parseDateIso s with
        | some iso => some (.ok (.rdate iso))
        | none =>
          some (.error ⟨"Date: invalid date string \"" ++ s ++ "\""⟩))
     | _ => some (.error ⟨"Date: expected ISO string"⟩))
  | _ + 1, "BigInt", payload =>
    -- bigintHandler.deserialize; a failing `BigInt(s)` throws a SyntaxError
    (match payload with
     | .str s =>
       (match parseBigIntStr s with
        | some z => some (.ok (.rbigint z))
        | none => some (.error ⟨"Cannot convert " ++ s ++ " to a BigInt"⟩))
     | _ => some (.error ⟨"BigInt: expected string"⟩))
  | _ + 1, "RegExp", payload =>
    -- regexpHandler.deserialize
    (match payload with
     | .obj pfl =>
       (match pfl.lookup "source", pfl.lookup "flags" with
        | some (.str src), some (.str flgs) => some (.ok (.rregexp src flgs))
        | _, _ =>
          some (.error ⟨"RegExp: expected \x7bsource: string, flags: string\x7d"⟩))
     | _ => some (.error ⟨"RegExp: expected \x7bsource, flags\x7d"⟩))
  | _ + 1, "URL", payload =>
    -- urlHandler.deserialize (`new URL(s)`; see the header note on URLs)
    (match payload with
     | .str s => some (.ok (.rurl s))
     | _ => some (.error ⟨"URL: expected string"⟩))
  | f + 1, "Set", payload =>
    -- setHandler.deserialize: `new Set(data.map((v) => ctx.deserialize(v)))`
    (match payload with
     | .arr l =>
       (match revArr f l with
        | none => none
        | some (.error e) => some (.error e)
        | some (.ok rl) => some (.ok (.rset (mkSet rl))))
     | _ => some (.error ⟨"Set: expected array"⟩))
  | f + 1, "Map", payload =>
    -- mapHandler.deserialize: per-entry shape check, recursive deserialize,
    -- then `new Map(...)`
    (match payload with
     | .arr l =>
       (match revMapEntries f l with
        | none => none
        | some (.error e) => some (.error e)
        | some (.ok ps) => some (.ok (.rmap (mkMap ps))))
     | _ => some (.error ⟨"Map: expected array of entries"⟩))
  | _ + 1, name, _ => some (.error ⟨"Unknown type: " ++ name⟩)

def revArr : Nat → JArr → Option (Except RErr RList)
  | 0, _ => none
  | _ + 1, .nil => some (.ok .nil)
  | f + 1, .cons x xs =>
    match reviveValue f x with
    | none => none
    | some (.error e) => some (.error e)
    | some (.ok r) =>
      match revArr f xs with
      | none => none
      | some (.error e) => some (.error e)
      | some (.ok t) => some (.ok (.cons r t))

def revFields : Nat → JFields → Option (Except RErr RFields)
  | 0, _ => none
  | _ + 1, .nil => some (.ok .nil)
  | f + 1, .cons k x xs =>
    match reviveValue f x with
    | none => none
    | some (.error e) => some (.error e)
    | some (.ok r) =>
      match revFields f xs with
      | none => none
      | some (.error e) => some (.error e)
      | some (.ok t) => some (.ok (.cons k r t))

/-- Map entries: `!Array.isArray(entry) || entry.length !== 2` is an error;
otherwise both sides deserialize. -/
def revMapEntries : Nat → JArr → Option (Except RErr RPairs)
  | 0, _ => none
  | _ + 1, .nil => some (.ok .nil)
  | f + 1, .cons entry rest =>
    match entry with
    | .arr (.cons k (.cons v .nil)) =>
      (match reviveValue f k with
       | none => none
       | some (.error e) => some (.error e)
       | some (.ok rk) =>
         match reviveValue f v with
         | none => none
         | some (.error e) => some (.error e)
         | some (.ok rv) =>
           match revMapEntries f rest with
           | none => none
           | some (.error e) => some (.error e)
           | some (.ok t) => some (.ok (.cons rk rv t)))
    | _ => some (.error ⟨"Map: each entry must be [key, value]"⟩)

end

/-! ## Size functions (fuel budgets for the top-level wrappers) -/

mutual
/-- A structural size that dominates the conversion/revival call depth of a
reference-free value. -/
def rsize : RVal → Nat
  | .rarr l => rsizeL l + 2
  | .robj fl tj => rsizeF fl + rsizeO tj + 2
  | .rset l => rsizeL l + 2
  | .rmap ps => rsizeP ps + 2
  | _ => 2
def rsizeL : RList → Nat
  | .nil => 1
  | .cons x t => rsize x + rsizeL t + 1
def rsizeF : RFields → Nat
  | .nil => 1
  | .cons _ v t => rsize v + rsizeF t + 1
def rsizeP : RPairs → Nat
  | .nil => 1
  | .cons k v t => rsize k + rsize v + rsizeP t + 3
def rsizeO : ROpt → Nat
  | .none => 1
  | .some v => rsize v + 1
end

mutual
/-- A structural size that dominates the revival call depth of a JSON
tree. -/
def jsizeJ : Json → Nat
  | .arr l => jsizeA l + 2
  | .obj fl => jsizeF fl + 2
  | _ => 2
def jsizeA : JArr → Nat
  | .nil => 1
  | .cons h t => jsizeJ h + jsizeA t + 1
def jsizeF : JFields → Nat
  | .nil => 1
  | .cons _ v t => jsizeJ v + jsizeF t + 1
end

/-! ## The public API (`create()`'s returned instance, with the built-in
handlers) -/

/-- Port of `StringifyOptions` (`space` is presentation-only and not
modelled). -/
structure StringifyOptions where
  sorted : Bool := false
  strict : Bool := false
deriving DecidableEq

/-- Port of `stringify(value, options)`: convert with a fresh cycle guard
(`new WeakSet()`, so `seen = []` and the frame is not on the context's set),
map `SKIP` to `null`, and emit text.  `fuel` is the model's recursion
budget; `tsonStringifyT` supplies a proven-sufficient budget for trees. -/
def tsonStringify (h : Heap) (fuel : Nat) (v : RVal) (opts : StringifyOptions) :
    Option (Except CErr String) :=
  match convertValue fuel h opts.strict v [] false with
  | none => none
  | some (.error e) => some (.error e)
  | some (.ok result) =>
    some (.ok (stringifyJson (result.getD .null) opts.sorted))

/-- `stringify` on a reference-free value (the common tree case): the budget
`rsize v + 1` is sufficient, so the result is never `none` there. -/
def tsonStringifyT (v : RVal) (opts : StringifyOptions) : Option (Except CErr String) :=
  tsonStringify [] (rsize v + 1) v opts

/-- An error from `parse`: a `TsonParseError` from the tokenizer/parser, or
an error thrown during revival. -/
inductive TErr where
  | parseErr (e : PErr)
  | reviveErr (e : RErr)
deriving DecidableEq

/-- Port of `parse(text)` with `revive` left at its default (`true`): parse
the JSON tree, then revive it. -/
def tsonParse (text : String) : Option (Except TErr RVal) :=
  match parseJson text with
  | .error e => some (.error (.parseErr e))
  | .ok json =>
    match reviveValue (jsizeJ json + 1) json with
    | none => none
    | some (.error e) => some (.error (.reviveErr e))
    | some (.ok v) => some (.ok v)

/-! ## Handler registry (`register` / `unregister` / `handlers` in
`tson.ts`)

For the registry claims only a handler's identity and name matter (its
`test`/`serialize`/`deserialize` are never consulted by the mutation paths),
so a handler is modelled as a name plus an allocation identity standing for
JS reference identity.  The instance state is the name-indexed `Map` (an
insertion-ordered association list, as JS `Map` is) and the precedence
array. -/

structure HandlerRef where
  hid : Nat
  name : String
deriving DecidableEq

/-- `Map.prototype.get`. -/
def mapGet (m : List (String × HandlerRef)) (k : String) : Option HandlerRef :=
  match m with
  | [] => none
  | (k', v) :: t => if k' = k then some v else mapGet t k

/-- `Map.prototype.set`: replace in place or append. -/
def mapSet (m : List (String × HandlerRef)) (k : String) (v : HandlerRef) :
    List (String × HandlerRef) :=
  match m with
  | [] => [(k, v)]
  | (k', v') :: t => if k' = k then (k', v) :: t else (k', v') :: mapSet t k v

/-- `Map.prototype.delete`. -/
def mapDelete (m : List (String × HandlerRef)) (k : String) :
    List (String × HandlerRef) :=
  match m with
  | [] => []
  | (k', v') :: t => if k' = k then t else (k', v') :: mapDelete t k

/-- The per-instance registry state (`handlers` map and `handlerList`). -/
structure Registry where
  handlers : List (String × HandlerRef)
  handlerList : List HandlerRef
deriving DecidableEq

/-- Port of `register(handler)`: a duplicate name is an error (raised before
any mutation); otherwise index by name and append to the precedence list. -/
def registerH (r : Registry) (hr : HandlerRef) : Except String Registry :=
  if (mapGet r.handlers hr.name).isSome then
    .error ("Handler \"" ++ hr.name ++ "\" already registered")
  else
    .ok ⟨mapSet r.handlers hr.name hr, r.handlerList ++ [hr]⟩

/-- `Array.prototype.indexOf` by reference identity (`none` for `-1`). -/
def indexOfH (x : HandlerRef) : List HandlerRef → Option Nat
  | [] => none
  | y :: t => if y = x then some 0 else (indexOfH x t).map (· + 1)

/-- `Array.prototype.splice(idx, 1)`. -/
def spliceOne : List HandlerRef → Nat → List HandlerRef
  | [], _ => []
  | _ :: t, 0 => t
  | y :: t, n + 1 => y :: spliceOne t n

/-- Port of `unregister(name)`: report `false` and leave the state untouched
for an unknown name; otherwise delete from the map and splice the handler
(located by `indexOf`, i.e. reference identity) out of the precedence
list. -/
def unregisterH (r : Registry) (name : String) : Bool × Registry :=
  match mapGet r.handlers name with
  | none => (false, r)
  | some hr =>
    let handlers := mapDelete r.handlers name
    let handlerList :=
      match indexOfH hr r.handlerList with
      | some idx => spliceOne r.handlerList idx
      | none => r.handlerList
    (true, ⟨handlers, handlerList⟩)

/-- Port of `handlers()`: the names in precedence order. -/
def handlerNames (r : Registry) : List String := r.handlerList.map (·.name)

/-! ## Claim C4 — skip semantics for non-representable values -/

/-- The `typeof` name of a non-representable value, as interpolated into the
strict-mode `TypeError` message. -/
def typeNameOf : RVal → String
  | .rundef => "undefined"
  | .rfun => "function"
  | .rsym => "symbol"
  | _ => ""

/-- C4: during stringify, a value with no JSON representation (an absence
marker, a callable, a symbol) is omitted when it is the value of an object
key, becomes `null` as an array element (positions are never omitted),
raises a `TypeError` in both positions under strict mode, and renders as the
text `null` when it is itself the top-level value. -/
theorem c4_skip_semantics (f : Nat) (h : Heap) (v : RVal) (k1 k2 s : String)
    (seen : List Nat) (c : Bool)
    (hv : v = .rundef ∨ v = .rfun ∨ v = .rsym) :
    convertValue (f + 5) h false (.robj (.cons k1 (.rstr s) (.cons k2 v .nil)) .none) seen c
      = some (.ok (some (.obj (.cons k1 (.str s) .nil)))) ∧
    convertValue (f + 5) h false (.rarr (.cons (.rstr s) (.cons v .nil))) seen c
      = some (.ok (some (.arr (.cons (.str s) (.cons .null .nil))))) ∧
    convertValue (f + 5) h true (.robj (.cons k1 (.rstr s) (.cons k2 v .nil)) .none) seen c
      = some (.error ⟨"Cannot serialize " ++ typeNameOf v⟩) ∧
    convertValue (f + 5) h true (.rarr (.cons (.rstr s) (.cons v .nil))) seen c
      = some (.error ⟨"Cannot serialize " ++ typeNameOf v⟩) ∧
    tsonStringifyT v {} = some (.ok "null") := by
  rcases hv with rfl | rfl | rfl <;>
    refine ⟨?_, ?_, ?_, ?_, ?_⟩ <;>
    simp [convertValue, convertNode, convFields, convArr, typeNameOf, inSeen,
      pushId, tsonStringifyT, tsonStringify, rsize, stringifyJson, printJsonL]

/-- Witness for `c4_skip_semantics` at `v = undefined` in `{"a": "x", "b":
undefined}` and `["x", undefined]`. -/
theorem c4_skip_semantics_witness :
    convertValue 5 [] false (.robj (.cons "a" (.rstr "x") (.cons "b" .rundef .nil)) .none) [] false
      = some (.ok (some (.obj (.cons "a" (.str "x") .nil)))) ∧
    tsonStringifyT .rundef {} = some (.ok "null") := by
  have h := c4_skip_semantics 0 [] (.rundef) "a" "b" "x" [] false (Or.inl rfl)
  exact ⟨h.1, h.2.2.2.2⟩

/-! ## Claim C5 — finite and non-finite numbers -/

/-- C5: every finite number passes through conversion unchanged (in either
strictness mode); a non-finite number becomes `null` by default and raises a
`TypeError` under strict mode at any position; stringifying a non-finite
number at the root yields the text `null`. -/
theorem c5_number_handling (f : Nat) (h : Heap) (d : Dec) (n : JNum)
    (seen : List Nat) (c strict : Bool)
    (hn : n.isFinite = false) :
    convertValue (f + 1) h strict (.rnum (.fin d)) seen c = some (.ok (some (.num d))) ∧
    convertValue (f + 1) h false (.rnum n) seen c = some (.ok (some .null)) ∧
    convertValue (f + 1) h true (.rnum n) seen c
      = some (.error ⟨"Infinity/NaN not allowed in JSON"⟩) ∧
    tsonStringifyT (.rnum n) {} = some (.ok "null") := by
  cases n <;> simp_all [JNum.isFinite] <;>
    refine ⟨?_, ?_, ?_, ?_⟩ <;>
    simp [convertValue, tsonStringifyT, tsonStringify, rsize, stringifyJson, printJsonL]

/-- Witness for `c5_number_handling` at `d = 1` and `n = Infinity`. -/
theorem c5_number_handling_witness :
    convertValue 1 [] false (.rnum (.fin ⟨1, 0⟩)) [] false
      = some (.ok (some (.num ⟨1, 0⟩))) ∧
    tsonStringifyT (.rnum .posInf) {} = some (.ok "null") := by
  have h := c5_number_handling 0 [] ⟨1, 0⟩ .posInf [] false false rfl
  exact ⟨h.1, h.2.2.2⟩

/-! ## Claim C9 — the `toJSON` path -/

/-- C9: for an object that matches no handler and exposes a callable
`toJSON` (modelled by the `toJson` slot), conversion returns exactly the
conversion of `toJSON()`'s result — with the *same* cycle-guard set, i.e.
the object's identity is never added to the guard on this path.  Stated both
for a heap object (whose identity could have been guarded) and for a
structural one. -/
theorem c9_tojson_delegation (f : Nat) (h : Heap) (i : Nat) (fl : RFields)
    (tj : RVal) (strict : Bool) (seen : List Nat) (c : Bool)
    (hi : heapFind h i = some (.hobj fl (.some tj))) :
    convertValue (f + 2) h strict (.ref i) seen c = convertValue f h strict tj seen c ∧
    convertValue (f + 2) h strict (.robj fl (.some tj)) seen c
      = convertValue f h strict tj seen c := by
  constructor
  · show convertValue (f + 1 + 1) h strict (.ref i) seen c = _
    simp [convertValue, convertNode, hi]
  · show convertValue (f + 1 + 1) h strict (.robj fl (.some tj)) seen c = _
    simp [convertValue, convertNode]

/-- Witness for `c9_tojson_delegation`: a heap object whose `toJSON` returns
the string `"x"`. -/
theorem c9_tojson_delegation_witness :
    convertValue 5 [(0, .hobj .nil (.some (.rstr "x")))] false (.ref 0) [] false
      = convertValue 3 [(0, .hobj .nil (.some (.rstr "x")))] false (.rstr "x") [] false := by
  exact (c9_tojson_delegation 3 [(0, .hobj .nil (.some (.rstr "x")))] 0 .nil (.rstr "x")
    false [] false (by decide)).1

/-! ## Claim C2 — cycle detection and guard scoping -/

/-- The node kinds that are registered in the cycle guard when conversion
enters them: every object except one that delegates to `toJSON` (the latter
is converted without a guard check — see C9). -/
def guardedNode : HNode → Prop
  | .hobj _ (.some _) => False
  | _ => True

instance : DecidablePred guardedNode := by
  intro nd
  unfold guardedNode
  cases nd with
  | hobj fl tj => cases tj <;> simp <;> infer_instance
  | _ => infer_instance

/-- A self-referential object via an array: `X = {a: [X]}`. -/
def cycViaArrHeap : Heap :=
  [(0, .hobj (.cons "a" (.ref 1) .nil) .none), (1, .harr (.cons (.ref 0) .nil))]

/-- A set containing itself (a cycle through a handler-backed container). -/
def cycSetHeap : Heap := [(0, .hset (.cons (.ref 0) .nil))]

/-- A shared (but acyclic) object used in two disjoint branches. -/
def sharedHeap : Heap := [(0, .hobj (.cons "x" (.rstr "v") .nil) .none)]

/-- C2 (amended; see the counterexample for the original): (i) reaching an
object or array whose identity is on the received guard set — any guarded
node, i.e. anything but a `toJSON` delegator — raises the circular-reference
error at once; (ii) a self-referential object through an array raises it,
and (iii) so does a set containing itself (the error appears on the context
set after one unrolling across the handler boundary); (iv) reusing the same
object in two disjoint branches does not raise; and (v) `stringify` starts
every call's conversion from an empty guard set (the model is stateless, so
nothing can persist across calls: a repeated call is literally the same
expression). -/
theorem c2_cycle_guard (f : Nat) (h : Heap) (strict : Bool) (v : RVal)
    (seen : List Nat) (c : Bool) (i : Nat) (nd : HNode) (fuel : Nat)
    (opts : StringifyOptions)
    (hmem : i ∈ seen) (hnd : heapFind h i = some nd) (hg : guardedNode nd) :
    convertValue (f + 2) h strict (.ref i) seen c = some (.error circularErr) ∧
    convertValue 20 cycViaArrHeap false (.ref 0) [] false = some (.error circularErr) ∧
    convertValue 20 cycSetHeap false (.ref 0) [] false = some (.error circularErr) ∧
    convertValue 20 sharedHeap false
        (.robj (.cons "a" (.ref 0) (.cons "b" (.ref 0) .nil)) .none) [] false
      = some (.ok (some (.obj
          (.cons "a" (.obj (.cons "x" (.str "v") .nil))
            (.cons "b" (.obj (.cons "x" (.str "v") .nil)) .nil))))) ∧
    tsonStringify h fuel v opts
      = (match convertValue fuel h opts.strict v [] false with
         | none => none
         | some (.error e) => some (.error e)
         | some (.ok result) =>
           some (.ok (stringifyJson (result.getD .null) opts.sorted))) := by
  refine ⟨?_, by decide, by decide, by decide, rfl⟩
  show convertValue (f + 1 + 1) h strict (.ref i) seen c = _
  have hseen : inSeen (some i) seen = true := by
    simp only [inSeen]
    exact List.elem_eq_true_of_mem hmem
  cases nd with
  | harr l => simp [convertValue, convertNode, hnd, hseen]
  | hobj fl tj =>
    cases tj with
    | none => simp [convertValue, convertNode, hnd, hseen]
    | some tj0 => exact absurd hg (by simp [guardedNode])
  | hset l => simp [convertValue, convertNode, hnd, hseen]
  | hmap ps => simp [convertValue, convertNode, hnd, hseen]
  | hdate iso => simp [convertValue, convertNode, hnd, hseen]
  | hregexp src flgs => simp [convertValue, convertNode, hnd, hseen]
  | hurl u => simp [convertValue, convertNode, hnd, hseen]

/-- Witness for `c2_cycle_guard`: identity 0 is already on the guard while
its plain object is reached again. -/
theorem c2_cycle_guard_witness :
    convertValue 7 sharedHeap false (.ref 0) [0] false = some (.error circularErr) := by
  exact (c2_cycle_guard 5 sharedHeap false (.ref 0) [0] false 0
    (.hobj (.cons "x" (.rstr "v") .nil) .none) 7 {} (by decide) (by decide)
    (by simp [guardedNode])).1

/-- An object whose callable `toJSON` returns the object itself:
`X = {toJSON: () => X}`. -/
def toJsonCycleHeap : Heap := [(0, .hobj (.cons "toJSON" .rfun .nil) (.some (.ref 0)))]

/-- The conversion of `toJsonCycleHeap`'s object never yields a result at
any fuel: the run never terminates (in JS, a stack overflow), and in
particular never raises the circular-reference error. -/
def toJsonCycleDiverges : Prop :=
  ∀ f strict seen c, convertValue f toJsonCycleHeap strict (.ref 0) seen c = none

/-- C2 counterexample: the claim promises a circular-reference error for
*every* object reached again while still being converted, including through
an object whose conversion is delegated to `toJSON`; but a `toJSON`
delegator is never registered in the guard, so `X = {toJSON: () => X}`
diverges (JS: stack overflow) instead of raising the error — `stringify`
returns no result and no error at any budget. -/
theorem c2_counterexample :
    toJsonCycleDiverges ∧ tsonStringify toJsonCycleHeap 50 (.ref 0) {} = none := by
  have key : toJsonCycleDiverges := by
    intro f
    induction f using Nat.strong_induction_on with
    | _ f ih =>
      match f with
      | 0 => intro strict seen c; rfl
      | 1 => intro strict seen c; simp [convertValue, convertNode, toJsonCycleHeap, heapFind]
      | g + 2 =>
        intro strict seen c
        show convertValue (g + 1 + 1) _ _ _ _ _ = none
        simp only [convertValue, toJsonCycleHeap, heapFind, if_pos]
        simp only [convertNode]
        exact ih g (by omega) strict seen c
  exact ⟨key, by
    have h50 := key 50 false [] false
    simp [tsonStringify, h50]⟩


/-! ## Claim C7 — registry mutation -/

/-- The invariant `create()` establishes and every mutation preserves: the
name map indexes exactly the precedence list, and names are unique. -/
def regWF (r : Registry) : Prop :=
  r.handlers = r.handlerList.map (fun hr => (hr.name, hr)) ∧
    (r.handlerList.map (·.name)).Nodup

/-- `mapGet` misses exactly the absent names. -/
theorem mapGet_map_eq_none (L : List HandlerRef) (nm : String) :
    mapGet (L.map (fun hr => (hr.name, hr))) nm = none ↔ nm ∉ L.map (·.name) := by
  induction L with
  | nil => simp [mapGet]
  | cons hd tl ih =>
    by_cases hh : hd.name = nm
    · simp [mapGet, hh]
    · simp only [List.map_cons, mapGet, if_neg hh, ih, List.mem_cons]
      constructor
      · intro h hc
        rcases hc with hc | hc
        · exact hh hc.symm
        · exact h hc
      · intro h hc
        exact h (Or.inr hc)

/-- A hit in the name map is a member of the list bearing that name. -/
theorem mapGet_map_eq_some (L : List HandlerRef) (nm : String) (h0 : HandlerRef)
    (h : mapGet (L.map (fun hr => (hr.name, hr))) nm = some h0) :
    h0 ∈ L ∧ h0.name = nm := by
  induction L with
  | nil => simp [mapGet] at h
  | cons hd tl ih =>
    by_cases hh : hd.name = nm
    · simp [mapGet, hh] at h
      subst h
      exact ⟨List.mem_cons_self .., hh⟩
    · simp [mapGet, hh] at h
      have := ih h
      exact ⟨List.mem_cons_of_mem _ this.1, this.2⟩

/-- Setting an absent key appends. -/
theorem mapSet_absent (m : List (String × HandlerRef)) (k : String) (v : HandlerRef)
    (h : mapGet m k = none) : mapSet m k v = m ++ [(k, v)] := by
  induction m with
  | nil => rfl
  | cons hd tl ih =>
    by_cases hh : hd.1 = k
    · simp [mapGet, hh] at h
    · cases hd
      simp_all [mapGet, mapSet, hh]

/-- Lookup of an absent key. -/
theorem mapGet_eq_none_of_not_mem (m : List (String × HandlerRef)) (k : String)
    (h : k ∉ m.map (·.1)) : mapGet m k = none := by
  induction m with
  | nil => rfl
  | cons hd tl ih =>
    simp only [List.map_cons, List.mem_cons] at h
    have hh : hd.1 ≠ k := fun e => h (Or.inl e.symm)
    simp only [mapGet, if_neg hh]
    exact ih fun hm => h (Or.inr hm)

/-- Deleting a key from a map with unique keys removes it. -/
theorem mapGet_delete_self (m : List (String × HandlerRef)) (k : String)
    (hnd : (m.map (·.1)).Nodup) : mapGet (mapDelete m k) k = none := by
  induction m with
  | nil => rfl
  | cons hd tl ih =>
    simp only [List.map_cons, List.nodup_cons] at hnd
    by_cases hh : hd.1 = k
    · simp only [mapDelete, if_pos hh]
      exact mapGet_eq_none_of_not_mem tl k (hh ▸ hnd.1)
    · simp only [mapDelete, if_neg hh, mapGet, if_neg hh]
      exact ih hnd.2

/-- Deleting the found name from the exact-index map is erasing its handler
from the mapped list. -/
theorem mapDelete_map_erase (L : List HandlerRef) (nm : String) (h0 : HandlerRef)
    (hget : mapGet (L.map (fun hr => (hr.name, hr))) nm = some h0) :
    mapDelete (L.map (fun hr => (hr.name, hr))) nm
      = (L.erase h0).map (fun hr => (hr.name, hr)) := by
  induction L with
  | nil => simp [mapGet] at hget
  | cons hd tl ih =>
    by_cases hh : hd.name = nm
    · simp only [List.map_cons, mapGet, if_pos hh] at hget
      injection hget with hget
      subst hget
      simp [mapDelete, hh, List.erase_cons_head]
    · simp only [List.map_cons, mapGet, if_neg hh] at hget
      have hne : hd ≠ h0 := by
        intro e
        exact hh (e ▸ (mapGet_map_eq_some tl nm h0 hget).2)
      rw [List.map_cons, mapDelete, if_neg hh, List.erase_cons_tail, List.map_cons,
        ih hget]
      simp [hne]

/-- The source's `indexOf` + `splice(idx, 1)` on a member is `List.erase`. -/
theorem indexOf_splice_erase (l : List HandlerRef) (x : HandlerRef) (hx : x ∈ l) :
    ∃ j, indexOfH x l = some j ∧ spliceOne l j = l.erase x := by
  induction l with
  | nil => cases hx
  | cons hd tl ih =>
    by_cases hh : hd = x
    · subst hh
      exact ⟨0, by simp [indexOfH], by simp [spliceOne, List.erase_cons_head]⟩
    · have hx' : x ∈ tl := by
        cases hx with
        | head => exact absurd rfl hh
        | tail _ h => exact h
      obtain ⟨j, hj, hs⟩ := ih hx'
      refine ⟨j + 1, ?_, ?_⟩
      · simp [indexOfH, hh, hj]
      · rw [List.erase_cons_tail (by simp [hh])]
        show spliceOne (hd :: tl) (j + 1) = _
        rw [spliceOne, hs]

/-- C7: on a well-formed instance, `register` with a duplicate name raises
the duplicate-handler error (raised before any mutation, so the registry is
unchanged), and a fresh name appends while preserving well-formedness;
`unregister` of an unknown name returns `false` with the registry untouched;
`unregister` of a registered name returns `true`, removes it from the name
index (so revival dispatch by name no longer finds it) and from the
precedence list (so predicate dispatch no longer reaches it), and the
remaining handlers keep their relative order (the new list is the old one
with exactly that handler erased — a sublist of the old). -/
theorem c7_registry (r : Registry) (hr : HandlerRef) (nm : String)
    (hwf : regWF r) :
    ((mapGet r.handlers hr.name).isSome →
      registerH r hr = .error ("Handler \"" ++ hr.name ++ "\" already registered")) ∧
    ((mapGet r.handlers hr.name).isNone →
      registerH r hr = .ok ⟨r.handlers ++ [(hr.name, hr)], r.handlerList ++ [hr]⟩ ∧
      regWF ⟨r.handlers ++ [(hr.name, hr)], r.handlerList ++ [hr]⟩) ∧
    ((mapGet r.handlers nm).isNone → unregisterH r nm = (false, r)) ∧
    (∀ h0, mapGet r.handlers nm = some h0 →
      (unregisterH r nm).1 = true ∧
      mapGet (unregisterH r nm).2.handlers nm = none ∧
      h0 ∉ (unregisterH r nm).2.handlerList ∧
      (unregisterH r nm).2.handlerList = r.handlerList.erase h0 ∧
      (unregisterH r nm).2.handlerList.Sublist r.handlerList ∧
      regWF (unregisterH r nm).2) := by
  obtain ⟨hmap, hnd⟩ := hwf
  refine ⟨?_, ?_, ?_, ?_⟩
  · intro hdup
    rw [registerH, if_pos hdup]
  · intro hfresh
    rw [Option.isNone_iff_eq_none] at hfresh
    have happ := mapSet_absent r.handlers hr.name hr hfresh
    have hnotin : hr.name ∉ r.handlerList.map (·.name) := by
      rw [hmap] at hfresh
      exact (mapGet_map_eq_none _ _).mp hfresh
    refine ⟨by rw [registerH, if_neg (by simp [hfresh]), happ], ?_, ?_⟩
    · simp [hmap]
    · simp only [List.map_append, List.map_cons, List.map_nil]
      refine List.Nodup.append hnd (List.nodup_singleton _) ?_
      intro x hx hy
      simp only [List.mem_singleton] at hy
      subst hy
      exact hnotin hx
  · intro hmiss
    rw [Option.isNone_iff_eq_none] at hmiss
    rw [unregisterH, hmiss]
  · intro h0 hget
    have hget' := hget
    rw [hmap] at hget'
    obtain ⟨hmem, hname⟩ := mapGet_map_eq_some _ _ _ hget'
    have hlnd : r.handlerList.Nodup := List.Nodup.of_map _ hnd
    obtain ⟨j, hj, hs⟩ := indexOf_splice_erase r.handlerList h0 hmem
    have hstate : unregisterH r nm
        = (true, ⟨mapDelete r.handlers nm, r.handlerList.erase h0⟩) := by
      rw [unregisterH, hget]
      simp only [hj, hs]
    refine ⟨by rw [hstate], ?_, ?_, by rw [hstate], ?_, ?_⟩
    · rw [hstate]
      exact mapGet_delete_self _ _ (by rw [hmap]; simpa using hnd)
    · rw [hstate]
      intro habs
      exact ((List.Nodup.mem_erase_iff hlnd).mp habs).1 rfl
    · rw [hstate]
      exact List.erase_sublist ..
    · rw [hstate]
      constructor
      · simp only [hmap]
        exact mapDelete_map_erase _ _ _ hget'
      · exact List.Nodup.sublist (List.Sublist.map _ (List.erase_sublist ..)) hnd

/-- Witness for `c7_registry` on a two-handler instance: re-registering
`"Date"` fails, unregistering `"Nope"` reports `false`, and unregistering
`"Date"` removes it and keeps `"Map"`. -/
theorem c7_registry_witness :
    registerH ⟨[("Date", ⟨0, "Date"⟩), ("Map", ⟨1, "Map"⟩)], [⟨0, "Date"⟩, ⟨1, "Map"⟩]⟩
        ⟨2, "Date"⟩ = .error "Handler \"Date\" already registered" ∧
    unregisterH ⟨[("Date", ⟨0, "Date"⟩), ("Map", ⟨1, "Map"⟩)], [⟨0, "Date"⟩, ⟨1, "Map"⟩]⟩
        "Nope"
      = (false, ⟨[("Date", ⟨0, "Date"⟩), ("Map", ⟨1, "Map"⟩)], [⟨0, "Date"⟩, ⟨1, "Map"⟩]⟩) ∧
    (unregisterH ⟨[("Date", ⟨0, "Date"⟩), ("Map", ⟨1, "Map"⟩)], [⟨0, "Date"⟩, ⟨1, "Map"⟩]⟩
        "Date").2.handlerList = [⟨1, "Map"⟩] := by
  have hwf : regWF ⟨[("Date", ⟨0, "Date"⟩), ("Map", ⟨1, "Map"⟩)],
      [⟨0, "Date"⟩, ⟨1, "Map"⟩]⟩ := by
    constructor
    · rfl
    · decide
  have h := c7_registry ⟨[("Date", ⟨0, "Date"⟩), ("Map", ⟨1, "Map"⟩)],
    [⟨0, "Date"⟩, ⟨1, "Map"⟩]⟩ ⟨2, "Date"⟩ "Nope" hwf
  have h2 := c7_registry ⟨[("Date", ⟨0, "Date"⟩), ("Map", ⟨1, "Map"⟩)],
    [⟨0, "Date"⟩, ⟨1, "Map"⟩]⟩ ⟨2, "Date"⟩ "Date" hwf
  refine ⟨h.1 (by decide), h.2.2.1 (by decide), ?_⟩
  have := (h2.2.2.2 ⟨0, "Date"⟩ (by decide)).2.2.2.1
  rw [this]
  decide

/-! ## Claim C3 — tagged-value shape errors during revival -/

/-- C3 counterexample: the claim says an object with a `$type`-like key but
not exactly the two designated keys raises a malformed-tag error; but
`isTaggedValue` requires an own `$value`, so `{"$type": "Date"}` is *not*
recognised as tagged and `parse` silently revives it as plain data (the
shape check only rejects objects that have both `$type` and `$value` plus
extra keys). -/
theorem c3_counterexample :
    tsonParse "\x7b\"$type\":\"Date\"\x7d"
      = some (.ok (.robj (.cons "$type" (.rstr "Date") .nil) .none)) := by
  decide

/-- C3 (amended): with revive enabled, (a) an object with the exact two-key
`{$type, $value}` shape whose string `$type` names no registered handler
raises the unknown-type error; (b) an object carrying a string `$type` *and*
a `$value` but additional keys raises the malformed-tag error; (c) an object
with a string `$type` key but no `$value` key is not recognised as tagged
and is revived as a plain object (no error), key by key.  (The fuel offsets
mirror the model's one-unit cost per nested call.) -/
theorem c3_tag_shape (f : Nat) (fl : JFields) (nm : String)
    (hty : fl.lookup "$type" = some (.str nm)) :
    (fl.hasKey "$value" = true → fl.length = 2 → "$type" ∈ fl.keys → "$value" ∈ fl.keys →
      nm ≠ "Date" → nm ≠ "BigInt" → nm ≠ "RegExp" → nm ≠ "URL" → nm ≠ "Map" → nm ≠ "Set" →
      reviveValue (f + 2) (.obj fl) = some (.error ⟨"Unknown type: " ++ nm⟩)) ∧
    (fl.hasKey "$value" = true → ¬(fl.length = 2 ∧ "$type" ∈ fl.keys ∧ "$value" ∈ fl.keys) →
      reviveValue (f + 1) (.obj fl) = some (.error ⟨"Invalid tagged value shape"⟩)) ∧
    (fl.hasKey "$value" = false → ∀ out, revFields f fl = some (.ok out) →
      reviveValue (f + 1) (.obj fl) = some (.ok (.robj out .none))) := by
  refine ⟨?_, ?_, ?_⟩
  · intro hval hlen hk1 hk2 h1 h2 h3 h4 h5 h6
    show reviveValue (f + 1 + 1) (.obj fl) = _
    simp only [reviveValue, hty, hval, if_true]
    rw [if_neg (by simp [hlen, hk1, hk2])]
    rw [reviveTagged.eq_def]
    simp [h1, h2, h3, h4, h5, h6]
  · intro hval hbad
    simp only [reviveValue, hty, hval, if_true]
    rw [if_pos hbad]
  · intro hval out hout
    simp only [reviveValue, hty, hval, Bool.false_eq_true, if_false, hout]

/-- Witness for `c3_tag_shape` at the three concrete shapes
`{"$type":"Nope","$value":null}`, `{"$type":"Date","$value":"x","z":null}`
and `{"$type":"Date"}`. -/
theorem c3_tag_shape_witness :
    reviveValue 4 (.obj (.cons "$type" (.str "Nope") (.cons "$value" .null .nil)))
      = some (.error ⟨"Unknown type: Nope"⟩) ∧
    reviveValue 3 (.obj (.cons "$type" (.str "Date")
        (.cons "$value" (.str "x") (.cons "z" .null .nil))))
      = some (.error ⟨"Invalid tagged value shape"⟩) ∧
    reviveValue 3 (.obj (.cons "$type" (.str "Date") .nil))
      = some (.ok (.robj (.cons "$type" (.rstr "Date") .nil) .none)) := by
  refine ⟨?_, ?_, ?_⟩
  · exact (c3_tag_shape 2 (.cons "$type" (.str "Nope") (.cons "$value" .null .nil)) "Nope"
      (by decide)).1 (by decide) (of_decide_eq_true rfl) (by decide)
      (of_decide_eq_true rfl) (by decide) (of_decide_eq_true rfl) (by decide)
      (of_decide_eq_true rfl) (by decide) (of_decide_eq_true rfl)
  · exact (c3_tag_shape 2 (.cons "$type" (.str "Date")
      (.cons "$value" (.str "x") (.cons "z" .null .nil))) "Date"
      (by decide)).2.1 (by decide) (by decide)
  · exact (c3_tag_shape 2 (.cons "$type" (.str "Date") .nil) "Date"
      (by decide)).2.2 (by decide) _ (by decide)

/-! ## Claim C10 — non-string `$type` is not a tag -/

/-- C10: an object whose `$type` key holds a non-string value is not
recognised as a tagged value (`isTaggedValue` demands `typeof value.$type
=== 'string'`): even with exactly the two keys `$type` and `$value` it is
revived key-by-key as a plain object, with no error.  (The fuel offsets
mirror the model's one-unit cost per nested call.) -/
theorem c10_nonstring_type_plain (f : Nat) (w p : Json) (rw0 rp0 : RVal)
    (hw : ∀ s, w ≠ .str s)
    (hrw : reviveValue (f + 2) w = some (.ok rw0))
    (hrp : reviveValue (f + 1) p = some (.ok rp0)) :
    reviveValue (f + 4) (.obj (.cons "$type" w (.cons "$value" p .nil)))
      = some (.ok (.robj (.cons "$type" rw0 (.cons "$value" rp0 .nil)) .none)) := by
  have hlook : JFields.lookup "$type" (.cons "$type" w (.cons "$value" p .nil)) = some w := by
    simp [JFields.lookup]
  have hfields : revFields (f + 3) (.cons "$type" w (.cons "$value" p .nil))
      = some (.ok (.cons "$type" rw0 (.cons "$value" rp0 .nil))) := by
    show revFields (f + 2 + 1) _ = _
    simp only [revFields, hrw]
    show (match revFields (f + 1 + 1) (JFields.cons "$value" p JFields.nil) with
      | none => none
      | some (Except.error e) => some (Except.error e)
      | some (Except.ok t) => some (Except.ok (RFields.cons "$type" rw0 t))) = _
    simp only [revFields, hrp]
  cases w with
  | str s => exact absurd rfl (hw s)
  | null =>
    show reviveValue (f + 3 + 1) _ = _
    simp only [reviveValue, hlook, hfields]
  | bool b =>
    show reviveValue (f + 3 + 1) _ = _
    simp only [reviveValue, hlook, hfields]
  | num d =>
    show reviveValue (f + 3 + 1) _ = _
    simp only [reviveValue, hlook, hfields]
  | arr l =>
    show reviveValue (f + 3 + 1) _ = _
    simp only [reviveValue, hlook, hfields]
  | obj fl2 =>
    show reviveValue (f + 3 + 1) _ = _
    simp only [reviveValue, hlook, hfields]

/-- Witness for `c10_nonstring_type_plain` at `{"$type": 3, "$value":
"x"}`. -/
theorem c10_nonstring_type_plain_witness :
    reviveValue 4 (.obj (.cons "$type" (.num ⟨3, 0⟩) (.cons "$value" (.str "x") .nil)))
      = some (.ok (.robj (.cons "$type" (.rnum (.fin ⟨3, 0⟩))
          (.cons "$value" (.rstr "x") .nil)) .none)) := by
  exact c10_nonstring_type_plain 0 (.num ⟨3, 0⟩) (.str "x") (.rnum (.fin ⟨3, 0⟩)) (.rstr "x")
    (by intro s h; cases h) (by decide) (by decide)

/-! ## Claim C8 — lexical number errors -/

theorem Pos.adv_adv (p : Pos) (a b : Nat) : (p.adv a).adv b = p.adv (a + b) := by
  simp [Pos.adv, Nat.add_assoc]

/-- The continuation cannot extend a digit run. -/
def headNotDigit : List Char → Prop
  | [] => True
  | c :: _ => isDigitC c = false

/-- The continuation cannot extend a number literal in any phase. -/
def numStop : List Char → Prop
  | [] => True
  | c :: _ => isDigitC c = false ∧ c ≠ '.' ∧ c ≠ 'e' ∧ c ≠ 'E'

theorem numStop.not_digit {cs : List Char} (h : numStop cs) : headNotDigit cs := by
  cases cs with
  | nil => trivial
  | cons c t => exact h.1

/-- `takeDigits` consumes exactly a digit run, stopping at the first
non-digit. -/
theorem takeDigits_run (ds rest : List Char) (hds : ∀ c ∈ ds, isDigitC c = true)
    (hrest : headNotDigit rest) : takeDigits (ds ++ rest) = (ds, rest) := by
  induction ds with
  | nil =>
    cases rest with
    | nil => rfl
    | cons c t =>
      simp only [headNotDigit] at hrest
      simp [takeDigits, hrest]
  | cons c t ih =>
    have hc := hds c (by simp)
    have ht := ih fun x hx => hds x (by simp [hx])
    simp [takeDigits, hc, ht]

@[simp]
theorem Pos.adv_zero (p : Pos) : p.adv 0 = p := by
  simp [Pos.adv]

/-- Text of the optional exponent part of a number literal: marker
character, optional sign character, digits. -/
def exTail : Option (Char × Option Char × List Char) → List Char
  | none => []
  | some (mk, sgn, ds) => mk :: ((match sgn with | none => [] | some c => [c]) ++ ds)

/-- Whether the exponent sign is an explicit minus. -/
def exNegOf : Option (Char × Option Char × List Char) → Bool
  | none => false
  | some (_, sg, _) => sg = some '-'

/-- The exponent digits. -/
def exDigits : Option (Char × Option Char × List Char) → List Char
  | none => []
  | some (_, _, ds) => ds

/-- Character count of the exponent part. -/
def exLen : Option (Char × Option Char × List Char) → Nat
  | none => 0
  | some (_, sgn, ds) => 1 + (match sgn with | none => 0 | some _ => 1) + ds.length

/-- Text of the optional fraction part: a dot plus the digits. -/
def fracTail : Option (List Char) → List Char
  | none => []
  | some ds => '.' :: ds

/-- Character count of the fraction part. -/
def fracLen : Option (List Char) → Nat
  | none => 0
  | some ds => 1 + ds.length

/-- Grammar well-formedness of a fraction part: nonempty digit run. -/
def fracWF : Option (List Char) → Prop
  | none => True
  | some ds => ds ≠ [] ∧ ∀ c ∈ ds, isDigitC c = true

/-- Grammar well-formedness of an exponent part: `e`/`E` marker, optional
`+`/`-` sign, nonempty digit run. -/
def exWF : Option (Char × Option Char × List Char) → Prop
  | none => True
  | some (mk, sgn, ds) =>
    (mk = 'e' ∨ mk = 'E') ∧
    (match sgn with | none => True | some c => c = '+' ∨ c = '-') ∧
    ds ≠ [] ∧ ∀ c ∈ ds, isDigitC c = true

/-- The text of a number literal from its parts: optional minus, integer
digits, optional fraction, optional exponent. -/
def numLitChars (neg : Bool) (intDs : List Char) (frac : Option (List Char))
    (ex : Option (Char × Option Char × List Char)) : List Char :=
  (if neg then ['-'] else []) ++ intDs ++ fracTail frac ++ exTail ex

/-- The `Dec` value `scanNumber` computes for the parts (its
`parseFloat(numStr)`). -/
def numLitVal (neg : Bool) (intDs : List Char) (frac : Option (List Char))
    (ex : Option (Char × Option Char × List Char)) : Dec :=
  mkDecLit neg intDs (frac.getD []) (exNegOf ex) (exDigits ex)

/-- Well-formedness of the parts as grammar-valid literal text: the integer
part is a single `0` or a no-leading-zero digit run; fraction and exponent
parts are well-formed when present. -/
def numLitWF (intDs : List Char) (frac : Option (List Char))
    (ex : Option (Char × Option Char × List Char)) : Prop :=
  (intDs = ['0'] ∨ (intDs ≠ [] ∧ (∀ c ∈ intDs, isDigitC c = true) ∧
    intDs.head? ≠ some '0')) ∧
  fracWF frac ∧ exWF ex

/-- Exponent-phase characterisation on well-formed exponent text. -/
theorem scanNumberExp_lit (start : Pos) (neg : Bool) (intDs fracDs : List Char)
    (ex : Option (Char × Option Char × List Char)) (rest : List Char) (p : Pos)
    (hex : exWF ex) (hrest : numStop rest) :
    scanNumber.scanNumberExp start neg intDs fracDs (exTail ex ++ rest) p
      = scanNumber.scanNumberFinish start neg intDs fracDs (exNegOf ex)
          (exDigits ex) rest (p.adv (exLen ex)) := by
  match ex, hex with
  | none, _ =>
    simp only [exTail, exNegOf, exDigits, exLen, List.nil_append, Pos.adv_zero]
    cases rest with
    | nil => simp [scanNumber.scanNumberExp]
    | cons c t =>
      obtain ⟨hd, hdot, he, hE⟩ := hrest
      have hee : (c = 'e' || c = 'E') = false := by simp [he, hE]
      simp [scanNumber.scanNumberExp, hee]
  | some (mk, sgn, ds), hex =>
    obtain ⟨hmk, hsgn, hne, hds⟩ := hex
    obtain ⟨d0, ds', rfl⟩ : ∃ d0 ds', ds = d0 :: ds' := by
      cases ds with
      | nil => exact absurd rfl hne
      | cons a b => exact ⟨a, b, rfl⟩
    have hd0 : isDigitC d0 = true := hds d0 (by simp)
    have hmk' : (mk = 'e' || mk = 'E') = true := by
      rcases hmk with rfl | rfl <;> simp
    have hrun : takeDigits (d0 :: (ds' ++ rest)) = (d0 :: ds', rest) := by
      have := takeDigits_run (d0 :: ds') rest hds hrest.not_digit
      simpa using this
    simp only [exTail, exNegOf, exDigits, exLen]
    match sgn, hsgn with
    | none, _ =>
      have hplus : d0 ≠ '+' := by intro h; rw [h] at hd0; exact absurd hd0 (by decide)
      have hminus : d0 ≠ '-' := by intro h; rw [h] at hd0; exact absurd hd0 (by decide)
      have hsm : (match d0 :: (ds' ++ rest) with
          | '+' :: r2 => (false, r2, (p.adv 1).adv 1)
          | '-' :: r2 => (true, r2, (p.adv 1).adv 1)
          | x => (false, d0 :: (ds' ++ rest), p.adv 1))
          = (false, d0 :: (ds' ++ rest), p.adv 1) := by
        split
        · rename_i heq
          exfalso
          injection heq with h1 h2
          exact hplus h1
        · rename_i heq
          exfalso
          injection heq with h1 h2
          exact hminus h1
        · rfl
      simp only [List.nil_append, List.cons_append, scanNumber.scanNumberExp]
      rw [if_pos hmk', hsm]
      simp only [hd0, if_true, hrun]
      simp [Pos.adv_adv]
    | some c, hsgn =>
      rcases hsgn with rfl | rfl
      · simp only [List.cons_append, List.singleton_append, List.nil_append,
          scanNumber.scanNumberExp]
        rw [if_pos hmk']
        simp only [List.nil_append, hd0, if_true, hrun]
        simp only [Pos.adv_adv]
        norm_num
        rfl
      · simp only [List.cons_append, List.singleton_append, List.nil_append,
          scanNumber.scanNumberExp]
        rw [if_pos hmk']
        simp only [List.nil_append, hd0, if_true, hrun]
        simp only [Pos.adv_adv]
        norm_num

/-- Fraction-phase characterisation on well-formed fraction text. -/
theorem scanNumberFrac_lit (start : Pos) (neg : Bool) (intDs : List Char)
    (frac : Option (List Char)) (ex : Option (Char × Option Char × List Char))
    (rest : List Char) (p : Pos)
    (hfrac : fracWF frac) (hex : exWF ex) (hrest : numStop rest) :
    scanNumber.scanNumberFrac start neg intDs (fracTail frac ++ (exTail ex ++ rest)) p
      = scanNumber.scanNumberFinish start neg intDs (frac.getD []) (exNegOf ex)
          (exDigits ex) rest (p.adv (fracLen frac + exLen ex)) := by
  have key := scanNumberExp_lit start neg intDs
  match frac, hfrac with
  | none, _ =>
    simp only [fracTail, fracLen, List.nil_append, Option.getD, Nat.zero_add]
    have hhead : ∀ c t, exTail ex ++ rest = c :: t → c ≠ '.' := by
      intro c t hct hc
      subst hc
      match ex, hex with
      | none, _ =>
        simp only [exTail, List.nil_append] at hct
        cases rest with
        | nil => cases hct
        | cons r t2 =>
          injection hct with h1 _
          exact hrest.2.1 h1
      | some (mk, sgn, ds), hex =>
        simp only [exTail] at hct
        injection hct with h1 _
        rcases hex.1 with rfl | rfl <;> exact absurd h1 (by decide)
    rw [scanNumber.scanNumberFrac.eq_def]
    split
    · rename_i heq
      exact absurd rfl (hhead '.' _ heq)
    · exact key [] ex rest p hex hrest
  | some ds, hfrac =>
    obtain ⟨hne, hds⟩ := hfrac
    obtain ⟨d0, ds', rfl⟩ : ∃ d0 ds', ds = d0 :: ds' := by
      cases ds with
      | nil => exact absurd rfl hne
      | cons a b => exact ⟨a, b, rfl⟩
    have hd0 : isDigitC d0 = true := hds d0 (by simp)
    have hstopE : headNotDigit (exTail ex ++ rest) := by
      match ex, hex with
      | none, _ =>
        simp only [exTail, List.nil_append]
        exact hrest.not_digit
      | some (mk, sgn, ds2), hex =>
        show isDigitC mk = false
        rcases hex.1 with rfl | rfl <;> decide
    have hrun : takeDigits ((d0 :: ds') ++ (exTail ex ++ rest))
        = (d0 :: ds', exTail ex ++ rest) :=
      takeDigits_run _ _ hds hstopE
    simp only [fracTail, fracLen, List.cons_append, Option.getD]
    simp only [scanNumber.scanNumberFrac, hd0, if_true]
    simp only [List.cons_append] at hrun
    rw [hrun]
    have := key (d0 :: ds') ex rest ((p.adv 1).adv (d0 :: ds').length) hex hrest
    rw [this]
    simp only [Pos.adv_adv, List.length_cons]

/-- After the integer digits of a well-formed literal the next character is
never a digit. -/
theorem fracExTail_not_digit (frac : Option (List Char))
    (ex : Option (Char × Option Char × List Char)) (rest : List Char)
    (hex : exWF ex) (hrest : numStop rest) :
    headNotDigit (fracTail frac ++ (exTail ex ++ rest)) := by
  match frac with
  | some ds =>
    show isDigitC '.' = false
    decide
  | none =>
    simp only [fracTail, List.nil_append]
    match ex, hex with
    | none, _ =>
      simp only [exTail, List.nil_append]
      exact hrest.not_digit
    | some (mk, sgn, ds2), hex =>
      show isDigitC mk = false
      rcases hex.1 with rfl | rfl <;> decide

/-- Integer-phase characterisation on well-formed literal text after the
optional sign. -/
theorem scanNumberInt_lit (start : Pos) (neg : Bool) (intDs : List Char)
    (frac : Option (List Char)) (ex : Option (Char × Option Char × List Char))
    (rest : List Char) (p1 : Pos)
    (hwf : numLitWF intDs frac ex) (hrest : numStop rest) :
    scanNumber.scanNumberInt start neg
        (intDs ++ (fracTail frac ++ (exTail ex ++ rest))) p1
      = scanNumber.scanNumberFinish start neg intDs (frac.getD []) (exNegOf ex)
          (exDigits ex) rest
          (p1.adv (intDs.length + (fracLen frac + exLen ex))) := by
  obtain ⟨hint, hfrac, hex⟩ := hwf
  have htail := fracExTail_not_digit frac ex rest hex hrest
  have hfl := scanNumberFrac_lit start neg intDs frac ex rest
  rcases hint with rfl | ⟨hne, hdig, hlead⟩
  · simp only [List.cons_append, List.nil_append, scanNumber.scanNumberInt]
    split
    · rename_i hg
      exfalso
      rcases hT : fracTail frac ++ (exTail ex ++ rest) with _ | ⟨c, t⟩
      · rw [hT] at hg
        simp at hg
      · rw [hT] at hg htail
        simp only [headNotDigit] at htail
        simp [htail] at hg
    · rw [hfl (p1.adv 1) hfrac hex hrest]
      simp only [Pos.adv_adv, List.length_cons, List.length_nil]
  · obtain ⟨i0, irest, rfl⟩ : ∃ i0 irest, intDs = i0 :: irest := by
      cases intDs with
      | nil => exact absurd rfl hne
      | cons a b => exact ⟨a, b, rfl⟩
    have hi0 : isDigitC i0 = true := hdig i0 (by simp)
    have hi0z : i0 ≠ '0' := by
      intro h
      apply hlead
      rw [h]
      rfl
    have hrun : takeDigits ((i0 :: irest) ++ (fracTail frac ++ (exTail ex ++ rest)))
        = (i0 :: irest, fracTail frac ++ (exTail ex ++ rest)) :=
      takeDigits_run _ _ hdig htail
    rw [scanNumber.scanNumberInt.eq_def]
    split
    · rename_i heq
      exfalso
      rw [List.cons_append] at heq
      injection heq with h1 _
      exact hi0z h1
    · rename_i c r heq
      rw [List.cons_append] at heq
      injection heq with h1 h2
      subst h1
      subst h2
      rw [if_pos hi0]
      rw [List.cons_append] at hrun
      rw [hrun]
      show scanNumber.scanNumberFrac start neg (i0 :: irest)
          (fracTail frac ++ (exTail ex ++ rest)) (p1.adv (i0 :: irest).length)
        = _
      rw [hfl (p1.adv (i0 :: irest).length) hfrac hex hrest]
      simp only [Pos.adv_adv]
    · rename_i heq
      exact absurd (List.cons_append i0 irest _ ▸ heq) (List.cons_ne_nil _ _)

/-- Top-level characterisation of `scanNumber` on well-formed literal text:
it consumes exactly the literal and hands its parts to the finish step at
the position advanced past the literal. -/
theorem scanNumber_lit (neg : Bool) (intDs : List Char)
    (frac : Option (List Char)) (ex : Option (Char × Option Char × List Char))
    (rest : List Char) (pos : Pos)
    (hwf : numLitWF intDs frac ex) (hrest : numStop rest) :
    scanNumber (numLitChars neg intDs frac ex ++ rest) pos
      = scanNumber.scanNumberFinish pos neg intDs (frac.getD []) (exNegOf ex)
          (exDigits ex) rest
          (pos.adv ((if neg then 1 else 0) +
            (intDs.length + (fracLen frac + exLen ex)))) := by
  have hkey := scanNumberInt_lit pos neg intDs frac ex rest
  cases neg with
  | true =>
    simp only [numLitChars, if_true, List.append_assoc, List.singleton_append,
      List.cons_append, List.nil_append, scanNumber]
    rw [hkey (pos.adv 1) hwf hrest]
    simp only [Pos.adv_adv]
  | false =>
    have hhead : ∀ c t, intDs ++ (fracTail frac ++ (exTail ex ++ rest)) = c :: t →
        c ≠ '-' := by
      intro c t hct hc
      subst hc
      rcases hwf.1 with rfl | ⟨hne, hdig, _⟩
      · rw [List.cons_append] at hct
        injection hct with h1 _
        exact absurd h1.symm (by decide)
      · obtain ⟨i0, irest, rfl⟩ : ∃ i0 irest, intDs = i0 :: irest := by
          cases intDs with
          | nil => exact absurd rfl hne
          | cons a b => exact ⟨a, b, rfl⟩
        rw [List.cons_append] at hct
        injection hct with h1 _
        have := hdig i0 (by simp)
        rw [h1] at this
        exact absurd this (by decide)
    simp only [numLitChars, List.append_assoc]
    rw [scanNumber.eq_def]
    split
    · rename_i r heq
      rw [show ((if (false : Bool) then ['-'] else []) : List Char) = [] from rfl,
        List.nil_append] at heq
      exact absurd rfl (hhead '-' r heq)
    · rw [show ((if (false : Bool) then ['-'] else []) : List Char) = [] from rfl,
        List.nil_append, hkey pos hwf hrest,
        show ((if (false : Bool) then 1 else 0) : Nat) = 0 from rfl]
      simp only [Nat.zero_add]

/-- A `0` integer part followed immediately by another digit is a lexical
error positioned just after the `0`. -/
theorem scanNumber_leadingZero (neg : Bool) (d : Char) (tail : List Char) (pos : Pos)
    (hd : isDigitC d = true) :
    scanNumber ((if neg then ['-'] else []) ++ '0' :: d :: tail) pos
      = .error (tkErr "Invalid number: leading zeros not allowed"
          ((pos.adv (if neg then 1 else 0)).adv 1)) := by
  cases neg with
  | true =>
    simp only [if_true, List.singleton_append, List.cons_append, List.nil_append,
      scanNumber, scanNumber.scanNumberInt, hd]
  | false =>
    rw [show ((if (false : Bool) then ['-'] else []) : List Char) = [] from rfl,
      List.nil_append, scanNumber.eq_def]
    split
    · rename_i heq
      injection heq with h1 _
      exact absurd h1 (by decide)
    · simp only [scanNumber.scanNumberInt, hd, if_true]
      simp [Pos.adv_zero]

/-- **C8.**  The tokenizer raises a positioned lexical error for every
number literal whose integer part is a `0` followed immediately by another
digit (in particular parsing `"01"` fails with the error positioned after
the `0`), and for every well-formed number literal whose accumulated text
parses to a non-finite floating value, with the out-of-range error
positioned at the end of the literal. -/
theorem c8_number_lexical_errors :
    (∀ (neg : Bool) (d : Char) (tail : List Char) (pos : Pos),
      isDigitC d = true →
      scanNumber ((if neg then ['-'] else []) ++ '0' :: d :: tail) pos
        = .error (tkErr "Invalid number: leading zeros not allowed"
            ((pos.adv (if neg then 1 else 0)).adv 1))) ∧
    (∀ (neg : Bool) (intDs : List Char) (frac : Option (List Char))
        (ex : Option (Char × Option Char × List Char)) (rest : List Char) (pos : Pos),
      numLitWF intDs frac ex → numStop rest →
      (numLitVal neg intDs frac ex).overflow = true →
      scanNumber (numLitChars neg intDs frac ex ++ rest) pos
        = .error (tkErr "Invalid number: value out of range"
            (pos.adv ((if neg then 1 else 0) +
              (intDs.length + (fracLen frac + exLen ex)))))) ∧
    parseJson "01" = .error (tkErr "Invalid number: leading zeros not allowed" ⟨1, 2, 1⟩) := by
  refine ⟨scanNumber_leadingZero, ?_, by decide⟩
  intro neg intDs frac ex rest pos hwf hrest hovf
  rw [scanNumber_lit neg intDs frac ex rest pos hwf hrest]
  simp only [numLitVal] at hovf
  simp only [scanNumber.scanNumberFinish, hovf, if_true]

set_option maxRecDepth 4000 in
set_option exponentiation.threshold 2000 in
/-- Witness for `c8_number_lexical_errors` at `"01"` and `"1e999"`. -/
theorem c8_number_lexical_errors_witness :
    scanNumber ('0' :: '1' :: []) ⟨1, 1, 0⟩
      = .error (tkErr "Invalid number: leading zeros not allowed" ⟨1, 2, 1⟩) ∧
    scanNumber ('1' :: 'e' :: '9' :: '9' :: '9' :: []) ⟨1, 1, 0⟩
      = .error (tkErr "Invalid number: value out of range" ⟨1, 6, 5⟩) := by
  constructor
  · have h := c8_number_lexical_errors.1 false '1' [] ⟨1, 1, 0⟩ (by decide)
    simpa [Pos.adv] using h
  · have h := c8_number_lexical_errors.2.1 false ['1'] none
      (some ('e', none, ['9', '9', '9'])) [] ⟨1, 1, 0⟩
      ⟨Or.inr ⟨by decide, by decide, by decide⟩, trivial,
        ⟨Or.inl rfl, trivial, by decide, by decide⟩⟩
      trivial (by decide)
    simpa [numLitChars, fracTail, exTail, fracLen, exLen, Pos.adv] using h

/-! ## Round-trip development: digit-string arithmetic -/

theorem digitsToNat_go (acc : Nat) (ds : List Char) :
    ds.foldl (fun a c => a * 10 + digitVal c) acc
      = acc * 10 ^ ds.length + digitsToNat ds := by
  induction ds generalizing acc with
  | nil => simp [digitsToNat]
  | cons c t ih =>
    show t.foldl _ (acc * 10 + digitVal c) = _
    rw [ih (acc * 10 + digitVal c)]
    have h0 : digitsToNat (c :: t) = digitVal c * 10 ^ t.length + digitsToNat t := by
      show t.foldl _ (0 * 10 + digitVal c) = _
      rw [ih (0 * 10 + digitVal c)]
      ring
    rw [h0]
    simp [List.length_cons, pow_succ]
    ring

theorem digitsToNat_append (a b : List Char) :
    digitsToNat (a ++ b) = digitsToNat a * 10 ^ b.length + digitsToNat b := by
  show (a ++ b).foldl _ 0 = _
  rw [List.foldl_append]
  exact digitsToNat_go _ b

theorem digitsToNat_zeros (z : Nat) : digitsToNat (List.replicate z '0') = 0 := by
  induction z with
  | zero => rfl
  | succ n ih =>
    show (List.replicate (n + 1) '0').foldl _ 0 = 0
    rw [List.replicate_succ]
    show (List.replicate n '0').foldl _ (0 * 10 + digitVal '0') = 0
    have : (0 * 10 + digitVal '0') = 0 := by decide
    rw [this]
    exact ih

theorem digitVal_digitChar (n : Nat) (h : n < 10) : digitVal (digitChar n) = n := by
  interval_cases n <;> decide

theorem isDigitC_digitChar (n : Nat) (h : n < 10) : isDigitC (digitChar n) = true := by
  interval_cases n <;> decide

theorem digitChar_ne_zero (n : Nat) (h1 : 1 ≤ n) (h2 : n < 10) : digitChar n ≠ '0' := by
  interval_cases n <;> decide

theorem natDigitsF_spec : ∀ f n, n < f →
    digitsToNat (natDigitsF f n) = n ∧ natDigitsF f n ≠ [] ∧
    (∀ c ∈ natDigitsF f n, isDigitC c = true)
  | 0, n, h => absurd h (Nat.not_lt_zero n)
  | f + 1, n, h => by
    by_cases h10 : n < 10
    · simp only [natDigitsF, h10, if_true]
      refine ⟨?_, by simp, ?_⟩
      · show digitsToNat [digitChar n] = n
        show 0 * 10 + digitVal (digitChar n) = n
        rw [digitVal_digitChar n h10]
        ring
      · intro c hc
        rw [List.mem_singleton] at hc
        rw [hc]
        exact isDigitC_digitChar n h10
    · have hlt : n / 10 < f := by omega
      obtain ⟨ih1, ih2, ih3⟩ := natDigitsF_spec f (n / 10) hlt
      simp only [natDigitsF, h10, if_false]
      refine ⟨?_, by simp, ?_⟩
      · rw [digitsToNat_append, ih1]
        have : digitsToNat [digitChar (n % 10)] = n % 10 := by
          show 0 * 10 + digitVal (digitChar (n % 10)) = n % 10
          rw [digitVal_digitChar _ (Nat.mod_lt n (by omega))]
          ring
        rw [this]
        simp
        omega
      · intro c hc
        rw [List.mem_append] at hc
        rcases hc with hc | hc
        · exact ih3 c hc
        · rw [List.mem_singleton] at hc
          rw [hc]
          exact isDigitC_digitChar _ (Nat.mod_lt n (by omega))

theorem natDigits_val (n : Nat) : digitsToNat (natDigits n) = n :=
  (natDigitsF_spec (n + 1) n (Nat.lt_succ_self n)).1

theorem natDigits_ne_nil (n : Nat) : natDigits n ≠ [] :=
  (natDigitsF_spec (n + 1) n (Nat.lt_succ_self n)).2.1

theorem natDigits_digits (n : Nat) : ∀ c ∈ natDigits n, isDigitC c = true :=
  (natDigitsF_spec (n + 1) n (Nat.lt_succ_self n)).2.2

theorem natDigitsF_head : ∀ f n, n < f → 1 ≤ n →
    (natDigitsF f n).head? ≠ some '0'
  | 0, n, h, _ => absurd h (Nat.not_lt_zero n)
  | f + 1, n, h, h1 => by
    by_cases h10 : n < 10
    · simp only [natDigitsF, h10, if_true, List.head?]
      intro hc
      injection hc with hc
      exact digitChar_ne_zero n h1 h10 hc
    · have hlt : n / 10 < f := by omega
      have h1' : 1 ≤ n / 10 := by omega
      have ih := natDigitsF_head f (n / 10) hlt h1'
      simp only [natDigitsF, h10, if_false]
      obtain ⟨c, cs, hcons⟩ : ∃ c cs, natDigitsF f (n / 10) = c :: cs := by
        cases hn : natDigitsF f (n / 10) with
        | nil => exact absurd hn (natDigitsF_spec f (n / 10) hlt).2.1
        | cons a b => exact ⟨a, b, rfl⟩
      rw [hcons]
      rw [hcons] at ih
      simpa using ih

theorem natDigits_head (n : Nat) (h1 : 1 ≤ n) : (natDigits n).head? ≠ some '0' :=
  natDigitsF_head (n + 1) n (Nat.lt_succ_self n) h1

/-! ## `Dec.norm` on exact products -/

theorem stripTens_exact : ∀ (k : Nat) (fuel : Nat) (m : Int), ¬((10 : Int) ∣ m) →
    m ≠ 0 → k < fuel → stripTens fuel (m * 10 ^ k) = (m, k)
  | 0, fuel, m, hnd, hm, hk => by
    obtain ⟨f, rfl⟩ : ∃ f, fuel = f + 1 := ⟨fuel - 1, by omega⟩
    have hmod : ¬(m % 10 = 0 ∧ m ≠ 0) := by
      intro ⟨h1, _⟩
      exact hnd (Int.dvd_of_emod_eq_zero h1)
    simp only [pow_zero, mul_one, stripTens, hmod, if_false]
  | k + 1, fuel, m, hnd, hm, hk => by
    obtain ⟨f, rfl⟩ : ∃ f, fuel = f + 1 := ⟨fuel - 1, by omega⟩
    have hm1 : (m * 10 ^ (k + 1)) % 10 = 0 := by
      rw [pow_succ, ← mul_assoc]
      exact Int.mul_emod_left _ _
    have hm2 : m * 10 ^ (k + 1) ≠ 0 := by
      intro hz
      rcases mul_eq_zero.mp hz with h | h
      · exact hm h
      · exact absurd h (pow_ne_zero _ (by norm_num))
    have hdiv : m * 10 ^ (k + 1) / 10 = m * 10 ^ k := by
      rw [pow_succ, ← mul_assoc]
      exact Int.mul_ediv_cancel _ (by norm_num)
    have ih := stripTens_exact k f m hnd hm (by omega)
    simp only [stripTens, hm1, hm2, ne_eq, not_false_iff, and_self, if_true, hdiv, ih]

theorem Dec.norm_mul_pow (m : Int) (e : Int) (k : Nat) (hnd : ¬((10 : Int) ∣ m))
    (hm : m ≠ 0) : Dec.norm ⟨m * 10 ^ k, e⟩ = ⟨m, e + k⟩ := by
  have hmz : m * 10 ^ k ≠ 0 := by
    intro hz
    rcases mul_eq_zero.mp hz with h | h
    · exact hm h
    · exact absurd h (pow_ne_zero _ (by norm_num))
  have hfuel : k < (m * 10 ^ k).natAbs := by
    have h1 : (10 : Nat) ^ k ≤ (m * 10 ^ k).natAbs := by
      rw [Int.natAbs_mul]
      calc (10 : Nat) ^ k = 1 * 10 ^ k := by ring
        _ ≤ m.natAbs * (10 ^ k : Int).natAbs := by
            apply Nat.mul_le_mul
            · omega
            · simp [Int.natAbs_pow]
    have h2 : k < 10 ^ k := Nat.lt_pow_self (by norm_num) k
    omega
  have hs := stripTens_exact k (m * 10 ^ k).natAbs m hnd hm hfuel
  simp only [Dec.norm, hmz, if_false, hs]

theorem Dec.norm_of_isNorm (d : Dec) (h : d.isNorm = true) : Dec.norm d = d := by
  by_cases hm : d.m = 0
  · have he : d.e = 0 := by
      simp only [Dec.isNorm, hm, if_true] at h
      exact of_decide_eq_true h
    obtain ⟨dm, de⟩ := d
    simp only at hm he
    subst hm
    subst he
    rfl
  · have hnd : ¬((10 : Int) ∣ d.m) := by
      simp only [Dec.isNorm, hm, if_false] at h
      simpa using of_decide_eq_true h
    have := Dec.norm_mul_pow d.m d.e 0 hnd hm
    simpa using this

theorem signMulNatAbs (m : Int) : (if m < 0 then (-1 : Int) else 1) * m.natAbs = m := by
  by_cases h : m < 0
  · rw [if_pos h, Int.ofNat_natAbs_of_nonpos (le_of_lt h)]
    ring
  · rw [if_neg h, Int.natAbs_of_nonneg (le_of_not_lt h)]
    ring

/-- The printed decimal text of a canonical `Dec` is well-formed
number-literal text whose scanned value is the `Dec` itself. -/
theorem decChars_lit (d : Dec) (hn : d.isNorm = true) :
    ∃ neg intDs frac, decChars d = numLitChars neg intDs frac none ∧
      numLitWF intDs frac none ∧ numLitVal neg intDs frac none = d := by
  obtain ⟨m, e⟩ := d
  by_cases hm : m = 0
  · have he : e = 0 := by
      simp only [Dec.isNorm, hm, if_true] at hn
      exact of_decide_eq_true hn
    subst hm
    subst he
    exact ⟨false, ['0'], none, by decide, ⟨Or.inl rfl, trivial, trivial⟩, by decide⟩
  · have hnd : ¬((10 : Int) ∣ m) := by
      simp only [Dec.isNorm, hm, if_false] at hn
      simpa using of_decide_eq_true hn
    have hn1 : 1 ≤ m.natAbs := by
      rcases Int.natAbs_eq m with h | h <;> omega
    have hds := natDigits_digits m.natAbs
    have hdsne := natDigits_ne_nil m.natAbs
    have hdshead := natDigits_head m.natAbs hn1
    have hval := natDigits_val m.natAbs
    have hsgn : ((if (decide (m < 0)) then ['-'] else []) : List Char)
        = (if m < 0 then ['-'] else []) := by
      by_cases h : m < 0
      · simp [h]
      · simp [h]
    have hmant0 : (if decide (m < 0) then (-1 : Int) else 1) * (m.natAbs : Int)
        = m := by
      simp only [decide_eq_true_eq]
      exact signMulNatAbs m
    by_cases he : 0 ≤ e
    · -- integer form: sign, digits, trailing zeros
      refine ⟨decide (m < 0), natDigits m.natAbs ++ List.replicate e.toNat '0', none,
        ?_, ?_, ?_⟩
      · simp only [decChars, hm, if_false, he, if_true, numLitChars, fracTail,
          exTail, List.append_nil, hsgn]
        simp [List.append_assoc]
      · refine ⟨Or.inr ⟨by simp [hdsne], ?_, ?_⟩, trivial, trivial⟩
        · intro c hc
          rcases List.mem_append.mp hc with h | h
          · exact hds c h
          · rw [List.eq_of_mem_replicate h]
            decide
        · obtain ⟨c, cs, hcons⟩ : ∃ c cs, natDigits m.natAbs = c :: cs := by
            cases hx : natDigits m.natAbs with
            | nil => exact absurd hx hdsne
            | cons a b => exact ⟨a, b, rfl⟩
          rw [hcons]
          rw [hcons] at hdshead
          simpa using hdshead
      · simp only [numLitVal, mkDecLit, exNegOf, exDigits, Option.getD,
          List.append_nil, List.length_nil]
        rw [digitsToNat_append, hval, digitsToNat_zeros, List.length_replicate]
        have hmant : (if decide (m < 0) then (-1 : Int) else 1)
            * ((m.natAbs * 10 ^ e.toNat + 0 : Nat) : Int) = m * 10 ^ e.toNat := by
          push_cast
          rw [add_zero, ← mul_assoc, Int.abs_eq_natAbs, hmant0]
        rw [hmant]
        have hfin : ((if false = true then (-1 : Int) else 1)
            * ((digitsToNat [] : Nat) : Int) - ((0 : Nat) : Int)) = (0 : Int) := by
          norm_num [digitsToNat]
        rw [hfin, Dec.norm_mul_pow m 0 e.toNat hnd hm]
        congr 1
        omega
    · -- fractional forms
      have hk1 : 1 ≤ (-e).toNat := by omega
      by_cases hlen : (natDigits m.natAbs).length ≤ (-e).toNat
      · -- 0.00…0digits
        refine ⟨decide (m < 0), ['0'],
          some (List.replicate ((-e).toNat - (natDigits m.natAbs).length) '0'
            ++ natDigits m.natAbs), ?_, ?_, ?_⟩
        · simp only [decChars, hm, if_false, he, if_false, hlen, if_true,
            numLitChars, fracTail, exTail, List.append_nil, hsgn]
          simp [List.append_assoc]
        · refine ⟨Or.inl rfl, ⟨by simp [hdsne], ?_⟩, trivial⟩
          intro c hc
          rcases List.mem_append.mp hc with h | h
          · rw [List.eq_of_mem_replicate h]
            decide
          · exact hds c h
        · simp only [numLitVal, mkDecLit, exNegOf, exDigits, Option.getD]
          have hd2n : digitsToNat ('0' :: (List.replicate ((-e).toNat
              - (natDigits m.natAbs).length) '0' ++ natDigits m.natAbs)) = m.natAbs := by
            show digitsToNat (['0'] ++ (List.replicate ((-e).toNat
              - (natDigits m.natAbs).length) '0' ++ natDigits m.natAbs)) = m.natAbs
            rw [digitsToNat_append, digitsToNat_append, digitsToNat_zeros, hval]
            show 0 * 10 ^ _ + _ = _
            ring
          rw [List.singleton_append, hd2n, hmant0]
          have hexp2 : ((if false = true then (-1 : Int) else 1))
              * ((digitsToNat [] : Nat) : Int)
              - (((List.replicate ((-e).toNat - (natDigits m.natAbs).length) '0'
                  ++ natDigits m.natAbs).length : Nat) : Int) = e := by
            show (1 : Int) * ((0 : Nat) : Int) - _ = e
            simp [List.length_append, List.length_replicate]
            omega
          rw [hexp2]
          exact Dec.norm_of_isNorm ⟨m, e⟩ hn
      · -- digits split around the point
        push_neg at hlen
        refine ⟨decide (m < 0),
          (natDigits m.natAbs).take ((natDigits m.natAbs).length - (-e).toNat),
          some ((natDigits m.natAbs).drop ((natDigits m.natAbs).length - (-e).toNat)),
          ?_, ?_, ?_⟩
        · simp only [decChars, hm, if_false, he, if_true, numLitChars, fracTail,
            exTail, List.append_nil, hsgn]
          have : ¬((natDigits m.natAbs).length ≤ (-e).toNat) := by omega
          simp only [this, if_false]
          simp [List.append_assoc]
        · have hLk : 1 ≤ (natDigits m.natAbs).length - (-e).toNat := by omega
          obtain ⟨c, cs, hcons⟩ : ∃ c cs, natDigits m.natAbs = c :: cs := by
            cases hx : natDigits m.natAbs with
            | nil => exact absurd hx hdsne
            | cons a b => exact ⟨a, b, rfl⟩
          refine ⟨Or.inr ⟨?_, ?_, ?_⟩, ⟨?_, ?_⟩, trivial⟩
          · obtain ⟨j, hj⟩ : ∃ j, (natDigits m.natAbs).length - (-e).toNat = j + 1 :=
              ⟨(natDigits m.natAbs).length - (-e).toNat - 1, by omega⟩
            rw [hj, hcons]
            simp [List.take]
          · intro c2 hc2
            exact hds c2 (List.mem_of_mem_take hc2)
          · obtain ⟨j, hj⟩ : ∃ j, (natDigits m.natAbs).length - (-e).toNat = j + 1 :=
              ⟨(natDigits m.natAbs).length - (-e).toNat - 1, by omega⟩
            rw [hj, hcons]
            rw [hcons] at hdshead
            simpa using hdshead
          · have hdl : ((natDigits m.natAbs).drop ((natDigits m.natAbs).length
                - (-e).toNat)).length = (-e).toNat := by
              simp [List.length_drop]
              omega
            intro hnil
            rw [hnil] at hdl
            simp at hdl
            omega
          · intro c2 hc2
            exact hds c2 (List.mem_of_mem_drop hc2)
        · simp only [numLitVal, mkDecLit, exNegOf, exDigits, Option.getD]
          rw [List.take_append_drop, hval, hmant0]
          have hexp2 : ((if false = true then (-1 : Int) else 1))
              * ((digitsToNat [] : Nat) : Int)
              - ((((natDigits m.natAbs).drop ((natDigits m.natAbs).length
                  - (-e).toNat)).length : Nat) : Int) = e := by
            show (1 : Int) * ((0 : Nat) : Int) - _ = e
            simp [List.length_drop]
            omega
          rw [hexp2]
          exact Dec.norm_of_isNorm ⟨m, e⟩ hn

/-! ## Token-level round-trip lemmas -/

/-- The separator characters that can follow a printed JSON value. -/
def sepHd : List Char → Prop
  | [] => True
  | c :: _ => c = ',' ∨ c = ']' ∨ c = '}' ∨ c = ':'

theorem sepHd.toNumStop {cs : List Char} (h : sepHd cs) : numStop cs := by
  cases cs with
  | nil => trivial
  | cons c t =>
    rcases h with rfl | rfl | rfl | rfl <;>
      exact ⟨by decide, by decide, by decide, by decide⟩

/-- The identifier-boundary test of `matchKw` as a named function. -/
def kwBoundary (cs : List Char) : Bool :=
  match cs with
  | [] => true
  | c :: _ => !isIdentChar c

theorem sepHd.boundary {cs : List Char} (h : sepHd cs) : kwBoundary cs = true := by
  cases cs with
  | nil => rfl
  | cons c t =>
    rcases h with rfl | rfl | rfl | rfl
    · show (!isIdentChar ',') = true
      decide
    · show (!isIdentChar ']') = true
      decide
    · show (!isIdentChar '}') = true
      decide
    · show (!isIdentChar ':') = true
      decide

theorem skipWhitespace_cons (c : Char) (r : List Char) (pos : Pos)
    (h1 : c ≠ ' ') (h2 : c ≠ '\r') (h3 : c ≠ '\t') (h4 : c ≠ '\n') :
    skipWhitespace (c :: r) pos = (c :: r, pos) := by
  simp [skipWhitespace, h1, h2, h3, h4]

theorem isDigitC_ne (c x : Char) (h : isDigitC c = true) (hx : isDigitC x = false) :
    c ≠ x := by
  intro he
  rw [he, hx] at h
  cases h

theorem nextToken_eof (pos : Pos) :
    nextToken [] pos = .ok (createToken .EOF .vnull pos, [], pos) := by
  simp [nextToken, skipWhitespace]

theorem nextToken_comma (r : List Char) (pos : Pos) :
    nextToken (',' :: r) pos = .ok (createToken .Comma (.vchar ',') pos, r, pos.adv 1) := by
  simp [nextToken, skipWhitespace]

theorem nextToken_colon (r : List Char) (pos : Pos) :
    nextToken (':' :: r) pos = .ok (createToken .Colon (.vchar ':') pos, r, pos.adv 1) := by
  simp [nextToken, skipWhitespace]

theorem nextToken_lbrace (r : List Char) (pos : Pos) :
    nextToken ('{' :: r) pos
      = .ok (createToken .LeftBrace (.vchar '{') pos, r, pos.adv 1) := by
  simp [nextToken, skipWhitespace]

theorem nextToken_rbrace (r : List Char) (pos : Pos) :
    nextToken ('}' :: r) pos
      = .ok (createToken .RightBrace (.vchar '}') pos, r, pos.adv 1) := by
  simp [nextToken, skipWhitespace]

theorem nextToken_lbracket (r : List Char) (pos : Pos) :
    nextToken ('[' :: r) pos
      = .ok (createToken .LeftBracket (.vchar '[') pos, r, pos.adv 1) := by
  simp [nextToken, skipWhitespace]

theorem nextToken_rbracket (r : List Char) (pos : Pos) :
    nextToken (']' :: r) pos
      = .ok (createToken .RightBracket (.vchar ']') pos, r, pos.adv 1) := by
  simp [nextToken, skipWhitespace]

/-- `nextToken` on a separator continuation always succeeds. -/
theorem nextToken_sep (cs : List Char) (pos : Pos) (h : sepHd cs) :
    ∃ t r p, nextToken cs pos = .ok (t, r, p) := by
  cases cs with
  | nil => exact ⟨_, _, _, nextToken_eof pos⟩
  | cons c t =>
    rcases h with rfl | rfl | rfl | rfl
    · exact ⟨_, _, _, nextToken_comma t pos⟩
    · exact ⟨_, _, _, nextToken_rbracket t pos⟩
    · exact ⟨_, _, _, nextToken_rbrace t pos⟩
    · exact ⟨_, _, _, nextToken_colon t pos⟩

/-- `nextToken` on a non-whitespace, non-structural, non-quote head reaches
the keyword/number cascade. -/
theorem nextToken_other (c : Char) (r : List Char) (pos : Pos)
    (hws : skipWhitespace (c :: r) pos = (c :: r, pos))
    (h1 : c ≠ '{') (h2 : c ≠ '}') (h3 : c ≠ '[') (h4 : c ≠ ']') (h5 : c ≠ ':')
    (h6 : c ≠ ',') (h7 : c ≠ '"') :
    nextToken (c :: r) pos =
      (if matchKw ['t', 'r', 'u', 'e'] (c :: r) then
        .ok (createToken .True (.vbool true) pos, (c :: r).drop 4, pos.adv 4)
      else if matchKw ['f', 'a', 'l', 's', 'e'] (c :: r) then
        .ok (createToken .False (.vbool false) pos, (c :: r).drop 5, pos.adv 5)
      else if matchKw ['n', 'u', 'l', 'l'] (c :: r) then
        .ok (createToken .Null .vnull pos, (c :: r).drop 4, pos.adv 4)
      else if isDigitC c || c = '-' then
        scanNumber (c :: r) pos
      else
        .error (tkErr ("Unexpected character: '" ++ String.singleton c ++ "'") pos)) := by
  rw [nextToken.eq_def, hws]
  show (match c :: r with
    | [] => Except.ok (createToken .EOF .vnull pos, [], pos)
    | c :: r => _) = _
  split
  · rename_i heq
    cases heq
  · rename_i c2 r2 heq
    injection heq with hc hr
    subst hc
    subst hr
    split
    · exact absurd rfl h1
    · exact absurd rfl h2
    · exact absurd rfl h3
    · exact absurd rfl h4
    · exact absurd rfl h5
    · exact absurd rfl h6
    · exact absurd rfl h7
    · rfl

/-- `scanNumber` on a printed decimal recovers exactly the `Dec`. -/
theorem scanNumber_decChars (d : Dec) (rest : List Char) (pos : Pos)
    (hn : d.isNorm = true) (ho : d.overflow = false) (hrest : numStop rest) :
    ∃ p', scanNumber (decChars d ++ rest) pos
      = .ok (createToken .Number (.vnum d) pos, rest, p') := by
  obtain ⟨neg, intDs, frac, hchars, hwf, hval⟩ := decChars_lit d hn
  rw [hchars, scanNumber_lit neg intDs frac none rest pos hwf hrest]
  refine ⟨pos.adv ((if neg then 1 else 0) + (intDs.length + (fracLen frac + exLen none))), ?_⟩
  simp only [numLitVal] at hval
  simp only [scanNumber.scanNumberFinish, hval, ho, Bool.false_eq_true, if_false]

/-- A well-formed literal's first character is a digit or a minus sign. -/
theorem numLitChars_head (neg : Bool) (intDs : List Char)
    (frac : Option (List Char)) (ex : Option (Char × Option Char × List Char))
    (hwf : numLitWF intDs frac ex) :
    ∃ c0 tl, numLitChars neg intDs frac ex = c0 :: tl ∧
      (isDigitC c0 = true ∨ c0 = '-') := by
  obtain ⟨i0, irest, hcons, hi0⟩ : ∃ i0 irest, intDs = i0 :: irest ∧ isDigitC i0 = true := by
    rcases hwf.1 with rfl | ⟨hne, hdig, _⟩
    · exact ⟨'0', [], rfl, by decide⟩
    · cases hx : intDs with
      | nil => exact absurd hx hne
      | cons a b => exact ⟨a, b, rfl, hdig a (by rw [hx]; simp)⟩
  cases neg with
  | true =>
    refine ⟨'-', intDs ++ (fracTail frac ++ exTail ex), ?_, Or.inr rfl⟩
    simp [numLitChars]
  | false =>
    refine ⟨i0, irest ++ (fracTail frac ++ exTail ex), ?_, Or.inl hi0⟩
    simp [numLitChars, hcons]

/-- **Token round trip, numbers**: tokenizing printed decimal text yields the
number token carrying the same `Dec`. -/
theorem nextToken_num (d : Dec) (rest : List Char) (pos : Pos)
    (hn : d.isNorm = true) (ho : d.overflow = false) (hrest : sepHd rest) :
    ∃ p', nextToken (decChars d ++ rest) pos
      = .ok (createToken .Number (.vnum d) pos, rest, p') := by
  obtain ⟨neg, intDs, frac, hchars, hwf, hval⟩ := decChars_lit d hn
  obtain ⟨c0, tl, hcons, hc0⟩ := numLitChars_head neg intDs frac none hwf
  have hcs : decChars d ++ rest = c0 :: (tl ++ rest) := by
    rw [hchars, hcons]
    simp
  have hdig_or : isDigitC c0 = true ∨ c0 = '-' := hc0
  have hnum : (isDigitC c0 || c0 = '-') = true := by
    rcases hdig_or with h | h
    · simp [h]
    · simp [h]
  have hne : ∀ x : Char, isDigitC x = false → x ≠ '-' → c0 ≠ x := by
    intro x hx hxm he
    rcases hdig_or with h | h
    · rw [he, hx] at h
      cases h
    · rw [← he] at hxm
      exact hxm h
  have hkw : ∀ (k0 : Char) (kt : List Char), isDigitC k0 = false → k0 ≠ '-' →
      matchKw (k0 :: kt) (c0 :: (tl ++ rest)) = false := by
    intro k0 kt hk0 hk0m
    have : (k0 == c0) = false := by
      have := hne k0 hk0 hk0m
      simp [BEq.beq]
      intro hcc
      exact absurd hcc.symm this
    simp [matchKw, List.isPrefixOf, this]
  rw [hcs]
  rw [nextToken_other c0 (tl ++ rest) pos
    (skipWhitespace_cons c0 _ pos (hne ' ' (by decide) (by decide))
      (hne '\r' (by decide) (by decide)) (hne '\t' (by decide) (by decide))
      (hne '\n' (by decide) (by decide)))
    (hne '{' (by decide) (by decide)) (hne '}' (by decide) (by decide))
    (hne '[' (by decide) (by decide)) (hne ']' (by decide) (by decide))
    (hne ':' (by decide) (by decide)) (hne ',' (by decide) (by decide))
    (hne '"' (by decide) (by decide))]
  rw [hkw 't' _ (by decide) (by decide), hkw 'f' _ (by decide) (by decide),
    hkw 'n' _ (by decide) (by decide)]
  simp only [Bool.false_eq_true, if_false, hnum, if_true]
  rw [← hcs]
  exact scanNumber_decChars d rest pos hn ho hrest.toNumStop

theorem nextToken_nullKw (rest : List Char) (pos : Pos) (h : sepHd rest) :
    nextToken (['n', 'u', 'l', 'l'] ++ rest) pos
      = .ok (createToken .Null .vnull pos, rest, pos.adv 4) := by
  have hb := h.boundary
  rw [show (['n', 'u', 'l', 'l'] ++ rest) = 'n' :: (['u', 'l', 'l'] ++ rest) from rfl]
  rw [nextToken_other 'n' _ pos
    (skipWhitespace_cons _ _ _ (by decide) (of_decide_eq_true rfl) (by decide)
      (of_decide_eq_true rfl))
    (by decide) (of_decide_eq_true rfl) (by decide) (of_decide_eq_true rfl)
    (by decide) (of_decide_eq_true rfl) (by decide)]
  rw [show matchKw ['t', 'r', 'u', 'e'] ('n' :: (['u', 'l', 'l'] ++ rest)) = false from rfl]
  rw [show matchKw ['f', 'a', 'l', 's', 'e'] ('n' :: (['u', 'l', 'l'] ++ rest)) = false
    from rfl]
  rw [show matchKw ['n', 'u', 'l', 'l'] ('n' :: (['u', 'l', 'l'] ++ rest))
    = kwBoundary rest from by cases rest <;> rfl]
  rw [hb]
  rfl

theorem nextToken_trueKw (rest : List Char) (pos : Pos) (h : sepHd rest) :
    nextToken (['t', 'r', 'u', 'e'] ++ rest) pos
      = .ok (createToken .True (.vbool true) pos, rest, pos.adv 4) := by
  have hb := h.boundary
  rw [show (['t', 'r', 'u', 'e'] ++ rest) = 't' :: (['r', 'u', 'e'] ++ rest) from rfl]
  rw [nextToken_other 't' _ pos
    (skipWhitespace_cons _ _ _ (by decide) (of_decide_eq_true rfl) (by decide)
      (of_decide_eq_true rfl))
    (by decide) (of_decide_eq_true rfl) (by decide) (of_decide_eq_true rfl)
    (by decide) (of_decide_eq_true rfl) (by decide)]
  rw [show matchKw ['t', 'r', 'u', 'e'] ('t' :: (['r', 'u', 'e'] ++ rest))
    = kwBoundary rest from by cases rest <;> rfl]
  rw [hb]
  rfl

theorem nextToken_falseKw (rest : List Char) (pos : Pos) (h : sepHd rest) :
    nextToken (['f', 'a', 'l', 's', 'e'] ++ rest) pos
      = .ok (createToken .False (.vbool false) pos, rest, pos.adv 5) := by
  have hb := h.boundary
  rw [show (['f', 'a', 'l', 's', 'e'] ++ rest) = 'f' :: (['a', 'l', 's', 'e'] ++ rest)
    from rfl]
  rw [nextToken_other 'f' _ pos
    (skipWhitespace_cons _ _ _ (by decide) (of_decide_eq_true rfl) (by decide)
      (of_decide_eq_true rfl))
    (by decide) (of_decide_eq_true rfl) (by decide) (of_decide_eq_true rfl)
    (by decide) (of_decide_eq_true rfl) (by decide)]
  rw [show matchKw ['t', 'r', 'u', 'e'] ('f' :: (['a', 'l', 's', 'e'] ++ rest)) = false
    from rfl]
  rw [show matchKw ['f', 'a', 'l', 's', 'e'] ('f' :: (['a', 'l', 's', 'e'] ++ rest))
    = kwBoundary rest from by cases rest <;> rfl]
  rw [hb]
  rfl

theorem hexDigitVal_hexChar (n : Nat) (h : n < 16) : hexDigitVal (hexChar n) = n := by
  interval_cases n <;> decide

theorem isHexDigit_hexChar (n : Nat) (h : n < 16) : isHexDigit (hexChar n) = true := by
  interval_cases n <;> decide

theorem hexToNat_ctrl (c : Char) (h : c.toNat < 0x20) :
    hexToNat ['0', '0', hexChar (c.toNat / 16), hexChar (c.toNat % 16)] = c.toNat := by
  have h1 : c.toNat / 16 < 16 := by omega
  have h2 : c.toNat % 16 < 16 := by omega
  show ((((0 * 16 + hexDigitVal '0') * 16 + hexDigitVal '0') * 16
    + hexDigitVal (hexChar (c.toNat / 16))) * 16 + hexDigitVal (hexChar (c.toNat % 16))) = c.toNat
  rw [hexDigitVal_hexChar _ h1, hexDigitVal_hexChar _ h2]
  show (((0 * 16 + hexDigitVal '0') * 16 + hexDigitVal '0') * 16 + c.toNat / 16) * 16
    + c.toNat % 16 = c.toNat
  rw [show hexDigitVal '0' = 0 from rfl]
  omega

/-- One escape: the loop decodes `escapeCharL c` back to `c` and continues. -/
theorem scanStringLoop_esc (c : Char) (tl : List Char) (pos : Pos) (acc : List Char) :
    ∃ p', scanStringLoop (escapeCharL c ++ tl) pos acc
      = scanStringLoop tl p' (c :: acc) := by
  by_cases h1 : c = '"'
  · subst h1; exact ⟨_, rfl⟩
  by_cases h2 : c = '\\'
  · subst h2; exact ⟨_, rfl⟩
  by_cases h3 : c = '\x08'
  · subst h3; exact ⟨_, rfl⟩
  by_cases h4 : c = '\x0c'
  · subst h4; exact ⟨_, rfl⟩
  by_cases h5 : c = '\n'
  · subst h5; exact ⟨_, rfl⟩
  by_cases h6 : c = '\r'
  · subst h6; exact ⟨_, rfl⟩
  by_cases h7 : c = '\t'
  · subst h7; exact ⟨_, rfl⟩
  by_cases h8 : c.toNat < 0x20
  · have hesc : escapeCharL c
        = ['\\', 'u', '0', '0', hexChar (c.toNat / 16), hexChar (c.toNat % 16)] := by
      simp [escapeCharL, h1, h2, h3, h4, h5, h6, h7, h8]
    rw [hesc]
    show ∃ p', scanStringLoop ('\\' :: 'u' :: '0' :: '0' :: hexChar (c.toNat / 16)
      :: hexChar (c.toNat % 16) :: tl) pos acc = scanStringLoop tl p' (c :: acc)
    have hh1 : c.toNat / 16 < 16 := by omega
    have hh2 : c.toNat % 16 < 16 := by omega
    have hguard : (isHexDigit '0' && isHexDigit '0' && isHexDigit (hexChar (c.toNat / 16))
        && isHexDigit (hexChar (c.toNat % 16))) = true := by
      rw [isHexDigit_hexChar _ hh1, isHexDigit_hexChar _ hh2]
      decide
    refine ⟨((pos.adv 1).adv 1).adv 4, ?_⟩
    show (if (isHexDigit '0' && isHexDigit '0' && isHexDigit (hexChar (c.toNat / 16))
        && isHexDigit (hexChar (c.toNat % 16))) = true then
        scanStringLoop tl (((pos.adv 1).adv 1).adv 4)
          (Char.ofNat (hexToNat ['0', '0', hexChar (c.toNat / 16),
            hexChar (c.toNat % 16)]) :: acc)
      else
        match readHexDigits 4 ('0' :: '0' :: hexChar (c.toNat / 16)
            :: hexChar (c.toNat % 16) :: tl) ((pos.adv 1).adv 1) with
        | (_, _, p3) => .error (tkErr "Invalid unicode escape sequence" p3))
      = scanStringLoop tl (((pos.adv 1).adv 1).adv 4) (c :: acc)
    rw [if_pos hguard]
    rw [hexToNat_ctrl c h8, Char.ofNat_toNat]
  · have hesc : escapeCharL c = [c] := by
      simp [escapeCharL, h1, h2, h3, h4, h5, h6, h7, h8]
    rw [hesc]
    rw [show ([c] ++ tl) = c :: tl from rfl]
    rw [scanStringLoop.eq_def]
    split
    · rename_i heq
      cases heq
    · rename_i r heq
      injection heq with ha _
      exact absurd ha h1
    · rename_i r heq
      injection heq with ha _
      exact absurd ha h2
    · rename_i c2 r heq
      injection heq with ha hb
      subst ha
      subst hb
      have hg : (c = '\n' || c = '\r') = false := by
        simp [h5, h6]
      rw [hg]
      exact ⟨_, rfl⟩

/-- The loop decodes a fully escaped string and stops at the closing
quote. -/
theorem scanStringLoop_escaped (cs : List Char) : ∀ (rest : List Char) (pos : Pos)
    (acc : List Char),
    ∃ p', scanStringLoop (cs.flatMap escapeCharL ++ ('"' :: rest)) pos acc
      = .ok (⟨acc.reverse ++ cs⟩, rest, p') := by
  induction cs with
  | nil =>
    intro rest pos acc
    refine ⟨pos.adv 1, ?_⟩
    show Except.ok ((⟨acc.reverse⟩ : String), rest, pos.adv 1)
      = Except.ok ((⟨acc.reverse ++ ([] : List Char)⟩ : String), rest, pos.adv 1)
    rw [List.append_nil]
  | cons c cs ih =>
    intro rest pos acc
    rw [List.flatMap_cons, List.append_assoc]
    obtain ⟨p1, hstep⟩ := scanStringLoop_esc c (cs.flatMap escapeCharL ++ ('"' :: rest))
      pos acc
    rw [hstep]
    obtain ⟨p2, hrec⟩ := ih rest p1 (c :: acc)
    rw [hrec]
    refine ⟨p2, ?_⟩
    have : (c :: acc).reverse ++ cs = acc.reverse ++ (c :: cs) := by
      simp
    rw [this]

/-- **Token round trip, strings**: tokenizing a printed string literal yields
the string token carrying the same string. -/
theorem nextToken_str (s : String) (rest : List Char) (pos : Pos) :
    ∃ p', nextToken (quoteStrL s ++ rest) pos
      = .ok (createToken .String (.vstr s) pos, rest, p') := by
  have hq : quoteStrL s ++ rest
      = '"' :: (s.data.flatMap escapeCharL ++ ('"' :: rest)) := by
    simp [quoteStrL]
  rw [hq]
  obtain ⟨p', hloop⟩ := scanStringLoop_escaped s.data rest (pos.adv 1) []
  refine ⟨p', ?_⟩
  have hws : skipWhitespace ('"' :: (s.data.flatMap escapeCharL ++ ('"' :: rest))) pos
      = ('"' :: (s.data.flatMap escapeCharL ++ ('"' :: rest)), pos) :=
    skipWhitespace_cons _ _ _ (by decide) (of_decide_eq_true rfl) (by decide)
      (of_decide_eq_true rfl)
  rw [nextToken.eq_def, hws]
  show scanString ('"' :: (s.data.flatMap escapeCharL ++ ('"' :: rest))) pos = _
  rw [scanString.eq_def]
  show (match scanStringLoop (s.data.flatMap escapeCharL ++ ('"' :: rest)) (pos.adv 1) []
    with
    | .error e => Except.error e
    | .ok (value, rest, p) => .ok (createToken .String (.vstr value) pos, rest, p)) = _
  rw [hloop]
  show Except.ok (createToken .String (.vstr ⟨List.reverse [] ++ s.data⟩) pos, rest, p') = _
  have : (⟨List.reverse [] ++ s.data⟩ : String) = s := by
    show (⟨s.data⟩ : String) = s
    cases s
    rfl
  rw [this]

/-! ## Parser round trip -/

mutual
/-- A fuel lower bound for parsing the printed text of a value. -/
def pw : Json → Nat
  | .num _ => 1
  | .str _ => 1
  | .null => 1
  | .bool _ => 1
  | .arr l => pwA l + 2
  | .obj fl => pwF fl + 2
def pwA : JArr → Nat
  | .nil => 1
  | .cons h t => pw h + pwA t + 1
def pwF : JFields → Nat
  | .nil => 1
  | .cons _ v t => pw v + pwF t + 1
end

theorem pw_pos (j : Json) : 1 ≤ pw j := by
  cases j <;> simp [pw]

mutual
/-- Parse-printable values: every number canonical and in range, every
object's keys distinct. -/
def goodJ : Json → Bool
  | .null => true
  | .bool _ => true
  | .num d => d.isNorm && !d.overflow
  | .str _ => true
  | .arr l => goodA l
  | .obj fl => goodF fl
def goodA : JArr → Bool
  | .nil => true
  | .cons h t => goodJ h && goodA t
def goodF : JFields → Bool
  | .nil => true
  | .cons k v t => goodJ v && !(t.hasKey k) && goodF t
end

theorem hasKey_append : ∀ (a b : JFields) (k : String),
    (a.append b).hasKey k = (a.hasKey k || b.hasKey k)
  | .nil, b, k => by simp [JFields.append, JFields.hasKey, JFields.lookup]
  | .cons k' v t, b, k => by
    have ih := hasKey_append t b k
    by_cases h : k' = k
    · simp [JFields.append, JFields.hasKey, JFields.lookup, h]
    · simp only [JFields.append, JFields.hasKey, JFields.lookup, h, if_false] at ih ⊢
      exact ih

theorem setKey_absent : ∀ (fl : JFields) (k : String) (v : Json),
    fl.hasKey k = false → fl.setKey k v = fl.append (.cons k v .nil)
  | .nil, k, v, _ => rfl
  | .cons k' v' t, k, v, h => by
    simp only [JFields.hasKey, JFields.lookup] at h
    by_cases hk : k' = k
    · rw [if_pos hk] at h
      simp at h
    · rw [if_neg hk] at h
      simp only [JFields.setKey, hk, if_false, JFields.append]
      rw [setKey_absent t k v h]

theorem append_assocF : ∀ (a b c : JFields),
    (a.append b).append c = a.append (b.append c)
  | .nil, _, _ => rfl
  | .cons k v t, b, c => by simp only [JFields.append, append_assocF t b c]

/-- `advance` after a known tokenizer step. -/
theorem advanceP_eq (st : PState) (t : Token) (r : List Char) (p : Pos)
    (h : nextToken st.rest st.pos = .ok (t, r, p)) :
    advanceP st = .ok ⟨t, r, p⟩ := by
  simp [advanceP, h]

theorem consumeP_eq (ty : TokenType) (msg : String) (st : PState)
    (hty : st.cur.type = ty) (t : Token) (r : List Char) (p : Pos)
    (h : nextToken st.rest st.pos = .ok (t, r, p)) :
    consumeP ty msg st = .ok ⟨t, r, p⟩ := by
  simp [consumeP, hty, advanceP, h]

/-- Read off the lookahead state from a known tokenizer step. -/
theorem prime_dest {st : PState} {tok : Token} {r : List Char} {p : Pos}
    {cs : List Char} {pos0 : Pos}
    (hlem : nextToken cs pos0 = .ok (tok, r, p))
    (hpr : nextToken cs pos0 = .ok (st.cur, st.rest, st.pos)) :
    st.cur = tok ∧ st.rest = r ∧ st.pos = p := by
  rw [hlem] at hpr
  injection hpr with h
  rw [Prod.ext_iff, Prod.ext_iff] at h
  exact ⟨h.1.symm, h.2.1.symm, h.2.2.symm⟩

/-- The first token of a printed value is never a closer or separator. -/
theorem value_first_tok (j : Json) (rest : List Char) (pos : Pos)
    (hg : goodJ j = true) (hsep : sepHd rest) :
    ∃ t r p, nextToken (printJsonL j ++ rest) pos = .ok (t, r, p) ∧
      t.type ≠ .RightBracket ∧ t.type ≠ .RightBrace ∧ t.type ≠ .Comma := by
  cases j with
  | null =>
    refine ⟨_, _, _, nextToken_nullKw rest pos hsep, ?_, ?_, ?_⟩ <;>
      (show TokenType.Null ≠ _; decide)
  | bool b =>
    cases b with
    | true =>
      refine ⟨_, _, _, nextToken_trueKw rest pos hsep, ?_, ?_, ?_⟩ <;>
        (show TokenType.True ≠ _; decide)
    | false =>
      refine ⟨_, _, _, nextToken_falseKw rest pos hsep, ?_, ?_, ?_⟩ <;>
        (show TokenType.False ≠ _; decide)
  | num d =>
    simp only [goodJ, Bool.and_eq_true, Bool.not_eq_true'] at hg
    obtain ⟨p', hp⟩ := nextToken_num d rest pos hg.1 hg.2 hsep
    refine ⟨_, _, _, hp, ?_, ?_, ?_⟩ <;> (show TokenType.Number ≠ _; decide)
  | str s =>
    obtain ⟨p', hp⟩ := nextToken_str s rest pos
    refine ⟨_, _, _, hp, ?_, ?_, ?_⟩ <;> (show TokenType.String ≠ _; decide)
  | arr l =>
    have hx : nextToken (printJsonL (.arr l) ++ rest) pos
        = .ok (createToken .LeftBracket (.vchar '[') pos,
          (printArrL l ++ [']']) ++ rest, pos.adv 1) := by
      rw [show (printJsonL (.arr l) ++ rest) = '[' :: ((printArrL l ++ [']']) ++ rest)
        from by simp [printJsonL]]
      exact nextToken_lbracket _ pos
    refine ⟨_, _, _, hx, ?_, ?_, ?_⟩ <;> (show TokenType.LeftBracket ≠ _; decide)
  | obj fl =>
    have hx : nextToken (printJsonL (.obj fl) ++ rest) pos
        = .ok (createToken .LeftBrace (.vchar '{') pos,
          (printFieldsL fl ++ ['}']) ++ rest, pos.adv 1) := by
      rw [show (printJsonL (.obj fl) ++ rest) = '{' :: ((printFieldsL fl ++ ['}']) ++ rest)
        from by simp [printJsonL]]
      exact nextToken_lbrace _ pos
    refine ⟨_, _, _, hx, ?_, ?_, ?_⟩ <;> (show TokenType.LeftBrace ≠ _; decide)

theorem sepHd_fieldsSep (t : JFields) (rest : List Char) :
    sepHd (printFieldsSepL t ++ ('}' :: rest)) := by
  cases t with
  | nil => exact Or.inr (Or.inr (Or.inl rfl))
  | cons k v t2 => exact Or.inl rfl

theorem sepHd_arrSep (t : JArr) (rest : List Char) :
    sepHd (printArrSepL t ++ (']' :: rest)) := by
  cases t with
  | nil => exact Or.inr (Or.inl rfl)
  | cons h t2 => exact Or.inl rfl

theorem exc_bind_ok {E A B : Type} (a : A) (k : A → Except E B) :
    ((Except.ok a : Except E A) >>= k) = k a := rfl

theorem ofList_toList : ∀ l : JArr, JArr.ofList l.toList = l
  | .nil => rfl
  | .cons h t => by simp only [JArr.toList, JArr.ofList, ofList_toList t]

mutual

/-- **Parser round trip, values**: a parser primed on the printed text of a
good value returns exactly that value and leaves the lookahead primed on the
continuation. -/
theorem parseValue_rt (f : Nat) (j : Json) (rest : List Char) (st : PState)
    (hg : goodJ j = true) (hsep : sepHd rest) (hf : pw j ≤ f)
    (hpr : ∃ pos0, nextToken (printJsonL j ++ rest) pos0
      = .ok (st.cur, st.rest, st.pos)) :
    ∃ st', parseValueF f st = .ok (j, st') ∧
      ∃ pos1, nextToken rest pos1 = .ok (st'.cur, st'.rest, st'.pos) := by
  obtain ⟨pos0, hpr0⟩ := hpr
  obtain ⟨f', rfl⟩ : ∃ f', f = f' + 1 := ⟨f - 1, by have := pw_pos j; omega⟩
  cases j with
  | null =>
    obtain ⟨hc, hr, hp⟩ := prime_dest (nextToken_nullKw rest pos0 hsep) hpr0
    obtain ⟨t1, r1, p1, hnt⟩ := nextToken_sep rest (pos0.adv 4) hsep
    refine ⟨⟨t1, r1, p1⟩, ?_, pos0.adv 4, hnt⟩
    simp only [parseValueF, hc, createToken]
    rw [advanceP_eq st t1 r1 p1 (by rw [hr, hp]; exact hnt)]
    rfl
  | bool b =>
    cases b with
    | true =>
      obtain ⟨hc, hr, hp⟩ := prime_dest (nextToken_trueKw rest pos0 hsep) hpr0
      obtain ⟨t1, r1, p1, hnt⟩ := nextToken_sep rest (pos0.adv 4) hsep
      refine ⟨⟨t1, r1, p1⟩, ?_, pos0.adv 4, hnt⟩
      simp only [parseValueF, hc, createToken]
      rw [advanceP_eq st t1 r1 p1 (by rw [hr, hp]; exact hnt)]
      rfl
    | false =>
      obtain ⟨hc, hr, hp⟩ := prime_dest (nextToken_falseKw rest pos0 hsep) hpr0
      obtain ⟨t1, r1, p1, hnt⟩ := nextToken_sep rest (pos0.adv 5) hsep
      refine ⟨⟨t1, r1, p1⟩, ?_, pos0.adv 5, hnt⟩
      simp only [parseValueF, hc, createToken]
      rw [advanceP_eq st t1 r1 p1 (by rw [hr, hp]; exact hnt)]
      rfl
  | num d =>
    simp only [goodJ, Bool.and_eq_true, Bool.not_eq_true'] at hg
    obtain ⟨pn, hlem⟩ := nextToken_num d rest pos0 hg.1 hg.2 hsep
    obtain ⟨hc, hr, hp⟩ := prime_dest hlem hpr0
    obtain ⟨t1, r1, p1, hnt⟩ := nextToken_sep rest pn hsep
    refine ⟨⟨t1, r1, p1⟩, ?_, pn, hnt⟩
    simp only [parseValueF, hc, createToken]
    rw [advanceP_eq st t1 r1 p1 (by rw [hr, hp]; exact hnt)]
    rfl
  | str s =>
    obtain ⟨pn, hlem⟩ := nextToken_str s rest pos0
    obtain ⟨hc, hr, hp⟩ := prime_dest hlem hpr0
    obtain ⟨t1, r1, p1, hnt⟩ := nextToken_sep rest pn hsep
    refine ⟨⟨t1, r1, p1⟩, ?_, pn, hnt⟩
    simp only [parseValueF, hc, createToken]
    rw [advanceP_eq st t1 r1 p1 (by rw [hr, hp]; exact hnt)]
    rfl
  | arr l =>
    have hpr0' : nextToken ('[' :: (printArrL l ++ (']' :: rest))) pos0
        = .ok (st.cur, st.rest, st.pos) := by
      rw [show ('[' :: (printArrL l ++ (']' :: rest)))
        = printJsonL (.arr l) ++ rest from by simp [printJsonL]]
      exact hpr0
    obtain ⟨hc, hr, hp⟩ := prime_dest (nextToken_lbracket _ pos0) hpr0'
    obtain ⟨f'', rfl⟩ : ∃ f'', f' = f'' + 1 := by
      refine ⟨f' - 1, ?_⟩
      simp only [pw] at hf
      omega
    have hfA : pwA l ≤ f'' := by
      simp only [pw] at hf
      omega
    simp only [parseValueF, hc, createToken, parseArrayF]
    cases l with
    | nil =>
      have hnt1 : nextToken st.rest st.pos = .ok (createToken .RightBracket
          (.vchar ']') (pos0.adv 1), rest, (pos0.adv 1).adv 1) := by
        rw [hr, hp]
        show nextToken (printArrL .nil ++ (']' :: rest)) (pos0.adv 1) = _
        exact nextToken_rbracket rest (pos0.adv 1)
      rw [consumeP_eq .LeftBracket _ st (by rw [hc]; rfl) _ _ _ hnt1]
      simp only [exc_bind_ok, createToken, if_true]
      obtain ⟨t2, r2, p2, hnt2⟩ := nextToken_sep rest ((pos0.adv 1).adv 1) hsep
      refine ⟨⟨t2, r2, p2⟩, ?_, (pos0.adv 1).adv 1, hnt2⟩
      rw [advanceP_eq _ t2 r2 p2 hnt2]
      rfl
    | cons h t =>
      have hsepT := sepHd_arrSep t rest
      obtain ⟨tv, rv, pv, hntv, hne1, hne2, hne3⟩ := value_first_tok h
        (printArrSepL t ++ (']' :: rest)) (pos0.adv 1)
        (by simp only [goodJ, goodA, Bool.and_eq_true] at hg ⊢; exact hg.1) hsepT
      have hnt1 : nextToken st.rest st.pos = .ok (tv, rv, pv) := by
        rw [hr, hp]
        rw [show (printArrL (.cons h t) ++ (']' :: rest))
          = printJsonL h ++ (printArrSepL t ++ (']' :: rest)) from by
            simp [printArrL, List.append_assoc]]
        exact hntv
      rw [consumeP_eq .LeftBracket _ st (by rw [hc]; rfl) _ _ _ hnt1]
      simp only [exc_bind_ok]
      rw [if_neg (show ¬((⟨tv, rv, pv⟩ : PState).cur.type = .RightBracket) from hne1)]
      have hgA : goodA (.cons h t) = true := by
        simp only [goodJ] at hg
        exact hg
      obtain ⟨st', hrun, hprime'⟩ := parseElems_rt f'' (.cons h t) [] rest
        ⟨tv, rv, pv⟩ hgA (by intro hx; cases hx) hsep hfA
        ⟨pos0.adv 1, by
          rw [show (printArrL (.cons h t) ++ (']' :: rest))
            = printJsonL h ++ (printArrSepL t ++ (']' :: rest)) from by
              simp [printArrL, List.append_assoc]]
          exact hntv⟩
      refine ⟨st', ?_, hprime'⟩
      rw [hrun]
      have hofl : JArr.ofList (List.reverse [] ++ (JArr.cons h t).toList)
          = JArr.cons h t := by
        rw [List.reverse_nil, List.nil_append]
        exact ofList_toList (JArr.cons h t)
      rw [hofl]
  | obj fl =>
    have hpr0' : nextToken ('{' :: (printFieldsL fl ++ ('}' :: rest))) pos0
        = .ok (st.cur, st.rest, st.pos) := by
      rw [show ('{' :: (printFieldsL fl ++ ('}' :: rest)))
        = printJsonL (.obj fl) ++ rest from by simp [printJsonL]]
      exact hpr0
    obtain ⟨hc, hr, hp⟩ := prime_dest (nextToken_lbrace _ pos0) hpr0'
    obtain ⟨f'', rfl⟩ : ∃ f'', f' = f'' + 1 := by
      refine ⟨f' - 1, ?_⟩
      simp only [pw] at hf
      omega
    have hfF : pwF fl ≤ f'' := by
      simp only [pw] at hf
      omega
    simp only [parseValueF, hc, createToken, parseObjectF]
    cases fl with
    | nil =>
      have hnt1 : nextToken st.rest st.pos = .ok (createToken .RightBrace
          (.vchar '}') (pos0.adv 1), rest, (pos0.adv 1).adv 1) := by
        rw [hr, hp]
        show nextToken (printFieldsL .nil ++ ('}' :: rest)) (pos0.adv 1) = _
        exact nextToken_rbrace rest (pos0.adv 1)
      rw [consumeP_eq .LeftBrace _ st (by rw [hc]; rfl) _ _ _ hnt1]
      simp only [exc_bind_ok, createToken, if_true]
      obtain ⟨t2, r2, p2, hnt2⟩ := nextToken_sep rest ((pos0.adv 1).adv 1) hsep
      refine ⟨⟨t2, r2, p2⟩, ?_, (pos0.adv 1).adv 1, hnt2⟩
      rw [advanceP_eq _ t2 r2 p2 hnt2]
      rfl
    | cons k v t =>
      obtain ⟨pk, hklem⟩ := nextToken_str k
        (':' :: (printJsonL v ++ (printFieldsSepL t ++ ('}' :: rest)))) (pos0.adv 1)
      have hnt1 : nextToken st.rest st.pos = .ok (createToken .String (.vstr k)
          (pos0.adv 1), ':' :: (printJsonL v ++ (printFieldsSepL t ++ ('}' :: rest))),
          pk) := by
        rw [hr, hp]
        rw [show (printFieldsL (.cons k v t) ++ ('}' :: rest))
          = quoteStrL k ++ (':' :: (printJsonL v ++ (printFieldsSepL t ++ ('}' :: rest))))
          from by simp [printFieldsL, List.append_assoc]]
        exact hklem
      rw [consumeP_eq .LeftBrace _ st (by rw [hc]; rfl) _ _ _ hnt1]
      simp only [exc_bind_ok, createToken]
      rw [if_neg (show ¬(TokenType.String = TokenType.RightBrace) from by decide)]
      have hgF : goodF (.cons k v t) = true := by
        simp only [goodJ] at hg
        exact hg
      obtain ⟨st', hrun, hprime'⟩ := parseMembers_rt f'' (.cons k v t) .nil rest
        ⟨createToken .String (.vstr k) (pos0.adv 1),
          ':' :: (printJsonL v ++ (printFieldsSepL t ++ ('}' :: rest))), pk⟩
        hgF (by intro hx; cases hx) hsep hfF
        (by intro k2 _; rfl)
        ⟨pos0.adv 1, by
          rw [show (printFieldsL (.cons k v t) ++ ('}' :: rest))
            = quoteStrL k ++ (':' :: (printJsonL v
              ++ (printFieldsSepL t ++ ('}' :: rest)))) from by
            simp [printFieldsL, List.append_assoc]]
          exact hklem⟩
      refine ⟨st', ?_, hprime'⟩
      simp only [createToken] at hrun
      rw [hrun]
      rfl
termination_by sizeOf j

/-- **Parser round trip, object members**. -/
theorem parseMembers_rt (f : Nat) (fl : JFields) (acc : JFields) (rest : List Char)
    (st : PState)
    (hg : goodF fl = true) (hne : fl ≠ .nil) (hsep : sepHd rest) (hf : pwF fl ≤ f)
    (hdisj : ∀ k, fl.hasKey k = true → acc.hasKey k = false)
    (hpr : ∃ pos0, nextToken (printFieldsL fl ++ ('}' :: rest)) pos0
      = .ok (st.cur, st.rest, st.pos)) :
    ∃ st', parseObjMembersF f acc st = .ok (.obj (acc.append fl), st') ∧
      ∃ pos1, nextToken rest pos1 = .ok (st'.cur, st'.rest, st'.pos) := by
  obtain ⟨pos0, hpr0⟩ := hpr
  cases fl with
  | nil => exact absurd rfl hne
  | cons k v t =>
    simp only [goodF, Bool.and_eq_true, Bool.not_eq_true'] at hg
    obtain ⟨⟨hgv, hkt⟩, hgt⟩ := hg
    obtain ⟨f', rfl⟩ : ∃ f', f = f' + 1 := by
      refine ⟨f - 1, ?_⟩
      simp only [pwF] at hf
      omega
    have hfv : pw v ≤ f' := by
      simp only [pwF] at hf
      omega
    have hft : pwF t ≤ f' := by
      simp only [pwF] at hf
      omega
    obtain ⟨pk, hklem⟩ := nextToken_str k
      (':' :: (printJsonL v ++ (printFieldsSepL t ++ ('}' :: rest)))) pos0
    have hpr0' : nextToken (quoteStrL k ++ (':' :: (printJsonL v
        ++ (printFieldsSepL t ++ ('}' :: rest))))) pos0
        = .ok (st.cur, st.rest, st.pos) := by
      rw [show (quoteStrL k ++ (':' :: (printJsonL v
        ++ (printFieldsSepL t ++ ('}' :: rest)))))
        = printFieldsL (.cons k v t) ++ ('}' :: rest) from by
        simp [printFieldsL, List.append_assoc]]
      exact hpr0
    obtain ⟨hc, hr, hp⟩ := prime_dest hklem hpr0'
    simp only [parseObjMembersF]
    rw [if_pos (show st.cur.type = .String from by rw [hc]; rfl)]
    rw [show st.cur.value.asString = k from by rw [hc]; rfl]
    rw [advanceP_eq st (createToken .Colon (.vchar ':') pk)
      (printJsonL v ++ (printFieldsSepL t ++ ('}' :: rest))) (pk.adv 1)
      (by rw [hr, hp]; exact nextToken_colon _ pk)]
    simp only [exc_bind_ok]
    have hsepY := sepHd_fieldsSep t rest
    obtain ⟨tv, rv, pv, hntv, hv1, hv2, hv3⟩ := value_first_tok v
      (printFieldsSepL t ++ ('}' :: rest)) (pk.adv 1) hgv hsepY
    rw [consumeP_eq .Colon _ ⟨createToken .Colon (.vchar ':') pk,
      printJsonL v ++ (printFieldsSepL t ++ ('}' :: rest)), pk.adv 1⟩
      (by rfl) tv rv pv hntv]
    simp only [exc_bind_ok]
    obtain ⟨st4, hparse, pos4, hnt4⟩ := parseValue_rt f' v
      (printFieldsSepL t ++ ('}' :: rest)) ⟨tv, rv, pv⟩ hgv hsepY hfv
      ⟨pk.adv 1, hntv⟩
    rw [hparse]
    simp only [exc_bind_ok]
    have hsetk : acc.setKey k v = acc.append (.cons k v .nil) :=
      setKey_absent acc k v (hdisj k (by
        simp [JFields.hasKey, JFields.lookup]))
    cases t with
    | nil =>
      obtain ⟨hc4, hr4, hp4⟩ := prime_dest (nextToken_rbrace rest pos4)
        (by simpa using hnt4)
      obtain ⟨t5, r5, p5, hnt5⟩ := nextToken_sep rest (pos4.adv 1) hsep
      refine ⟨⟨t5, r5, p5⟩, ?_, pos4.adv 1, hnt5⟩
      rw [if_neg (show ¬(st4.cur.type = .Comma) from by
        rw [hc4]; show ¬(TokenType.RightBrace = .Comma); decide)]
      rw [consumeP_eq .RightBrace _ st4 (by rw [hc4]; rfl) t5 r5 p5
        (by rw [hr4, hp4]; exact hnt5)]
      simp only [exc_bind_ok]
      rw [hsetk]
      rfl
    | cons k2 v2 t2 =>
      have hY : printFieldsSepL (.cons k2 v2 t2) ++ ('}' :: rest)
          = ',' :: (printFieldsL (.cons k2 v2 t2) ++ ('}' :: rest)) := by
        simp [printFieldsSepL, printFieldsL, List.append_assoc]
      obtain ⟨hc4, hr4, hp4⟩ := prime_dest (nextToken_comma _ pos4)
        (by rw [← hY]; exact hnt4)
      obtain ⟨pk2, hk2lem⟩ := nextToken_str k2
        (':' :: (printJsonL v2 ++ (printFieldsSepL t2 ++ ('}' :: rest)))) (pos4.adv 1)
      have hnt5 : nextToken st4.rest st4.pos
          = .ok (createToken .String (.vstr k2) (pos4.adv 1),
            ':' :: (printJsonL v2 ++ (printFieldsSepL t2 ++ ('}' :: rest))), pk2) := by
        rw [hr4, hp4]
        rw [show (printFieldsL (.cons k2 v2 t2) ++ ('}' :: rest))
          = quoteStrL k2 ++ (':' :: (printJsonL v2
            ++ (printFieldsSepL t2 ++ ('}' :: rest)))) from by
          simp [printFieldsL, List.append_assoc]]
        exact hk2lem
      rw [if_pos (show st4.cur.type = .Comma from by rw [hc4]; rfl)]
      rw [advanceP_eq st4 _ _ _ hnt5]
      simp only [exc_bind_ok, createToken]
      rw [if_neg (show ¬(TokenType.String = TokenType.RightBrace) from by decide)]
      have hdisj2 : ∀ k3, (JFields.cons k2 v2 t2).hasKey k3 = true →
          (acc.append (.cons k v .nil)).hasKey k3 = false := by
        intro k3 hk3
        rw [hasKey_append]
        have hacc : acc.hasKey k3 = false := by
          apply hdisj
          simp only [JFields.hasKey, JFields.lookup] at hk3 ⊢
          by_cases hkk : k = k3
          · simp [hkk]
          · simp only [hkk, if_false]
            exact hk3
        rw [hacc]
        simp only [JFields.hasKey, JFields.lookup]
        by_cases hkk : k = k3
        · subst hkk
          rw [hk3] at hkt
          cases hkt
        · simp [hkk]
      obtain ⟨st', hrun, hprime'⟩ := parseMembers_rt f' (.cons k2 v2 t2)
        (acc.append (.cons k v .nil)) rest
        ⟨createToken .String (.vstr k2) (pos4.adv 1),
          ':' :: (printJsonL v2 ++ (printFieldsSepL t2 ++ ('}' :: rest))), pk2⟩
        hgt (by intro hx; cases hx) hsep hft hdisj2
        ⟨pos4.adv 1, by
          rw [show (printFieldsL (.cons k2 v2 t2) ++ ('}' :: rest))
            = quoteStrL k2 ++ (':' :: (printJsonL v2
              ++ (printFieldsSepL t2 ++ ('}' :: rest)))) from by
            simp [printFieldsL, List.append_assoc]]
          exact hk2lem⟩
      refine ⟨st', ?_, hprime'⟩
      simp only [createToken] at hrun
      rw [hsetk, hrun]
      rw [append_assocF]
      rfl
termination_by sizeOf fl

/-- **Parser round trip, array elements**. -/
theorem parseElems_rt (f : Nat) (l : JArr) (acc : List Json) (rest : List Char)
    (st : PState)
    (hg : goodA l = true) (hne : l ≠ .nil) (hsep : sepHd rest) (hf : pwA l ≤ f)
    (hpr : ∃ pos0, nextToken (printArrL l ++ (']' :: rest)) pos0
      = .ok (st.cur, st.rest, st.pos)) :
    ∃ st', parseArrElemsF f acc st
        = .ok (.arr (JArr.ofList (acc.reverse ++ l.toList)), st') ∧
      ∃ pos1, nextToken rest pos1 = .ok (st'.cur, st'.rest, st'.pos) := by
  obtain ⟨pos0, hpr0⟩ := hpr
  cases l with
  | nil => exact absurd rfl hne
  | cons h t =>
    simp only [goodA, Bool.and_eq_true] at hg
    obtain ⟨hgh, hgt⟩ := hg
    obtain ⟨f', rfl⟩ : ∃ f', f = f' + 1 := by
      refine ⟨f - 1, ?_⟩
      simp only [pwA] at hf
      omega
    have hfh : pw h ≤ f' := by
      simp only [pwA] at hf
      omega
    have hft : pwA t ≤ f' := by
      simp only [pwA] at hf
      omega
    have hsepY := sepHd_arrSep t rest
    have hpr0' : nextToken (printJsonL h ++ (printArrSepL t ++ (']' :: rest))) pos0
        = .ok (st.cur, st.rest, st.pos) := by
      rw [show (printJsonL h ++ (printArrSepL t ++ (']' :: rest)))
        = printArrL (.cons h t) ++ (']' :: rest) from by
        simp [printArrL, List.append_assoc]]
      exact hpr0
    simp only [parseArrElemsF]
    obtain ⟨st4, hparse, pos4, hnt4⟩ := parseValue_rt f' h
      (printArrSepL t ++ (']' :: rest)) st hgh hsepY hfh ⟨pos0, hpr0'⟩
    rw [hparse]
    simp only [exc_bind_ok]
    cases t with
    | nil =>
      obtain ⟨hc4, hr4, hp4⟩ := prime_dest (nextToken_rbracket rest pos4)
        (by simpa using hnt4)
      obtain ⟨t5, r5, p5, hnt5⟩ := nextToken_sep rest (pos4.adv 1) hsep
      refine ⟨⟨t5, r5, p5⟩, ?_, pos4.adv 1, hnt5⟩
      rw [if_neg (show ¬(st4.cur.type = .Comma) from by
        rw [hc4]; show ¬(TokenType.RightBracket = .Comma); decide)]
      rw [consumeP_eq .RightBracket _ st4 (by rw [hc4]; rfl) t5 r5 p5
        (by rw [hr4, hp4]; exact hnt5)]
      simp only [exc_bind_ok]
      have harr : JArr.ofList (h :: acc).reverse
          = JArr.ofList (acc.reverse ++ (JArr.cons h JArr.nil).toList) := by
        simp [JArr.toList]
      show (pure (Json.arr (JArr.ofList (h :: acc).reverse),
          (⟨t5, r5, p5⟩ : PState)) : Except PErr (Json × PState))
        = Except.ok (Json.arr (JArr.ofList (acc.reverse
            ++ (JArr.cons h JArr.nil).toList)), (⟨t5, r5, p5⟩ : PState))
      rw [harr]
      rfl
    | cons h2 t2 =>
      have hY : printArrSepL (.cons h2 t2) ++ (']' :: rest)
          = ',' :: (printArrL (.cons h2 t2) ++ (']' :: rest)) := by
        simp [printArrSepL, printArrL, List.append_assoc]
      obtain ⟨hc4, hr4, hp4⟩ := prime_dest (nextToken_comma _ pos4)
        (by rw [← hY]; exact hnt4)
      have hsepT2 := sepHd_arrSep t2 rest
      obtain ⟨tv, rv, pv, hntv, hw1, hw2, hw3⟩ := value_first_tok h2
        (printArrSepL t2 ++ (']' :: rest)) (pos4.adv 1)
        (by simp only [goodA, Bool.and_eq_true] at hgt ⊢; exact hgt.1) hsepT2
      have hnt5 : nextToken st4.rest st4.pos = .ok (tv, rv, pv) := by
        rw [hr4, hp4]
        rw [show (printArrL (.cons h2 t2) ++ (']' :: rest))
          = printJsonL h2 ++ (printArrSepL t2 ++ (']' :: rest)) from by
          simp [printArrL, List.append_assoc]]
        exact hntv
      rw [if_pos (show st4.cur.type = .Comma from by rw [hc4]; rfl)]
      rw [advanceP_eq st4 _ _ _ hnt5]
      simp only [exc_bind_ok]
      rw [if_neg (show ¬((⟨tv, rv, pv⟩ : PState).cur.type = .RightBracket) from hw1)]
      obtain ⟨st', hrun, hprime'⟩ := parseElems_rt f' (.cons h2 t2) (h :: acc) rest
        ⟨tv, rv, pv⟩ hgt (by intro hx; cases hx) hsep hft
        ⟨pos4.adv 1, by
          rw [show (printArrL (.cons h2 t2) ++ (']' :: rest))
            = printJsonL h2 ++ (printArrSepL t2 ++ (']' :: rest)) from by
            simp [printArrL, List.append_assoc]]
          exact hntv⟩
      refine ⟨st', ?_, hprime'⟩
      rw [hrun]
      have harr : JArr.ofList ((h :: acc).reverse ++ (JArr.cons h2 t2).toList)
          = JArr.ofList (acc.reverse ++ (JArr.cons h (JArr.cons h2 t2)).toList) := by
        simp [JArr.toList]
      rw [harr]
termination_by sizeOf l

end

theorem decChars_len (d : Dec) : 1 ≤ (decChars d).length := by
  by_cases hm : d.m = 0
  · simp [decChars, hm]
  · have hne := natDigits_ne_nil d.m.natAbs
    have hpos : 1 ≤ (natDigits d.m.natAbs).length := List.length_pos.mpr hne
    by_cases he : 0 ≤ d.e
    · simp only [decChars, hm, if_false, he, if_true]
      simp [List.length_append]
      omega
    · by_cases hl : (natDigits d.m.natAbs).length ≤ (-d.e).toNat
      · simp only [decChars, hm, if_false, he, if_false, hl, if_true]
        simp [List.length_append]
        omega
      · simp only [decChars, hm, if_false, he, if_false, hl, if_false]
        simp [List.length_append]
        omega

mutual

theorem pw_le_print : ∀ j : Json, pw j + 1 ≤ 2 * (printJsonL j).length
  | .null => by simp [pw, printJsonL]
  | .bool b => by cases b <;> simp [pw, printJsonL]
  | .num d => by
    have := decChars_len d
    simp only [pw, printJsonL]
    omega
  | .str s => by
    simp only [pw, printJsonL, quoteStrL]
    simp [List.length_append]
  | .arr l => by
    have hA := pwA_le_print l
    simp only [pw, printJsonL]
    simp only [List.length_cons, List.length_append, List.length_singleton]
    omega
  | .obj fl => by
    have hF := pwF_le_print fl
    simp only [pw, printJsonL]
    simp only [List.length_cons, List.length_append, List.length_singleton]
    omega

theorem pwA_le_print : ∀ l : JArr, pwA l ≤ 2 * (printArrL l).length + 1
  | .nil => by simp [pwA, printArrL]
  | .cons h t => by
    have hJ := pw_le_print h
    have hT := pwA_sep_le t
    simp only [pwA, printArrL]
    simp only [List.length_append]
    omega

theorem pwA_sep_le : ∀ l : JArr, pwA l ≤ 2 * (printArrSepL l).length + 1
  | .nil => by simp [pwA, printArrSepL]
  | .cons h t => by
    have hJ := pw_le_print h
    have hT := pwA_sep_le t
    simp only [pwA, printArrSepL]
    simp only [List.length_cons, List.length_append]
    omega

theorem pwF_le_print : ∀ fl : JFields, pwF fl ≤ 2 * (printFieldsL fl).length + 1
  | .nil => by simp [pwF, printFieldsL]
  | .cons k v t => by
    have hJ := pw_le_print v
    have hT := pwF_sep_le t
    simp only [pwF, printFieldsL]
    simp only [List.length_cons, List.length_append]
    omega

theorem pwF_sep_le : ∀ fl : JFields, pwF fl ≤ 2 * (printFieldsSepL fl).length + 1
  | .nil => by simp [pwF, printFieldsSepL]
  | .cons k v t => by
    have hJ := pw_le_print v
    have hT := pwF_sep_le t
    simp only [pwF, printFieldsSepL]
    simp only [List.length_cons, List.length_append]
    omega

end

/-- **Parse–print round trip**: parsing the minified text of a good JSON
value returns exactly that value. -/
theorem parseJson_print (j : Json) (hg : goodJ j = true) :
    parseJson ⟨printJsonL j⟩ = .ok j := by
  have hdata : (String.mk (printJsonL j)).data = printJsonL j := rfl
  obtain ⟨tv, rv, pv, hntv, _, _, _⟩ := value_first_tok j [] ⟨1, 1, 0⟩ hg trivial
  rw [List.append_nil] at hntv
  have hfuel : pw j ≤ parserFuel (printJsonL j) := by
    have := pw_le_print j
    simp only [parserFuel]
    omega
  obtain ⟨st', hparse, pos1, hnt1⟩ := parseValue_rt (parserFuel (printJsonL j)) j []
    ⟨tv, rv, pv⟩ hg trivial hfuel ⟨⟨1, 1, 0⟩, by rw [List.append_nil]; exact hntv⟩
  obtain ⟨hc1, hr1, hp1⟩ := prime_dest (nextToken_eof pos1) hnt1
  show (do
    let (t, r, p) ← nextToken (printJsonL j) ⟨1, 1, 0⟩
    let st : PState := ⟨t, r, p⟩
    let (value, st) ← parseValueF (parserFuel (printJsonL j)) st
    let _ ← consumeP .EOF "Expected end of input" st
    return value) = Except.ok j
  rw [hntv]
  simp only [exc_bind_ok]
  rw [hparse]
  simp only [exc_bind_ok]
  rw [consumeP_eq .EOF _ st' (by rw [hc1]; rfl) _ _ _
    (by rw [hr1, hp1]; exact nextToken_eof pos1)]
  rfl

/-! ## Conversion/revival round trip -/

/-- `isTaggedValue`-shaped runtime field lists: a string `$type` plus an own
`$value` (such plain objects do not survive the round trip). -/
def isTagLike (fl : RFields) : Bool :=
  match fl.lookup "$type" with
  | some (.rstr _) => fl.hasKey "$value"
  | _ => false

/-- `isTaggedValue` on a JSON object's fields. -/
def jTagLike (fl : JFields) : Bool :=
  match fl.lookup "$type" with
  | some (.str _) => fl.hasKey "$value"
  | _ => false

mutual
/-- The runtime values the claim's round trip is about: acyclic trees of
supported primitives, plain containers and handler-backed values, with
canonical in-range numbers, canonical dates, no `toJSON`, no duplicate keys,
no tag-shaped plain objects, and deduplicated set elements / map keys. -/
def SupportedB : RVal → Bool
  | .rnull => true
  | .rbool _ => true
  | .rstr _ => true
  | .rnum n => match n with | .fin d => d.isNorm && !d.overflow | _ => false
  | .rbigint _ => true
  | .rdate iso => isCanonIso iso
  | .rregexp _ _ => true
  | .rurl _ => true
  | .rarr l => suppL l
  | .robj fl tj =>
    (match tj with | .none => true | .some _ => false) && suppF fl && !(isTagLike fl)
  | .rset l => suppL l && decide (dedupPrim l.toList = l.toList)
  | .rmap ps => suppP ps && decide (mkMap ps = ps)
  | .rundef => false
  | .rfun => false
  | .rsym => false
  | .ref _ => false
def suppL : RList → Bool
  | .nil => true
  | .cons x t => SupportedB x && suppL t
def suppF : RFields → Bool
  | .nil => true
  | .cons k v t => SupportedB v && !(t.hasKey k) && suppF t
def suppP : RPairs → Bool
  | .nil => true
  | .cons k v t => SupportedB k && SupportedB v && suppP t
end

mutual
/-- The JSON tree `convertValue` produces on a supported value. -/
def cvJ : RVal → Json
  | .rnull => .null
  | .rbool b => .bool b
  | .rstr s => .str s
  | .rnum n => match n with | .fin d => .num d | _ => .null
  | .rbigint z => tagged "BigInt" (.str (intDecStr z))
  | .rdate iso => tagged "Date" (.str iso)
  | .rregexp src flgs =>
    tagged "RegExp" (.obj (.cons "source" (.str src) (.cons "flags" (.str flgs) .nil)))
  | .rurl href => tagged "URL" (.str href)
  | .rarr l => .arr (cvA l)
  | .robj fl _ => .obj (cvF fl)
  | .rset l => tagged "Set" (.arr (cvA l))
  | .rmap ps => tagged "Map" (.arr (cvP ps))
  | .rundef => .null
  | .rfun => .null
  | .rsym => .null
  | .ref _ => .null
def cvA : RList → JArr
  | .nil => .nil
  | .cons x t => .cons (cvJ x) (cvA t)
def cvF : RFields → JFields
  | .nil => .nil
  | .cons k v t => .cons k (cvJ v) (cvF t)
def cvP : RPairs → JArr
  | .nil => .nil
  | .cons k v t => .cons (.arr (.cons (cvJ k) (.cons (cvJ v) .nil))) (cvP t)
end

mutual
/-- The runtime value `reviveValue` produces on a canonical JSON tree
(junk elsewhere). -/
def jrevVal : Json → RVal
  | .null => .rnull
  | .bool b => .rbool b
  | .num d => .rnum (.fin d)
  | .str s => .rstr s
  | .arr l => .rarr (jrevA l)
  | .obj (.cons k1 (.str name) (.cons k2 p .nil)) =>
    if k1 = "$type" && k2 = "$value" then jrevTagged name p
    else .robj (.cons k1 (.rstr name) (.cons k2 (jrevVal p) .nil)) .none
  | .obj fl => .robj (jrevF fl) .none
def jrevTagged : String → Json → RVal
  | "Date", payload =>
    (match payload with
     | .str s => (match parseDateIso s with | some iso => .rdate iso | none => .rnull)
     | _ => .rnull)
  | "BigInt", payload =>
    (match payload with
     | .str s => (match parseBigIntStr s with | some z => .rbigint z | none => .rnull)
     | _ => .rnull)
  | "RegExp", payload =>
    (match payload with
     | .obj (.cons _ (.str src) (.cons _ (.str flgs) .nil)) => .rregexp src flgs
     | _ => .rnull)
  | "URL", payload => (match payload with | .str s => .rurl s | _ => .rnull)
  | "Set", payload =>
    (match payload with
     | .arr l => .rset (mkSet (jrevA l))
     | _ => .rnull)
  | "Map", payload =>
    (match payload with
     | .arr l => .rmap (mkMap (jrevP l))
     | _ => .rnull)
  | _, _ => .rnull
def jrevA : JArr → RList
  | .nil => .nil
  | .cons h t => .cons (jrevVal h) (jrevA t)
def jrevF : JFields → RFields
  | .nil => .nil
  | .cons k v t => .cons k (jrevVal v) (jrevF t)
def jrevP : JArr → RPairs
  | .nil => .nil
  | .cons (.arr (.cons k (.cons v .nil))) t => .cons (jrevVal k) (jrevVal v) (jrevP t)
  | .cons _ t => jrevP t
end

mutual
/-- Canonical JSON trees: exactly the conversion images of supported values
(tag wrappers of canonical payloads in emission order, canonical numbers, no
duplicate keys, no accidental tag shapes on plain objects). -/
def jcanon : Json → Bool
  | .null => true
  | .bool _ => true
  | .str _ => true
  | .num d => d.isNorm && !d.overflow
  | .arr l => jcanonA l
  | .obj (.cons k1 (.str name) (.cons k2 p .nil)) =>
    if k1 = "$type" && k2 = "$value" then jcanonTag name p
    else (jcanon p && !((JFields.cons k2 p .nil).hasKey k1))
      && !(jTagLike (.cons k1 (.str name) (.cons k2 p .nil)))
  | .obj fl => jcanonF fl && !(jTagLike fl)
def jcanonTag : String → Json → Bool
  | "Date", p => (match p with | .str s => isCanonIso s | _ => false)
  | "BigInt", p =>
    (match p with
     | .str s => (match parseBigIntStr s with | some z => intDecStr z = s | none => false)
     | _ => false)
  | "RegExp", p =>
    (match p with
     | .obj (.cons k1 (.str _) (.cons k2 (.str _) .nil)) =>
       k1 = "source" && k2 = "flags"
     | _ => false)
  | "URL", p => (match p with | .str _ => true | _ => false)
  | "Set", p =>
    (match p with
     | .arr l => jcanonA l && decide (dedupPrim (jrevA l).toList = (jrevA l).toList)
     | _ => false)
  | "Map", p =>
    (match p with
     | .arr l => jcanonEntries l && decide (mkMap (jrevP l) = jrevP l)
     | _ => false)
  | _, _ => false
def jcanonA : JArr → Bool
  | .nil => true
  | .cons h t => jcanon h && jcanonA t
def jcanonEntries : JArr → Bool
  | .nil => true
  | .cons (.arr (.cons k (.cons v .nil))) t => jcanon k && jcanon v && jcanonEntries t
  | .cons _ _ => false
def jcanonF : JFields → Bool
  | .nil => true
  | .cons k v t => jcanon v && !(t.hasKey k) && jcanonF t
end

theorem rofList_toList : ∀ l : RList, RList.ofList l.toList = l
  | .nil => rfl
  | .cons h t => by simp only [RList.toList, RList.ofList, rofList_toList t]

theorem pofList_toList : ∀ ps : RPairs, RPairs.ofList ps.toList = ps
  | .nil => rfl
  | .cons k v t => by simp only [RPairs.toList, RPairs.ofList, pofList_toList t]

theorem parseDateIso_canon (s : String) (h : isCanonIso s = true) :
    parseDateIso s = some s := by
  simp [parseDateIso, h]

theorem parse_intDecStr (z : Int) : parseBigIntStr (intDecStr z) = some z := by
  have hds := natDigits_digits z.natAbs
  have hne := natDigits_ne_nil z.natAbs
  have hval := natDigits_val z.natAbs
  have hall : (natDigits z.natAbs).all isDigitC = true := by
    rw [List.all_eq_true]
    exact hds
  by_cases hz : z < 0
  · have hd : (intDecStr z).data = '-' :: natDigits z.natAbs := by
      simp [intDecStr, hz]
    rw [parseBigIntStr, hd]
    show (if (decide (natDigits z.natAbs ≠ []) && (natDigits z.natAbs).all isDigitC)
        = true then some (-(digitsToNat (natDigits z.natAbs) : Int)) else none)
      = some z
    rw [if_pos (by simp [hne, hall])]
    rw [hval, Int.ofNat_natAbs_of_nonpos (le_of_lt hz)]
    simp
  · obtain ⟨d0, ds, hcons⟩ : ∃ d0 ds, natDigits z.natAbs = d0 :: ds := by
      cases hx : natDigits z.natAbs with
      | nil => exact absurd hx hne
      | cons a b => exact ⟨a, b, rfl⟩
    have hd0 : isDigitC d0 = true := hds d0 (by rw [hcons]; simp)
    have hd : (intDecStr z).data = d0 :: ds := by
      simp [intDecStr, hz, hcons]
    rw [parseBigIntStr.eq_def, hd]
    have hm : d0 ≠ '-' := isDigitC_ne d0 '-' hd0 (by decide)
    have hp : d0 ≠ '+' := isDigitC_ne d0 '+' hd0 (by decide)
    split
    · rename_i heq
      injection heq with h1 _
      exact absurd h1 hm
    · rename_i heq
      injection heq with h1 _
      exact absurd h1 hp
    · rename_i heq
      have hall2 : (d0 :: ds).all isDigitC = true := by
        rw [← hcons]
        exact hall
      rw [if_pos (by simp [hall2])]
      rw [← hcons, hval]
      rw [Int.natAbs_of_nonneg (le_of_not_lt hz)]

theorem lookup_cvF : ∀ (fl : RFields) (k : String),
    (cvF fl).lookup k = (fl.lookup k).map cvJ
  | .nil, k => rfl
  | .cons k' v t, k => by
    by_cases h : k' = k
    · simp [cvF, JFields.lookup, RFields.lookup, h]
    · simp only [cvF, JFields.lookup, RFields.lookup, h, if_false]
      exact lookup_cvF t k

theorem cvJ_str_iff (x : RVal) (s : String) : cvJ x = .str s ↔ x = .rstr s := by
  constructor
  · intro h
    cases x with
    | rstr s2 =>
      injection h with h1
      exact congrArg RVal.rstr h1
    | rnum n => cases n <;> simp only [cvJ] at h <;> exact nomatch h
    | rnull => exact nomatch h
    | rundef => exact nomatch h
    | rfun => exact nomatch h
    | rsym => exact nomatch h
    | rbool b => exact nomatch h
    | rbigint z => exact nomatch h
    | rdate iso => exact nomatch h
    | rregexp a b => exact nomatch h
    | rurl u => exact nomatch h
    | rarr l => exact nomatch h
    | robj fl tj => exact nomatch h
    | rset l => exact nomatch h
    | rmap ps => exact nomatch h
    | ref i => exact nomatch h
  · intro h
    rw [h]
    rfl

theorem jTagLike_cvF (fl : RFields) : jTagLike (cvF fl) = isTagLike fl := by
  have hhk : (cvF fl).hasKey "$value" = fl.hasKey "$value" := by
    rw [JFields.hasKey, RFields.hasKey, lookup_cvF]
    cases fl.lookup "$value" <;> rfl
  rw [jTagLike, isTagLike, lookup_cvF]
  cases hlk : fl.lookup "$type" with
  | none => rfl
  | some x =>
    show (match Option.map cvJ (some x) with
      | some (Json.str _) => JFields.hasKey "$value" (cvF fl)
      | _ => false)
      = (match some x with
        | some (RVal.rstr _) => RFields.hasKey "$value" fl
        | _ => false)
    rw [show Option.map cvJ (some x) = some (cvJ x) from rfl]
    cases x with
    | rstr s => exact hhk
    | rnum n => cases n <;> rfl
    | rnull => rfl
    | rundef => rfl
    | rfun => rfl
    | rsym => rfl
    | rbool b => rfl
    | rbigint z => rfl
    | rdate iso => rfl
    | rregexp a b => rfl
    | rurl u => rfl
    | rarr l => rfl
    | robj fl2 tj => rfl
    | rset l => rfl
    | rmap ps => rfl
    | ref i => rfl

/-! ## Round trips of supported values (claims C1 and C6) -/

theorem rsize_ge2 : ∀ v : RVal, 2 ≤ rsize v := by
  intro v; cases v <;> simp [rsize]

theorem rsizeL_ge1 : ∀ l : RList, 1 ≤ rsizeL l := by
  intro l; cases l <;> simp [rsizeL]

theorem rsizeF_ge1 : ∀ fl : RFields, 1 ≤ rsizeF fl := by
  intro fl; cases fl <;> simp [rsizeF]

theorem rsizeP_ge1 : ∀ ps : RPairs, 1 ≤ rsizeP ps := by
  intro ps; cases ps <;> simp [rsizeP]

theorem jsizeJ_ge2 : ∀ j : Json, 2 ≤ jsizeJ j := by
  intro j; cases j <;> simp [jsizeJ]

theorem jsizeA_ge1 : ∀ l : JArr, 1 ≤ jsizeA l := by
  intro l; cases l <;> simp [jsizeA]

theorem jsizeF_ge1 : ∀ fl : JFields, 1 ≤ jsizeF fl := by
  intro fl; cases fl <;> simp [jsizeF]

mutual

/-- **Conversion of supported values** (empty heap): always succeeds with the
`cvJ` image, for any received guard set, context flag and strictness. -/
theorem conv_supp (f : Nat) (v : RVal) (strict : Bool) (seen : List Nat)
    (inCtx : Bool) (hs : SupportedB v = true) (hf : rsize v ≤ f) :
    convertValue f [] strict v seen inCtx = some (.ok (some (cvJ v))) := by
    obtain ⟨f2, rfl⟩ : ∃ f2, f = f2 + 2 := ⟨f - 2, by have := rsize_ge2 v; omega⟩
    cases v with
    | rnull => rfl
    | rbool b => rfl
    | rstr s => rfl
    | rundef => exact nomatch hs
    | rfun => exact nomatch hs
    | rsym => exact nomatch hs
    | ref i => exact nomatch hs
    | rnum n =>
      cases n with
      | fin d => rfl
      | posInf => exact nomatch hs
      | negInf => exact nomatch hs
      | nan => exact nomatch hs
    | rbigint z => rfl
    | rdate iso => rfl
    | rregexp src flgs => rfl
    | rurl href => rfl
    | rarr l =>
      have hsl : suppL l = true := by simpa [SupportedB] using hs
      have hfl : rsizeL l ≤ f2 := by simp only [rsize] at hf; omega
      simp only [cvJ, convertValue, convertNode]
      rw [if_neg (show ¬ (inSeen none seen = true) by simp [inSeen])]
      rw [conv_arr f2 l strict (pushId none seen) inCtx hsl hfl]
    | robj fl tj =>
      cases tj with
      | some r => exact nomatch hs
      | none =>
        have hs2 : suppF fl = true := by
          simp only [SupportedB, Bool.true_and, Bool.and_eq_true] at hs
          exact hs.1
        have hfl : rsizeF fl ≤ f2 := by simp only [rsize, rsizeO] at hf; omega
        simp only [cvJ, convertValue, convertNode]
        rw [if_neg (show ¬ (inSeen none seen = true) by simp [inSeen])]
        rw [conv_fields f2 fl strict (pushId none seen) inCtx hs2 hfl]
    | rset l =>
      have hs2 : suppL l = true := by
        simp only [SupportedB, Bool.and_eq_true] at hs
        exact hs.1
      have hfl : rsizeL l ≤ f2 := by simp only [rsize] at hf; omega
      simp only [cvJ, convertValue, convertNode]
      rw [if_neg (show ¬ (inSeen none seen = true) by simp [inSeen])]
      rw [conv_ctxL f2 l strict (ctxSeen none seen inCtx) hs2 hfl]
    | rmap ps =>
      have hs2 : suppP ps = true := by
        simp only [SupportedB, Bool.and_eq_true] at hs
        exact hs.1
      have hfl : rsizeP ps ≤ f2 := by simp only [rsize] at hf; omega
      simp only [cvJ, convertValue, convertNode]
      rw [if_neg (show ¬ (inSeen none seen = true) by simp [inSeen])]
      rw [conv_ctxP f2 ps strict (ctxSeen none seen inCtx) hs2 hfl]
termination_by f

/-- Element-wise conversion of a supported array. -/
theorem conv_arr (f : Nat) (l : RList) (strict : Bool) (seen : List Nat)
    (inCtx : Bool) (hs : suppL l = true) (hf : rsizeL l ≤ f) :
    convArr f [] strict l seen inCtx = some (.ok (cvA l)) := by
    obtain ⟨f2, rfl⟩ : ∃ f2, f = f2 + 1 := ⟨f - 1, by have := rsizeL_ge1 l; omega⟩
    cases l with
    | nil => rfl
    | cons x t =>
      have hx : SupportedB x = true := by
        simp only [suppL, Bool.and_eq_true] at hs; exact hs.1
      have ht : suppL t = true := by
        simp only [suppL, Bool.and_eq_true] at hs; exact hs.2
      have hfx : rsize x ≤ f2 := by simp only [rsizeL] at hf; omega
      have hft : rsizeL t ≤ f2 := by
        have := rsize_ge2 x; simp only [rsizeL] at hf; omega
      simp only [cvA, convArr]
      rw [conv_supp f2 x strict seen inCtx hx hfx]
      rw [conv_arr f2 t strict seen inCtx ht hft]
      rfl
termination_by f

/-- Field-wise conversion of a supported plain object. -/
theorem conv_fields (f : Nat) (fl : RFields) (strict : Bool) (seen : List Nat)
    (inCtx : Bool) (hs : suppF fl = true) (hf : rsizeF fl ≤ f) :
    convFields f [] strict fl seen inCtx = some (.ok (cvF fl)) := by
    obtain ⟨f2, rfl⟩ : ∃ f2, f = f2 + 1 := ⟨f - 1, by have := rsizeF_ge1 fl; omega⟩
    cases fl with
    | nil => rfl
    | cons k x t =>
      have hx : SupportedB x = true := by
        simp only [suppF, Bool.and_eq_true] at hs; exact hs.1.1
      have ht : suppF t = true := by
        simp only [suppF, Bool.and_eq_true] at hs; exact hs.2
      have hfx : rsize x ≤ f2 := by simp only [rsizeF] at hf; omega
      have hft : rsizeF t ≤ f2 := by
        have := rsize_ge2 x; simp only [rsizeF] at hf; omega
      simp only [cvF, convFields]
      rw [conv_supp f2 x strict seen inCtx hx hfx]
      rw [conv_fields f2 t strict seen inCtx ht hft]
termination_by f

/-- `ctx.serialize` over supported set elements. -/
theorem conv_ctxL (f : Nat) (l : RList) (strict : Bool) (seenCtx : List Nat)
    (hs : suppL l = true) (hf : rsizeL l ≤ f) :
    convCtxList f [] strict l seenCtx = some (.ok (cvA l)) := by
    obtain ⟨f2, rfl⟩ : ∃ f2, f = f2 + 1 := ⟨f - 1, by have := rsizeL_ge1 l; omega⟩
    cases l with
    | nil => rfl
    | cons x t =>
      have hx : SupportedB x = true := by
        simp only [suppL, Bool.and_eq_true] at hs; exact hs.1
      have ht : suppL t = true := by
        simp only [suppL, Bool.and_eq_true] at hs; exact hs.2
      have hfx : rsize x ≤ f2 := by simp only [rsizeL] at hf; omega
      have hft : rsizeL t ≤ f2 := by
        have := rsize_ge2 x; simp only [rsizeL] at hf; omega
      simp only [cvA, convCtxList]
      rw [conv_supp f2 x strict seenCtx true hx hfx]
      rw [conv_ctxL f2 t strict seenCtx ht hft]
termination_by f

/-- `ctx.serialize` over supported map entries. -/
theorem conv_ctxP (f : Nat) (ps : RPairs) (strict : Bool) (seenCtx : List Nat)
    (hs : suppP ps = true) (hf : rsizeP ps ≤ f) :
    convCtxPairs f [] strict ps seenCtx = some (.ok (cvP ps)) := by
    obtain ⟨f2, rfl⟩ : ∃ f2, f = f2 + 1 := ⟨f - 1, by have := rsizeP_ge1 ps; omega⟩
    cases ps with
    | nil => rfl
    | cons k v t =>
      have hk : SupportedB k = true := by
        simp only [suppP, Bool.and_eq_true] at hs; exact hs.1.1
      have hv : SupportedB v = true := by
        simp only [suppP, Bool.and_eq_true] at hs; exact hs.1.2
      have ht : suppP t = true := by
        simp only [suppP, Bool.and_eq_true] at hs; exact hs.2
      have hkv : suppL (.cons k (.cons v .nil)) = true := by
        simp [suppL, hk, hv]
      have hfkv : rsizeL (.cons k (.cons v .nil)) ≤ f2 := by
        have := rsizeP_ge1 t; simp only [rsizeP] at hf; simp only [rsizeL]; omega
      have hft : rsizeP t ≤ f2 := by
        have h1 := rsize_ge2 k; have h2 := rsize_ge2 v
        simp only [rsizeP] at hf; omega
      simp only [cvP, convCtxPairs]
      rw [conv_ctxL f2 (.cons k (.cons v .nil)) strict seenCtx hkv hfkv]
      rw [conv_ctxP f2 t strict seenCtx ht hft]
      rfl
termination_by f

end

/-- `hasKey` is preserved by the conversion of object fields. -/
theorem hasKey_cvF (fl : RFields) (k : String) :
    (cvF fl).hasKey k = fl.hasKey k := by
  rw [JFields.hasKey, RFields.hasKey, lookup_cvF]
  cases fl.lookup k <;> rfl

/-- A tag wrapper with a good payload is a good JSON tree. -/
theorem goodJ_tagged (name : String) (p : Json) (hp : goodJ p = true) :
    goodJ (tagged name p) = true := by
  simp [tagged, goodJ, goodF, JFields.hasKey, JFields.lookup, hp]

mutual

/-- The conversion image of a supported value is parse-printable. -/
theorem goodJ_cv : ∀ v : RVal, SupportedB v = true → goodJ (cvJ v) = true
  | .rnull, _ => rfl
  | .rbool _, _ => rfl
  | .rstr _, _ => rfl
  | .rnum (.fin _), hs => hs
  | .rnum .posInf, hs => nomatch hs
  | .rnum .negInf, hs => nomatch hs
  | .rnum .nan, hs => nomatch hs
  | .rundef, hs => nomatch hs
  | .rfun, hs => nomatch hs
  | .rsym, hs => nomatch hs
  | .ref _, hs => nomatch hs
  | .rbigint z, _ => goodJ_tagged _ _ rfl
  | .rdate iso, _ => goodJ_tagged _ _ rfl
  | .rregexp src flgs, _ => goodJ_tagged _ _ rfl
  | .rurl href, _ => goodJ_tagged _ _ rfl
  | .rarr l, hs => goodA_cv l (by simpa [SupportedB] using hs)
  | .robj fl .none, hs => goodF_cv fl (by
      simp only [SupportedB, Bool.true_and, Bool.and_eq_true] at hs
      exact hs.1)
  | .robj _ (.some _), hs => nomatch hs
  | .rset l, hs => goodJ_tagged _ _ (goodA_cv l (by
      simp only [SupportedB, Bool.and_eq_true] at hs
      exact hs.1))
  | .rmap ps, hs => goodJ_tagged _ _ (goodP_cv ps (by
      simp only [SupportedB, Bool.and_eq_true] at hs
      exact hs.1))
termination_by v => sizeOf v

/-- Elements of a supported array convert to good trees. -/
theorem goodA_cv : ∀ l : RList, suppL l = true → goodA (cvA l) = true
  | .nil, _ => rfl
  | .cons x t, hs => by
    simp only [suppL, Bool.and_eq_true] at hs
    simp only [cvA, goodA, Bool.and_eq_true]
    exact ⟨goodJ_cv x hs.1, goodA_cv t hs.2⟩
termination_by l => sizeOf l

/-- Fields of a supported plain object convert to good members. -/
theorem goodF_cv : ∀ fl : RFields, suppF fl = true → goodF (cvF fl) = true
  | .nil, _ => rfl
  | .cons k v t, hs => by
    simp only [suppF, Bool.and_eq_true, Bool.not_eq_true'] at hs
    simp only [cvF, goodF, Bool.and_eq_true, Bool.not_eq_true']
    exact ⟨⟨goodJ_cv v hs.1.1, by rw [hasKey_cvF]; exact hs.1.2⟩, goodF_cv t hs.2⟩
termination_by fl => sizeOf fl

/-- Entries of a supported map convert to good two-element arrays. -/
theorem goodP_cv : ∀ ps : RPairs, suppP ps = true → goodA (cvP ps) = true
  | .nil, _ => rfl
  | .cons k v t, hs => by
    simp only [suppP, Bool.and_eq_true] at hs
    simp only [cvP, goodA, goodJ, Bool.and_eq_true, Bool.and_true]
    exact ⟨⟨goodJ_cv k hs.1.1, goodJ_cv v hs.1.2⟩, goodP_cv t hs.2⟩
termination_by ps => sizeOf ps

end

/-! ### Revival of conversion images -/

/-- Continuation of `reviveValue` on a plain (untagged) object. -/
def revObjK : Option (Except RErr RFields) → Option (Except RErr RVal)
  | none => none
  | some (.error e) => some (.error e)
  | some (.ok out) => some (.ok (.robj out .none))

/-- Continuation of `reviveValue` on an array. -/
def revArrK : Option (Except RErr RList) → Option (Except RErr RVal)
  | none => none
  | some (.error e) => some (.error e)
  | some (.ok rl) => some (.ok (.rarr rl))

/-- The BigInt deserializer after `BigInt(s)`. -/
def revTagBig (r : Option Int) (s : String) : Option (Except RErr RVal) :=
  match r with
  | some z => some (.ok (.rbigint z))
  | none => some (.error ⟨"Cannot convert " ++ s ++ " to a BigInt"⟩)

/-- The Date deserializer after `new Date(s)`. -/
def revTagDate (r : Option String) (s : String) : Option (Except RErr RVal) :=
  match r with
  | some iso => some (.ok (.rdate iso))
  | none => some (.error ⟨"Date: invalid date string \"" ++ s ++ "\""⟩)

/-- Continuation of the Set deserializer. -/
def revTagSetK : Option (Except RErr RList) → Option (Except RErr RVal)
  | none => none
  | some (.error e) => some (.error e)
  | some (.ok rl) => some (.ok (.rset (mkSet rl)))

/-- Continuation of the Map deserializer. -/
def revTagMapK : Option (Except RErr RPairs) → Option (Except RErr RVal)
  | none => none
  | some (.error e) => some (.error e)
  | some (.ok ps) => some (.ok (.rmap (mkMap ps)))

theorem reviveValue_bigint (f : Nat) (s : String) :
    reviveValue (f + 2) (tagged "BigInt" (.str s))
      = revTagBig (parseBigIntStr s) s := rfl

theorem reviveValue_tagdate (f : Nat) (s : String) :
    reviveValue (f + 2) (tagged "Date" (.str s))
      = revTagDate (parseDateIso s) s := rfl

theorem reviveValue_regexp (f : Nat) (src flgs : String) :
    reviveValue (f + 2) (tagged "RegExp"
        (.obj (.cons "source" (.str src) (.cons "flags" (.str flgs) .nil))))
      = some (.ok (.rregexp src flgs)) := rfl

theorem reviveValue_url (f : Nat) (s : String) :
    reviveValue (f + 2) (tagged "URL" (.str s)) = some (.ok (.rurl s)) := rfl

theorem reviveValue_set (f : Nat) (l : JArr) :
    reviveValue (f + 2) (tagged "Set" (.arr l)) = revTagSetK (revArr f l) := rfl

theorem reviveValue_tagmap (f : Nat) (l : JArr) :
    reviveValue (f + 2) (tagged "Map" (.arr l)) = revTagMapK (revMapEntries f l) := rfl

theorem reviveValue_jarr (f : Nat) (l : JArr) :
    reviveValue (f + 1) (.arr l) = revArrK (revArr f l) := rfl

/-- An object whose `$type` is not a string revives as a plain object. -/
theorem reviveValue_plain (f : Nat) (gl : JFields)
    (h : ∀ s, gl.lookup "$type" ≠ some (.str s)) :
    reviveValue (f + 1) (.obj gl) = revObjK (revFields f gl) := by
  simp only [reviveValue]
  cases hlk : gl.lookup "$type" with
  | none =>
    cases revFields f gl with
    | none => rfl
    | some r => cases r with | error e => rfl | ok out => rfl
  | some x =>
    cases x with
    | str s => exact absurd hlk (h s)
    | null =>
      cases revFields f gl with
      | none => rfl
      | some r => cases r with | error e => rfl | ok out => rfl
    | bool b =>
      cases revFields f gl with
      | none => rfl
      | some r => cases r with | error e => rfl | ok out => rfl
    | num d =>
      cases revFields f gl with
      | none => rfl
      | some r => cases r with | error e => rfl | ok out => rfl
    | arr l =>
      cases revFields f gl with
      | none => rfl
      | some r => cases r with | error e => rfl | ok out => rfl
    | obj fl2 =>
      cases revFields f gl with
      | none => rfl
      | some r => cases r with | error e => rfl | ok out => rfl

/-- An object whose `$type` is a string but with no `$value` key revives as a
plain object. -/
theorem reviveValue_strNoVal (f : Nat) (gl : JFields) (name : String)
    (h1 : gl.lookup "$type" = some (.str name)) (h2 : gl.hasKey "$value" = false) :
    reviveValue (f + 1) (.obj gl) = revObjK (revFields f gl) := by
  simp only [reviveValue]
  rw [h1, h2]
  cases revFields f gl with
  | none => rfl
  | some r => cases r with | error e => rfl | ok out => rfl

mutual

/-- **Revival inverts conversion**: reviving the conversion image of a
supported value returns exactly that value. -/
theorem rev_cv (f : Nat) (v : RVal) (hs : SupportedB v = true)
    (hf : jsizeJ (cvJ v) ≤ f) : reviveValue f (cvJ v) = some (.ok v) := by
  obtain ⟨f2, rfl⟩ : ∃ f2, f = f2 + 2 := ⟨f - 2, by have := jsizeJ_ge2 (cvJ v); omega⟩
  cases v with
  | rnull => rfl
  | rbool b => rfl
  | rstr s => rfl
  | rundef => exact nomatch hs
  | rfun => exact nomatch hs
  | rsym => exact nomatch hs
  | ref i => exact nomatch hs
  | rnum n =>
    cases n with
    | fin d => rfl
    | posInf => exact nomatch hs
    | negInf => exact nomatch hs
    | nan => exact nomatch hs
  | rbigint z =>
    show reviveValue (f2 + 2) (tagged "BigInt" (.str (intDecStr z))) = _
    rw [reviveValue_bigint, parse_intDecStr z]
    rfl
  | rdate iso =>
    have hiso : isCanonIso iso = true := by simpa [SupportedB] using hs
    show reviveValue (f2 + 2) (tagged "Date" (.str iso)) = _
    rw [reviveValue_tagdate, parseDateIso_canon iso hiso]
    rfl
  | rregexp src flgs => exact reviveValue_regexp f2 src flgs
  | rurl href => exact reviveValue_url f2 href
  | rarr l =>
    have hsl : suppL l = true := by simpa [SupportedB] using hs
    have hfl : jsizeA (cvA l) ≤ f2 + 1 := by
      simp only [cvJ, jsizeJ] at hf; omega
    show reviveValue (f2 + 2) (.arr (cvA l)) = _
    rw [reviveValue_jarr, rev_cvA (f2 + 1) l hsl hfl]
    rfl
  | robj fl tj =>
    cases tj with
    | some r => exact nomatch hs
    | none =>
      have hs2 : suppF fl = true := by
        simp only [SupportedB, Bool.true_and, Bool.and_eq_true] at hs
        exact hs.1
      have hnt : isTagLike fl = false := by
        simp only [SupportedB, Bool.true_and, Bool.and_eq_true,
          Bool.not_eq_true'] at hs
        exact hs.2
      have hfl : jsizeF (cvF fl) ≤ f2 + 1 := by
        simp only [cvJ, jsizeJ] at hf; omega
      show reviveValue (f2 + 2) (.obj (cvF fl)) = _
      cases hlk : fl.lookup "$type" with
      | none =>
        have hplain : ∀ s, (cvF fl).lookup "$type" ≠ some (.str s) := by
          intro s hcontra
          rw [lookup_cvF, hlk] at hcontra
          exact nomatch hcontra
        rw [reviveValue_plain (f2 + 1) (cvF fl) hplain]
        rw [rev_cvF (f2 + 1) fl hs2 hfl]
        rfl
      | some x =>
        by_cases hxs : ∃ s, x = .rstr s
        · obtain ⟨s, rfl⟩ := hxs
          have hlk2 : (cvF fl).lookup "$type" = some (.str s) := by
            rw [lookup_cvF, hlk]; rfl
          have hnv : fl.hasKey "$value" = false := by
            rw [isTagLike, hlk] at hnt
            exact hnt
          rw [reviveValue_strNoVal (f2 + 1) (cvF fl) s hlk2
            (by rw [hasKey_cvF]; exact hnv)]
          rw [rev_cvF (f2 + 1) fl hs2 hfl]
          rfl
        · have hplain : ∀ s, (cvF fl).lookup "$type" ≠ some (.str s) := by
            intro s hcontra
            rw [lookup_cvF, hlk] at hcontra
            have hx : cvJ x = .str s := by
              rw [show Option.map cvJ (some x) = some (cvJ x) from rfl] at hcontra
              injection hcontra
            exact hxs ⟨s, (cvJ_str_iff x s).mp hx⟩
          rw [reviveValue_plain (f2 + 1) (cvF fl) hplain]
          rw [rev_cvF (f2 + 1) fl hs2 hfl]
          rfl
  | rset l =>
    have hs12 : suppL l = true ∧ dedupPrim l.toList = l.toList := by
      simp only [SupportedB, Bool.and_eq_true, decide_eq_true_eq] at hs
      exact hs
    have hfl : jsizeA (cvA l) ≤ f2 := by
      simp only [cvJ, tagged, jsizeJ, jsizeF] at hf; omega
    show reviveValue (f2 + 2) (tagged "Set" (.arr (cvA l))) = _
    rw [reviveValue_set, rev_cvA f2 l hs12.1 hfl]
    show some (Except.ok (RVal.rset (mkSet l))) = some (Except.ok (RVal.rset l))
    rw [show mkSet l = l from by rw [mkSet, hs12.2, rofList_toList]]
  | rmap ps =>
    have hs12 : suppP ps = true ∧ mkMap ps = ps := by
      simp only [SupportedB, Bool.and_eq_true, decide_eq_true_eq] at hs
      exact hs
    have hfl : jsizeA (cvP ps) ≤ f2 := by
      simp only [cvJ, tagged, jsizeJ, jsizeF] at hf; omega
    show reviveValue (f2 + 2) (tagged "Map" (.arr (cvP ps))) = _
    rw [reviveValue_tagmap, rev_cvP f2 ps hs12.1 hfl]
    show some (Except.ok (RVal.rmap (mkMap ps))) = some (Except.ok (RVal.rmap ps))
    rw [hs12.2]
termination_by f

/-- Element-wise revival of a converted array. -/
theorem rev_cvA (f : Nat) (l : RList) (hs : suppL l = true)
    (hf : jsizeA (cvA l) ≤ f) : revArr f (cvA l) = some (.ok l) := by
  obtain ⟨f2, rfl⟩ : ∃ f2, f = f2 + 1 := ⟨f - 1, by have := jsizeA_ge1 (cvA l); omega⟩
  cases l with
  | nil => rfl
  | cons x t =>
    have hx : SupportedB x = true := by
      simp only [suppL, Bool.and_eq_true] at hs; exact hs.1
    have ht : suppL t = true := by
      simp only [suppL, Bool.and_eq_true] at hs; exact hs.2
    have hfx : jsizeJ (cvJ x) ≤ f2 := by
      have := jsizeA_ge1 (cvA t); simp only [cvA, jsizeA] at hf; omega
    have hft : jsizeA (cvA t) ≤ f2 := by
      have := jsizeJ_ge2 (cvJ x); simp only [cvA, jsizeA] at hf; omega
    simp only [cvA, revArr]
    rw [rev_cv f2 x hx hfx]
    rw [rev_cvA f2 t ht hft]
termination_by f

/-- Field-wise revival of a converted plain object. -/
theorem rev_cvF (f : Nat) (fl : RFields) (hs : suppF fl = true)
    (hf : jsizeF (cvF fl) ≤ f) : revFields f (cvF fl) = some (.ok fl) := by
  obtain ⟨f2, rfl⟩ : ∃ f2, f = f2 + 1 := ⟨f - 1, by have := jsizeF_ge1 (cvF fl); omega⟩
  cases fl with
  | nil => rfl
  | cons k x t =>
    have hx : SupportedB x = true := by
      simp only [suppF, Bool.and_eq_true] at hs; exact hs.1.1
    have ht : suppF t = true := by
      simp only [suppF, Bool.and_eq_true] at hs; exact hs.2
    have hfx : jsizeJ (cvJ x) ≤ f2 := by
      have := jsizeF_ge1 (cvF t); simp only [cvF, jsizeF] at hf; omega
    have hft : jsizeF (cvF t) ≤ f2 := by
      have := jsizeJ_ge2 (cvJ x); simp only [cvF, jsizeF] at hf; omega
    simp only [cvF, revFields]
    rw [rev_cv f2 x hx hfx]
    rw [rev_cvF f2 t ht hft]
termination_by f

/-- Entry-wise revival of converted map entries. -/
theorem rev_cvP (f : Nat) (ps : RPairs) (hs : suppP ps = true)
    (hf : jsizeA (cvP ps) ≤ f) : revMapEntries f (cvP ps) = some (.ok ps) := by
  obtain ⟨f2, rfl⟩ : ∃ f2, f = f2 + 1 := ⟨f - 1, by have := jsizeA_ge1 (cvP ps); omega⟩
  cases ps with
  | nil => rfl
  | cons k v t =>
    have hk : SupportedB k = true := by
      simp only [suppP, Bool.and_eq_true] at hs; exact hs.1.1
    have hv : SupportedB v = true := by
      simp only [suppP, Bool.and_eq_true] at hs; exact hs.1.2
    have ht : suppP t = true := by
      simp only [suppP, Bool.and_eq_true] at hs; exact hs.2
    have hfk : jsizeJ (cvJ k) ≤ f2 := by
      have h1 := jsizeA_ge1 (cvP t); have h2 := jsizeJ_ge2 (cvJ v)
      simp only [cvP, jsizeA, jsizeJ, jsizeF] at hf; omega
    have hfv : jsizeJ (cvJ v) ≤ f2 := by
      have h1 := jsizeA_ge1 (cvP t); have h2 := jsizeJ_ge2 (cvJ k)
      simp only [cvP, jsizeA, jsizeJ, jsizeF] at hf; omega
    have hft : jsizeA (cvP t) ≤ f2 := by
      have h1 := jsizeJ_ge2 (cvJ k); have h2 := jsizeJ_ge2 (cvJ v)
      simp only [cvP, jsizeA, jsizeJ, jsizeF] at hf; omega
    simp only [cvP, revMapEntries]
    rw [rev_cv f2 k hk hfk]
    rw [rev_cv f2 v hv hfv]
    rw [rev_cvP f2 t ht hft]
termination_by f

end

/-- `stringify` through its conversion result. -/
theorem tsonStringifyT_eq (v : RVal) (opts : StringifyOptions) :
    tsonStringifyT v opts
      = match convertValue (rsize v + 1) [] opts.strict v [] false with
        | none => none
        | some (.error e) => some (.error e)
        | some (.ok result) => some (.ok (stringifyJson (result.getD .null) opts.sorted)) := by
  rw [tsonStringifyT, tsonStringify]

/-- `parse` through its revival result, once the text parses. -/
theorem tsonParse_okj (text : String) (j : Json) (hp : parseJson text = .ok j) :
    tsonParse text
      = match reviveValue (jsizeJ j + 1) j with
        | none => none
        | some (.error e) => some (.error (.reviveErr e))
        | some (.ok v) => some (.ok v) := by
  rw [tsonParse, hp]

/-- **C1** (corrected): for every acyclic runtime tree of supported
primitives, plain arrays and plain objects (with no tag-shaped plain object)
and handler-backed values — canonical dates, deduplicated sets, map entries
in `Map` normal form, numbers finite and canonical — `stringify` succeeds and
`parse` of its output (revive enabled) returns a value deeply equal (here:
equal) to the input.  The literal claim, quantified over all values built
from supported primitives and plain containers, is refuted by the
counterexample: a plain object shaped like a tag survives stringify but
fails to parse. -/
theorem c1_round_trip (v : RVal) (hs : SupportedB v = true) :
    ∃ s : String, tsonStringifyT v {} = some (.ok s) ∧ tsonParse s = some (.ok v) := by
  refine ⟨⟨printJsonL (cvJ v)⟩, ?_, ?_⟩
  · rw [tsonStringifyT_eq]
    rw [conv_supp (rsize v + 1) v (StringifyOptions.strict {}) [] false hs
      (Nat.le_succ _)]
    rfl
  · rw [tsonParse_okj _ (cvJ v) (parseJson_print (cvJ v) (goodJ_cv v hs))]
    rw [rev_cv (jsizeJ (cvJ v) + 1) v hs (Nat.le_succ _)]

/-- **C1, counterexample to the literal claim**: the plain object
`{$type: "Nope", $value: null}` is built only from supported primitives and
a plain object, stringifies successfully, but `parse` of the output fails
with an unknown-type revival error instead of returning the value. -/
theorem c1_counterexample :
    tsonStringifyT
        (.robj (.cons "$type" (.rstr "Nope") (.cons "$value" .rnull .nil)) .none) {}
      = some (.ok "\x7b\"$type\":\"Nope\",\"$value\":null\x7d") ∧
    tsonParse "\x7b\"$type\":\"Nope\",\"$value\":null\x7d"
      = some (.error (.reviveErr ⟨"Unknown type: Nope"⟩)) := by
  constructor
  · decide
  · decide

/-- **C1, witness**: a map with a date key round-trips. -/
theorem c1_round_trip_witness :
    SupportedB (.rmap (.cons (.rdate "2024-01-15T12:00:00.000Z") (.rbool true) .nil))
      = true ∧
    ∃ s : String,
      tsonStringifyT
          (.rmap (.cons (.rdate "2024-01-15T12:00:00.000Z") (.rbool true) .nil)) {}
        = some (.ok s) ∧
      tsonParse s
        = some (.ok (.rmap (.cons (.rdate "2024-01-15T12:00:00.000Z")
            (.rbool true) .nil))) :=
  ⟨by decide, c1_round_trip _ (by decide)⟩

/-! ### Sorted-mode theory (claim C6) -/

theorem charListLe_refl : ∀ a : List Char, charListLe a a = true
  | [] => rfl
  | c :: t => by
    rw [charListLe, if_neg (lt_irrefl c), if_neg (lt_irrefl c)]
    exact charListLe_refl t

theorem charListLe_total : ∀ a b : List Char,
    charListLe a b = true ∨ charListLe b a = true
  | [], _ => Or.inl rfl
  | _ :: _, [] => Or.inr rfl
  | a :: as, b :: bs => by
    rcases lt_trichotomy a b with hab | hab | hab
    · left
      rw [charListLe, if_pos hab]
    · subst hab
      rcases charListLe_total as bs with h | h
      · left
        rw [charListLe, if_neg (lt_irrefl a), if_neg (lt_irrefl a)]
        exact h
      · right
        rw [charListLe, if_neg (lt_irrefl a), if_neg (lt_irrefl a)]
        exact h
    · right
      rw [charListLe, if_pos hab]

theorem charListLe_trans : ∀ a b c : List Char, charListLe a b = true →
    charListLe b c = true → charListLe a c = true
  | [], _, _, _, _ => rfl
  | _ :: _, [], _, h1, _ => by rw [charListLe] at h1; exact nomatch h1
  | _ :: _, _ :: _, [], _, h2 => by rw [charListLe] at h2; exact nomatch h2
  | x :: xs, y :: ys, z :: zs, h1, h2 => by
    rw [charListLe] at h1 h2 ⊢
    rcases lt_trichotomy x y with hxy | hxy | hxy
    · rcases lt_trichotomy y z with hyz | hyz | hyz
      · rw [if_pos (lt_trans hxy hyz)]
      · subst hyz
        rw [if_pos hxy]
      · rw [if_neg (lt_asymm hyz), if_pos hyz] at h2
        exact nomatch h2
    · subst hxy
      rw [if_neg (lt_irrefl x), if_neg (lt_irrefl x)] at h1
      rcases lt_trichotomy x z with hxz | hxz | hxz
      · rw [if_pos hxz]
      · subst hxz
        rw [if_neg (lt_irrefl x), if_neg (lt_irrefl x)] at h2 ⊢
        exact charListLe_trans xs ys zs h1 h2
      · rw [if_neg (lt_asymm hxz), if_pos hxz] at h2
        exact nomatch h2
    · rw [if_neg (lt_asymm hxy), if_pos hxy] at h1
      exact nomatch h1

theorem strLe_refl (s : String) : strLe s s = true := charListLe_refl s.data

theorem strLe_total (a b : String) : strLe a b = true ∨ strLe b a = true :=
  charListLe_total a.data b.data

theorem strLe_trans {a b c : String} (h1 : strLe a b = true)
    (h2 : strLe b c = true) : strLe a c = true :=
  charListLe_trans a.data b.data c.data h1 h2

/-- Every key of the list sorts at or after `k`. -/
def allLeF (k : String) : JFields → Bool
  | .nil => true
  | .cons k2 _ t => strLe k k2 && allLeF k t

/-- Members sorted by key: every member key precedes all later keys. -/
def sortedF : JFields → Bool
  | .nil => true
  | .cons k _ t => allLeF k t && sortedF t

theorem allLeF_mono (a b : String) (hab : strLe a b = true) : ∀ fl : JFields,
    allLeF b fl = true → allLeF a fl = true
  | .nil, _ => rfl
  | .cons k2 v2 t, h => by
    rw [allLeF, Bool.and_eq_true] at h ⊢
    exact ⟨strLe_trans hab h.1, allLeF_mono a b hab t h.2⟩

theorem allLeF_hasKey (a : String) : ∀ (fl : JFields) (k2 : String),
    allLeF a fl = true → fl.hasKey k2 = true → strLe a k2 = true
  | .nil, k2, _, hk => nomatch hk
  | .cons k3 v3 t, k2, h, hk => by
    rw [allLeF, Bool.and_eq_true] at h
    by_cases he : k3 = k2
    · subst he; exact h.1
    · rw [JFields.hasKey, JFields.lookup, if_neg he] at hk
      exact allLeF_hasKey a t k2 h.2 (by rw [JFields.hasKey]; exact hk)

theorem allLeF_insertField (a k : String) (v : Json) : ∀ fl : JFields,
    allLeF a (insertField k v fl) = (strLe a k && allLeF a fl)
  | .nil => by simp [insertField, allLeF]
  | .cons k2 v2 t => by
    by_cases h : strLe k2 k = true
    · simp only [insertField, if_pos h, allLeF, allLeF_insertField a k v t]
      cases strLe a k2 <;> cases strLe a k <;> cases allLeF a t <;> rfl
    · simp only [insertField, if_neg h, allLeF]

theorem sortedF_insertField (k : String) (v : Json) : ∀ fl : JFields,
    sortedF fl = true → sortedF (insertField k v fl) = true
  | .nil, _ => rfl
  | .cons k2 v2 t, hs => by
    have hs0 := hs
    rw [sortedF, Bool.and_eq_true] at hs
    by_cases h : strLe k2 k = true
    · rw [insertField, if_pos h, sortedF, Bool.and_eq_true]
      constructor
      · rw [allLeF_insertField, h, hs.1]
        rfl
      · exact sortedF_insertField k v t hs.2
    · have hk : strLe k k2 = true := (strLe_total k2 k).resolve_left h
      rw [insertField, if_neg h, sortedF, Bool.and_eq_true]
      refine ⟨?_, hs0⟩
      rw [allLeF, Bool.and_eq_true]
      exact ⟨hk, allLeF_mono k k2 hk t hs.1⟩

theorem sortedF_sortFieldsGo : ∀ (fl acc : JFields), sortedF acc = true →
    sortedF (sortFields.sortFieldsGo fl acc) = true
  | .nil, _, ha => ha
  | .cons k v t, acc, ha =>
    sortedF_sortFieldsGo t _ (sortedF_insertField k v acc ha)

theorem sortedF_sortFields (fl : JFields) : sortedF (sortFields fl) = true :=
  sortedF_sortFieldsGo fl .nil rfl

theorem appendF_nil : ∀ fl : JFields, fl.append .nil = fl
  | .nil => rfl
  | .cons k v t => by rw [JFields.append, appendF_nil t]

/-- Every key of the list sorts at or before `k`. -/
def allLeK : JFields → String → Bool
  | .nil, _ => true
  | .cons k2 _ t, k => strLe k2 k && allLeK t k

theorem allLeK_append : ∀ (a b : JFields) (k : String),
    allLeK (a.append b) k = (allLeK a k && allLeK b k)
  | .nil, b, k => by rw [JFields.append, allLeK, Bool.true_and]
  | .cons k2 v2 t, b, k => by
    rw [JFields.append, allLeK, allLeK, allLeK_append t b k, Bool.and_assoc]

theorem insertField_atEnd (k : String) (v : Json) : ∀ fl : JFields,
    allLeK fl k = true → insertField k v fl = fl.append (.cons k v .nil)
  | .nil, _ => rfl
  | .cons k2 v2 t, h => by
    rw [allLeK, Bool.and_eq_true] at h
    rw [insertField, if_pos h.1, JFields.append, insertField_atEnd k v t h.2]

theorem sortFieldsGo_sorted : ∀ (fl acc : JFields),
    sortedF fl = true → (∀ k2, fl.hasKey k2 = true → allLeK acc k2 = true) →
    sortFields.sortFieldsGo fl acc = acc.append fl
  | .nil, acc, _, _ => (appendF_nil acc).symm
  | .cons k v t, acc, hs, hacc => by
    rw [sortedF, Bool.and_eq_true] at hs
    have hk : allLeK acc k = true := hacc k (by
      rw [JFields.hasKey, JFields.lookup, if_pos rfl]; rfl)
    have hrec := sortFieldsGo_sorted t (acc.append (.cons k v .nil)) hs.2 (by
      intro k2 hk2
      rw [allLeK_append, Bool.and_eq_true]
      refine ⟨hacc k2 ?_, ?_⟩
      · rw [JFields.hasKey, JFields.lookup]
        by_cases he : k = k2
        · rw [if_pos he]; rfl
        · rw [if_neg he]
          rw [JFields.hasKey] at hk2
          exact hk2
      · rw [allLeK, allLeK, Bool.and_true]
        exact allLeF_hasKey k t k2 hs.1 hk2)
    rw [show sortFields.sortFieldsGo (.cons k v t) acc
        = sortFields.sortFieldsGo t (insertField k v acc) from rfl]
    rw [insertField_atEnd k v acc hk, hrec, append_assocF]
    rfl

theorem sortFields_sorted_id (fl : JFields) (hs : sortedF fl = true) :
    sortFields fl = fl := by
  rw [show sortFields fl = sortFields.sortFieldsGo fl .nil from rfl]
  rw [sortFieldsGo_sorted fl .nil hs (fun k2 _ => rfl)]
  rfl

theorem sortFields_idem (fl : JFields) :
    sortFields (sortFields fl) = sortFields fl :=
  sortFields_sorted_id _ (sortedF_sortFields fl)

theorem sortKeysFields_insertField (k : String) (v : Json) : ∀ fl : JFields,
    sortKeysFields (insertField k v fl)
      = insertField k (sortKeysJ v) (sortKeysFields fl)
  | .nil => rfl
  | .cons k2 v2 t => by
    by_cases h : strLe k2 k = true
    · simp only [insertField, if_pos h, sortKeysFields,
        sortKeysFields_insertField k v t]
    · simp only [insertField, if_neg h, sortKeysFields]

theorem sortKeysFields_go : ∀ (fl acc : JFields),
    sortKeysFields (sortFields.sortFieldsGo fl acc)
      = sortFields.sortFieldsGo (sortKeysFields fl) (sortKeysFields acc)
  | .nil, _ => rfl
  | .cons k v t, acc => by
    rw [show sortFields.sortFieldsGo (.cons k v t) acc
        = sortFields.sortFieldsGo t (insertField k v acc) from rfl]
    rw [sortKeysFields_go t (insertField k v acc)]
    rw [sortKeysFields_insertField]
    rfl

theorem sortKeysFields_sortFields (fl : JFields) :
    sortKeysFields (sortFields fl) = sortFields (sortKeysFields fl) :=
  sortKeysFields_go fl .nil

mutual
/-- Keys sorted at every nesting depth. -/
def ksJ : Json → Bool
  | .null => true
  | .bool _ => true
  | .num _ => true
  | .str _ => true
  | .arr l => ksA l
  | .obj fl => sortedF fl && ksF fl
def ksA : JArr → Bool
  | .nil => true
  | .cons h t => ksJ h && ksA t
def ksF : JFields → Bool
  | .nil => true
  | .cons _ v t => ksJ v && ksF t
end

theorem ksF_insertField (k : String) (v : Json) : ∀ fl : JFields,
    ksF (insertField k v fl) = (ksJ v && ksF fl)
  | .nil => by simp [insertField, ksF]
  | .cons k2 v2 t => by
    by_cases h : strLe k2 k = true
    · simp only [insertField, if_pos h, ksF, ksF_insertField k v t]
      cases ksJ v2 <;> cases ksJ v <;> cases ksF t <;> rfl
    · simp only [insertField, if_neg h, ksF]

theorem ksF_go : ∀ (fl acc : JFields),
    ksF (sortFields.sortFieldsGo fl acc) = (ksF fl && ksF acc)
  | .nil, acc => by
    rw [show sortFields.sortFieldsGo .nil acc = acc from rfl, ksF, Bool.true_and]
  | .cons k v t, acc => by
    rw [show sortFields.sortFieldsGo (.cons k v t) acc
        = sortFields.sortFieldsGo t (insertField k v acc) from rfl]
    rw [ksF_go t _, ksF_insertField, ksF]
    cases ksJ v <;> cases ksF t <;> cases ksF acc <;> rfl

theorem ksF_sortFields (fl : JFields) : ksF (sortFields fl) = ksF fl := by
  rw [show sortFields fl = sortFields.sortFieldsGo fl .nil from rfl, ksF_go]
  cases ksF fl <;> rfl

mutual
/-- `sortKeys` sorts object keys at every nesting depth. -/
theorem ks_sortKeys : ∀ j : Json, ksJ (sortKeysJ j) = true
  | .str _ => rfl
  | .num _ => rfl
  | .null => rfl
  | .bool _ => rfl
  | .arr l => ksA_sortKeys l
  | .obj fl => by
    simp only [sortKeysJ, ksJ, Bool.and_eq_true]
    exact ⟨sortedF_sortFields _, by rw [ksF_sortFields]; exact ksF_sortKeys fl⟩
termination_by j => sizeOf j

theorem ksA_sortKeys : ∀ l : JArr, ksA (sortKeysArr l) = true
  | .nil => rfl
  | .cons h t => by
    simp only [sortKeysArr, ksA, Bool.and_eq_true]
    exact ⟨ks_sortKeys h, ksA_sortKeys t⟩
termination_by l => sizeOf l

theorem ksF_sortKeys : ∀ fl : JFields, ksF (sortKeysFields fl) = true
  | .nil => rfl
  | .cons k v t => by
    simp only [sortKeysFields, ksF, Bool.and_eq_true]
    exact ⟨ks_sortKeys v, ksF_sortKeys t⟩
termination_by fl => sizeOf fl
end

theorem sortKeysArr_toList : ∀ l : JArr,
    (sortKeysArr l).toList = l.toList.map sortKeysJ
  | .nil => rfl
  | .cons h t => by
    rw [sortKeysArr, JArr.toList, JArr.toList, List.map_cons, sortKeysArr_toList t]

theorem hasKey_insertField (k k2 : String) (v : Json) : ∀ fl : JFields,
    (insertField k v fl).hasKey k2 = (decide (k = k2) || fl.hasKey k2)
  | .nil => by
    by_cases h : k = k2
    · rw [insertField, JFields.hasKey, JFields.lookup, if_pos h, decide_eq_true h]
      rfl
    · rw [insertField, JFields.hasKey, JFields.lookup, if_neg h, decide_eq_false h]
      rfl
  | .cons k3 v3 t => by
    by_cases hi : strLe k3 k = true
    · rw [insertField, if_pos hi]
      by_cases h3 : k3 = k2
      · rw [JFields.hasKey, JFields.lookup, if_pos h3,
          JFields.hasKey, JFields.lookup, if_pos h3]
        cases decide (k = k2) <;> rfl
      · rw [JFields.hasKey, JFields.lookup, if_neg h3]
        rw [show ((insertField k v t).lookup k2).isSome
            = (insertField k v t).hasKey k2 from rfl]
        rw [hasKey_insertField k k2 v t]
        rw [show (JFields.cons k3 v3 t).hasKey k2 = t.hasKey k2 from by
          rw [JFields.hasKey, JFields.lookup, if_neg h3]; rfl]
    · rw [insertField, if_neg hi]
      by_cases h : k = k2
      · rw [JFields.hasKey, JFields.lookup, if_pos h, decide_eq_true h]
        rfl
      · rw [JFields.hasKey, JFields.lookup, if_neg h, decide_eq_false h]
        rfl

theorem goodF_insertField (k : String) (v : Json) : ∀ fl : JFields,
    goodJ v = true → fl.hasKey k = false → goodF fl = true →
    goodF (insertField k v fl) = true
  | .nil, hv, _, _ => by
    rw [insertField]
    simp [goodF, JFields.hasKey, JFields.lookup, hv]
  | .cons k2 v2 t, hv, hk, hg => by
    have hg0 := hg
    rw [JFields.hasKey, JFields.lookup] at hk
    have hne : ¬ (k2 = k) := by
      intro he
      rw [if_pos he] at hk
      exact nomatch hk
    have hkt : t.hasKey k = false := by
      rw [if_neg hne] at hk
      rw [JFields.hasKey]
      exact hk
    rw [goodF, Bool.and_eq_true, Bool.and_eq_true, Bool.not_eq_true'] at hg
    by_cases hi : strLe k2 k = true
    · rw [insertField, if_pos hi, goodF, Bool.and_eq_true, Bool.and_eq_true,
        Bool.not_eq_true']
      refine ⟨⟨hg.1.1, ?_⟩, goodF_insertField k v t hv hkt hg.2⟩
      rw [hasKey_insertField, decide_eq_false (fun he => hne he.symm), hg.1.2]
      rfl
    · rw [insertField, if_neg hi, goodF, Bool.and_eq_true, Bool.and_eq_true,
        Bool.not_eq_true']
      refine ⟨⟨hv, ?_⟩, hg0⟩
      rw [JFields.hasKey, JFields.lookup, if_neg hne]
      rw [JFields.hasKey] at hkt
      exact hkt

theorem goodF_go : ∀ (fl acc : JFields),
    goodF fl = true → goodF acc = true →
    (∀ k, fl.hasKey k = true → acc.hasKey k = false) →
    goodF (sortFields.sortFieldsGo fl acc) = true
  | .nil, _, _, ha, _ => ha
  | .cons k v t, acc, hg, ha, hdisj => by
    rw [goodF, Bool.and_eq_true, Bool.and_eq_true, Bool.not_eq_true'] at hg
    have hak : acc.hasKey k = false := hdisj k (by
      rw [JFields.hasKey, JFields.lookup, if_pos rfl]; rfl)
    refine goodF_go t (insertField k v acc) hg.2
      (goodF_insertField k v acc hg.1.1 hak ha) ?_
    intro k2 hk2
    have hne : ¬ (k = k2) := by
      intro he
      rw [← he] at hk2
      rw [hg.1.2] at hk2
      exact nomatch hk2
    rw [hasKey_insertField, decide_eq_false hne]
    have hacc2 : acc.hasKey k2 = false := hdisj k2 (by
      rw [JFields.hasKey, JFields.lookup, if_neg hne]
      rw [JFields.hasKey] at hk2
      exact hk2)
    rw [hacc2]
    rfl

theorem goodF_sortFields (fl : JFields) (hg : goodF fl = true) :
    goodF (sortFields fl) = true :=
  goodF_go fl .nil hg rfl (fun _ _ => rfl)

theorem hasKey_sortKeysFields (k : String) : ∀ fl : JFields,
    (sortKeysFields fl).hasKey k = fl.hasKey k
  | .nil => rfl
  | .cons k2 v t => by
    by_cases h : k2 = k
    · rw [sortKeysFields, JFields.hasKey, JFields.lookup, if_pos h,
        show (JFields.cons k2 v t).hasKey k = (some v).isSome from by
          rw [JFields.hasKey, JFields.lookup, if_pos h]]
      rfl
    · rw [sortKeysFields, JFields.hasKey, JFields.lookup, if_neg h,
        show (JFields.cons k2 v t).hasKey k = t.hasKey k from by
          rw [JFields.hasKey, JFields.lookup, if_neg h]; rfl]
      exact hasKey_sortKeysFields k t

mutual
/-- `sortKeys` preserves parse-printability. -/
theorem goodJ_sortKeys : ∀ j : Json, goodJ j = true → goodJ (sortKeysJ j) = true
  | .null, h => h
  | .bool _, h => h
  | .num _, h => h
  | .str _, h => h
  | .arr l, h => goodA_sortKeys l h
  | .obj fl, h => goodF_sortFields _ (goodF_sortKeysFields fl h)
termination_by j => sizeOf j

theorem goodA_sortKeys : ∀ l : JArr, goodA l = true → goodA (sortKeysArr l) = true
  | .nil, h => h
  | .cons x t, h => by
    rw [goodA, Bool.and_eq_true] at h
    rw [sortKeysArr, goodA, Bool.and_eq_true]
    exact ⟨goodJ_sortKeys x h.1, goodA_sortKeys t h.2⟩
termination_by l => sizeOf l

theorem goodF_sortKeysFields : ∀ fl : JFields,
    goodF fl = true → goodF (sortKeysFields fl) = true
  | .nil, h => h
  | .cons k v t, h => by
    rw [goodF, Bool.and_eq_true, Bool.and_eq_true, Bool.not_eq_true'] at h
    rw [sortKeysFields, goodF, Bool.and_eq_true, Bool.and_eq_true,
      Bool.not_eq_true']
    exact ⟨⟨goodJ_sortKeys v h.1.1, by rw [hasKey_sortKeysFields]; exact h.1.2⟩,
      goodF_sortKeysFields t h.2⟩
termination_by fl => sizeOf fl
end

/-! ### The value revived from the sorted stringification -/

/-- Runtime mirror of `insertField`. -/
def insertFieldR (k : String) (v : RVal) : RFields → RFields
  | .nil => .cons k v .nil
  | .cons k2 v2 t =>
    if strLe k2 k then .cons k2 v2 (insertFieldR k v t)
    else .cons k v (.cons k2 v2 t)

/-- Runtime mirror of `sortFields`. -/
def sortR : RFields → RFields
  | fl => sortRGo fl .nil
where
  sortRGo : RFields → RFields → RFields
    | .nil, acc => acc
    | .cons k v t, acc => sortRGo t (insertFieldR k v acc)

mutual
/-- The value revival returns on the sorted stringification of a supported
value: plain-object fields get key-sorted at every depth, everything else
keeps its shape. -/
def srv : RVal → RVal
  | .rnull => .rnull
  | .rundef => .rundef
  | .rfun => .rfun
  | .rsym => .rsym
  | .rbool b => .rbool b
  | .rnum n => .rnum n
  | .rstr s => .rstr s
  | .rbigint z => .rbigint z
  | .rdate iso => .rdate iso
  | .rregexp src flgs => .rregexp src flgs
  | .rurl href => .rurl href
  | .rarr l => .rarr (srvL l)
  | .robj fl _ => .robj (sortR (srvF fl)) .none
  | .rset l => .rset (srvL l)
  | .rmap ps => .rmap (srvP ps)
  | .ref i => .ref i
def srvL : RList → RList
  | .nil => .nil
  | .cons x t => .cons (srv x) (srvL t)
def srvF : RFields → RFields
  | .nil => .nil
  | .cons k v t => .cons k (srv v) (srvF t)
def srvP : RPairs → RPairs
  | .nil => .nil
  | .cons k v t => .cons (srv k) (srv v) (srvP t)
end

theorem primEq_srv : ∀ a b : RVal, primEq (srv a) (srv b) = primEq a b := by
  intro a b
  cases a <;> cases b <;> rfl

theorem srv_rstr_iff (x : RVal) (s : String) : srv x = .rstr s ↔ x = .rstr s := by
  constructor
  · intro h
    cases x with
    | rstr s2 =>
      injection h with h1
      exact congrArg RVal.rstr h1
    | rnull => exact nomatch h
    | rundef => exact nomatch h
    | rfun => exact nomatch h
    | rsym => exact nomatch h
    | rbool b => exact nomatch h
    | rnum n => exact nomatch h
    | rbigint z => exact nomatch h
    | rdate iso => exact nomatch h
    | rregexp a b => exact nomatch h
    | rurl u => exact nomatch h
    | rarr l => exact nomatch h
    | robj fl tj => exact nomatch h
    | rset l => exact nomatch h
    | rmap ps => exact nomatch h
    | ref i => exact nomatch h
  · intro h
    rw [h]
    rfl

theorem srvL_toList : ∀ l : RList, (srvL l).toList = l.toList.map srv
  | .nil => rfl
  | .cons x t => by
    rw [srvL, RList.toList, RList.toList, List.map_cons, srvL_toList t]

theorem srvP_toList : ∀ ps : RPairs,
    (srvP ps).toList = ps.toList.map (fun kv => (srv kv.1, srv kv.2))
  | .nil => rfl
  | .cons k v t => by
    rw [srvP, RPairs.toList, RPairs.toList, List.map_cons, srvP_toList t]

theorem dedupPrimGo_srv : ∀ (acc l : List RVal),
    dedupPrimGo (acc.map srv) (l.map srv) = (dedupPrimGo acc l).map srv
  | _, [] => rfl
  | acc, x :: xs => by
    rw [List.map_cons, dedupPrimGo, dedupPrimGo]
    have hany : (acc.map srv).any (fun y => primEq y (srv x))
        = acc.any (fun y => primEq y x) := by
      rw [List.any_map]
      congr 1
      funext y
      exact primEq_srv y x
    rw [hany]
    by_cases h : acc.any (fun y => primEq y x) = true
    · rw [if_pos h, if_pos h]
      exact dedupPrimGo_srv acc xs
    · rw [if_neg h, if_neg h, List.map_cons]
      congr 1
      exact dedupPrimGo_srv (x :: acc) xs

theorem dedupPrim_srv (l : List RVal) :
    dedupPrim (l.map srv) = (dedupPrim l).map srv :=
  dedupPrimGo_srv [] l

theorem mkSet_srvL (l : RList) (hd : dedupPrim l.toList = l.toList) :
    mkSet (srvL l) = srvL l := by
  rw [mkSet, srvL_toList, dedupPrim_srv, hd, ← srvL_toList, rofList_toList]

theorem mapInsert_srv (k v : RVal) : ∀ acc : List (RVal × RVal),
    mapInsert (srv k) (srv v) (acc.map (fun kv => (srv kv.1, srv kv.2)))
      = (mapInsert k v acc).map (fun kv => (srv kv.1, srv kv.2))
  | [] => rfl
  | (k2, v2) :: t => by
    rw [List.map_cons, mapInsert, mapInsert]
    rw [show primEq (srv k2) (srv k) = primEq k2 k from primEq_srv k2 k]
    by_cases h : primEq k2 k = true
    · rw [if_pos h, if_pos h, List.map_cons]
    · rw [if_neg h, if_neg h, mapInsert_srv k v t]
      simp only [List.map_cons]

theorem foldl_mapInsert_srv : ∀ (l acc : List (RVal × RVal)),
    (l.map (fun kv => (srv kv.1, srv kv.2))).foldl
        (fun a kv => mapInsert kv.1 kv.2 a)
        (acc.map (fun kv => (srv kv.1, srv kv.2)))
      = (l.foldl (fun a kv => mapInsert kv.1 kv.2 a) acc).map
          (fun kv => (srv kv.1, srv kv.2))
  | [], _ => rfl
  | (k, v) :: t, acc => by
    simp only [List.map_cons, List.foldl_cons]
    rw [mapInsert_srv k v acc]
    exact foldl_mapInsert_srv t (mapInsert k v acc)

theorem ofListP_map_srv : ∀ x : List (RVal × RVal),
    RPairs.ofList (x.map (fun kv => (srv kv.1, srv kv.2)))
      = srvP (RPairs.ofList x)
  | [] => rfl
  | (k, v) :: t => by
    rw [List.map_cons, RPairs.ofList, RPairs.ofList, srvP, ofListP_map_srv t]

theorem mkMap_srvP (ps : RPairs) (hm : mkMap ps = ps) :
    mkMap (srvP ps) = srvP ps := by
  have hm2 : RPairs.ofList
      (ps.toList.foldl (fun acc kv => mapInsert kv.1 kv.2 acc) []) = ps := hm
  have h := foldl_mapInsert_srv ps.toList []
  have h2 : (([] : List (RVal × RVal)).map (fun kv => (srv kv.1, srv kv.2)))
      = [] := rfl
  rw [h2] at h
  rw [mkMap, srvP_toList, h, ofListP_map_srv, hm2]

theorem cvF_insertFieldR (k : String) (v : RVal) : ∀ fl : RFields,
    cvF (insertFieldR k v fl) = insertField k (cvJ v) (cvF fl)
  | .nil => rfl
  | .cons k2 v2 t => by
    by_cases h : strLe k2 k = true
    · simp only [insertFieldR, if_pos h, cvF, cvF_insertFieldR k v t, insertField]
    · simp only [insertFieldR, if_neg h, cvF, insertField]

theorem cvF_sortRGo : ∀ (fl acc : RFields),
    cvF (sortR.sortRGo fl acc) = sortFields.sortFieldsGo (cvF fl) (cvF acc)
  | .nil, _ => rfl
  | .cons k v t, acc => by
    rw [show sortR.sortRGo (.cons k v t) acc
        = sortR.sortRGo t (insertFieldR k v acc) from rfl]
    rw [cvF_sortRGo t _, cvF_insertFieldR]
    rfl

theorem cvF_sortR (fl : RFields) : cvF (sortR fl) = sortFields (cvF fl) :=
  cvF_sortRGo fl .nil

theorem srvF_insertFieldR (k : String) (v : RVal) : ∀ fl : RFields,
    srvF (insertFieldR k v fl) = insertFieldR k (srv v) (srvF fl)
  | .nil => rfl
  | .cons k2 v2 t => by
    by_cases h : strLe k2 k = true
    · simp only [insertFieldR, if_pos h, srvF, srvF_insertFieldR k v t]
    · simp only [insertFieldR, if_neg h, srvF]

theorem srvF_sortRGo : ∀ (fl acc : RFields),
    srvF (sortR.sortRGo fl acc) = sortR.sortRGo (srvF fl) (srvF acc)
  | .nil, _ => rfl
  | .cons k v t, acc => by
    rw [show sortR.sortRGo (.cons k v t) acc
        = sortR.sortRGo t (insertFieldR k v acc) from rfl]
    rw [srvF_sortRGo t _, srvF_insertFieldR]
    rfl

theorem srvF_sortR (fl : RFields) : srvF (sortR fl) = sortR (srvF fl) :=
  srvF_sortRGo fl .nil

theorem lookup_srvF : ∀ (fl : RFields) (k : String),
    (srvF fl).lookup k = (fl.lookup k).map srv
  | .nil, _ => rfl
  | .cons k2 v t, k => by
    by_cases h : k2 = k
    · simp [srvF, RFields.lookup, h]
    · simp only [srvF, RFields.lookup, h, if_false]
      exact lookup_srvF t k

theorem hasKey_srvF (fl : RFields) (k : String) :
    (srvF fl).hasKey k = fl.hasKey k := by
  rw [RFields.hasKey, RFields.hasKey, lookup_srvF]
  cases fl.lookup k <;> rfl

theorem hasKeyR_insertFieldR (k k2 : String) (v : RVal) : ∀ fl : RFields,
    (insertFieldR k v fl).hasKey k2 = (decide (k = k2) || fl.hasKey k2)
  | .nil => by
    by_cases h : k = k2
    · rw [insertFieldR, RFields.hasKey, RFields.lookup, if_pos h, decide_eq_true h]
      rfl
    · rw [insertFieldR, RFields.hasKey, RFields.lookup, if_neg h, decide_eq_false h]
      rfl
  | .cons k3 v3 t => by
    by_cases hi : strLe k3 k = true
    · rw [insertFieldR, if_pos hi]
      by_cases h3 : k3 = k2
      · rw [RFields.hasKey, RFields.lookup, if_pos h3,
          RFields.hasKey, RFields.lookup, if_pos h3]
        cases decide (k = k2) <;> rfl
      · rw [RFields.hasKey, RFields.lookup, if_neg h3]
        rw [show ((insertFieldR k v t).lookup k2).isSome
            = (insertFieldR k v t).hasKey k2 from rfl]
        rw [hasKeyR_insertFieldR k k2 v t]
        rw [show (RFields.cons k3 v3 t).hasKey k2 = t.hasKey k2 from by
          rw [RFields.hasKey, RFields.lookup, if_neg h3]; rfl]
    · rw [insertFieldR, if_neg hi]
      by_cases h : k = k2
      · rw [RFields.hasKey, RFields.lookup, if_pos h, decide_eq_true h]
        rfl
      · rw [RFields.hasKey, RFields.lookup, if_neg h, decide_eq_false h]
        rfl

theorem hasKeyR_sortRGo : ∀ (fl acc : RFields) (k : String),
    (sortR.sortRGo fl acc).hasKey k = (fl.hasKey k || acc.hasKey k)
  | .nil, acc, k => by
    rw [show sortR.sortRGo .nil acc = acc from rfl]
    cases acc.hasKey k <;> rfl
  | .cons k2 v t, acc, k => by
    rw [show sortR.sortRGo (.cons k2 v t) acc
        = sortR.sortRGo t (insertFieldR k2 v acc) from rfl]
    rw [hasKeyR_sortRGo t _ k, hasKeyR_insertFieldR]
    by_cases h : k2 = k
    · rw [decide_eq_true h, show (RFields.cons k2 v t).hasKey k = true from by
        rw [RFields.hasKey, RFields.lookup, if_pos h]; rfl]
      cases t.hasKey k <;> rfl
    · rw [decide_eq_false h, show (RFields.cons k2 v t).hasKey k = t.hasKey k from by
        rw [RFields.hasKey, RFields.lookup, if_neg h]; rfl]
      cases t.hasKey k <;> cases acc.hasKey k <;> rfl

theorem hasKeyR_sortR (fl : RFields) (k : String) :
    (sortR fl).hasKey k = fl.hasKey k := by
  rw [show sortR fl = sortR.sortRGo fl .nil from rfl, hasKeyR_sortRGo]
  cases fl.hasKey k <;> rfl

theorem lookupR_insert_ne (k k2 : String) (v : RVal) (hne : ¬ (k = k2)) :
    ∀ fl : RFields, (insertFieldR k v fl).lookup k2 = fl.lookup k2
  | .nil => by
    simp only [insertFieldR, RFields.lookup, if_neg hne]
  | .cons k3 v3 t => by
    by_cases hi : strLe k3 k = true
    · rw [insertFieldR, if_pos hi]
      by_cases h3 : k3 = k2
      · rw [RFields.lookup, if_pos h3, RFields.lookup, if_pos h3]
      · rw [RFields.lookup, if_neg h3, lookupR_insert_ne k k2 v hne t,
          RFields.lookup, if_neg h3]
    · rw [insertFieldR, if_neg hi, RFields.lookup, if_neg hne]

theorem lookupR_insertFieldR (k : String) (v : RVal) : ∀ fl : RFields,
    fl.hasKey k = false → (insertFieldR k v fl).lookup k = some v
  | .nil, _ => by
    rw [insertFieldR, RFields.lookup, if_pos rfl]
  | .cons k3 v3 t, hk => by
    have hne : ¬ (k3 = k) := by
      intro he
      rw [RFields.hasKey, RFields.lookup, if_pos he] at hk
      exact nomatch hk
    have hkt : t.hasKey k = false := by
      rw [RFields.hasKey, RFields.lookup, if_neg hne] at hk
      rw [RFields.hasKey]
      exact hk
    by_cases hi : strLe k3 k = true
    · rw [insertFieldR, if_pos hi, RFields.lookup, if_neg hne,
        lookupR_insertFieldR k v t hkt]
    · rw [insertFieldR, if_neg hi, RFields.lookup, if_pos rfl]

theorem lookupR_sortRGo_notin : ∀ (fl acc : RFields) (k2 : String),
    fl.hasKey k2 = false → (sortR.sortRGo fl acc).lookup k2 = acc.lookup k2
  | .nil, _, _, _ => rfl
  | .cons k v t, acc, k2, h => by
    have hne : ¬ (k = k2) := by
      intro he
      rw [RFields.hasKey, RFields.lookup, if_pos he] at h
      exact nomatch h
    have ht : t.hasKey k2 = false := by
      rw [RFields.hasKey, RFields.lookup, if_neg hne] at h
      rw [RFields.hasKey]
      exact h
    rw [show sortR.sortRGo (.cons k v t) acc
        = sortR.sortRGo t (insertFieldR k v acc) from rfl]
    rw [lookupR_sortRGo_notin t _ k2 ht, lookupR_insert_ne k k2 v hne]

theorem lookupR_sortRGo_in : ∀ (fl acc : RFields) (k2 : String),
    suppF fl = true → fl.hasKey k2 = true →
    (∀ k, fl.hasKey k = true → acc.hasKey k = false) →
    (sortR.sortRGo fl acc).lookup k2 = fl.lookup k2
  | .nil, _, _, _, hk, _ => nomatch hk
  | .cons k v t, acc, k2, hs, hk, hdisj => by
    rw [suppF, Bool.and_eq_true, Bool.and_eq_true, Bool.not_eq_true'] at hs
    have hak : acc.hasKey k = false := hdisj k (by
      rw [RFields.hasKey, RFields.lookup, if_pos rfl]; rfl)
    rw [show sortR.sortRGo (.cons k v t) acc
        = sortR.sortRGo t (insertFieldR k v acc) from rfl]
    by_cases he : k = k2
    · subst he
      have htk : t.hasKey k = false := hs.1.2
      rw [lookupR_sortRGo_notin t _ k htk, lookupR_insertFieldR k v acc hak]
      rw [RFields.lookup, if_pos rfl]
    · have htk2 : t.hasKey k2 = true := by
        rw [RFields.hasKey, RFields.lookup, if_neg he] at hk
        rw [RFields.hasKey]
        exact hk
      rw [lookupR_sortRGo_in t (insertFieldR k v acc) k2 hs.2 htk2 ?_]
      · rw [RFields.lookup, if_neg he]
      · intro k3 hk3
        have hne3 : ¬ (k = k3) := by
          intro he3
          rw [← he3] at hk3
          rw [hs.1.2] at hk3
          exact nomatch hk3
        rw [hasKeyR_insertFieldR, decide_eq_false hne3]
        have : acc.hasKey k3 = false := hdisj k3 (by
          rw [RFields.hasKey, RFields.lookup, if_neg hne3]
          rw [RFields.hasKey] at hk3
          exact hk3)
        rw [this]
        rfl

theorem lookupR_sortR (fl : RFields) (k2 : String) (hs : suppF fl = true) :
    (sortR fl).lookup k2 = fl.lookup k2 := by
  by_cases h : fl.hasKey k2 = true
  · exact lookupR_sortRGo_in fl .nil k2 hs h (fun _ _ => rfl)
  · have h2 : fl.hasKey k2 = false := by
      cases hx : fl.hasKey k2
      · rfl
      · exact absurd hx h
    rw [show sortR fl = sortR.sortRGo fl .nil from rfl,
      lookupR_sortRGo_notin fl .nil k2 h2]
    cases hx : fl.lookup k2 with
    | none => rfl
    | some v =>
      rw [RFields.hasKey, hx] at h2
      exact nomatch h2

theorem suppF_insertFieldR (k : String) (v : RVal) : ∀ fl : RFields,
    SupportedB v = true → fl.hasKey k = false → suppF fl = true →
    suppF (insertFieldR k v fl) = true
  | .nil, hv, _, _ => by
    rw [insertFieldR]
    simp [suppF, RFields.hasKey, RFields.lookup, hv]
  | .cons k2 v2 t, hv, hk, hg => by
    have hg0 := hg
    rw [RFields.hasKey, RFields.lookup] at hk
    have hne : ¬ (k2 = k) := by
      intro he
      rw [if_pos he] at hk
      exact nomatch hk
    have hkt : t.hasKey k = false := by
      rw [if_neg hne] at hk
      rw [RFields.hasKey]
      exact hk
    rw [suppF, Bool.and_eq_true, Bool.and_eq_true, Bool.not_eq_true'] at hg
    by_cases hi : strLe k2 k = true
    · rw [insertFieldR, if_pos hi, suppF, Bool.and_eq_true, Bool.and_eq_true,
        Bool.not_eq_true']
      refine ⟨⟨hg.1.1, ?_⟩, suppF_insertFieldR k v t hv hkt hg.2⟩
      rw [hasKeyR_insertFieldR, decide_eq_false (fun he => hne he.symm), hg.1.2]
      rfl
    · rw [insertFieldR, if_neg hi, suppF, Bool.and_eq_true, Bool.and_eq_true,
        Bool.not_eq_true']
      refine ⟨⟨hv, ?_⟩, hg0⟩
      rw [RFields.hasKey, RFields.lookup, if_neg hne]
      rw [RFields.hasKey] at hkt
      exact hkt

theorem suppF_sortRGo : ∀ (fl acc : RFields),
    suppF fl = true → suppF acc = true →
    (∀ k, fl.hasKey k = true → acc.hasKey k = false) →
    suppF (sortR.sortRGo fl acc) = true
  | .nil, _, _, ha, _ => ha
  | .cons k v t, acc, hg, ha, hdisj => by
    rw [suppF, Bool.and_eq_true, Bool.and_eq_true, Bool.not_eq_true'] at hg
    have hak : acc.hasKey k = false := hdisj k (by
      rw [RFields.hasKey, RFields.lookup, if_pos rfl]; rfl)
    refine suppF_sortRGo t (insertFieldR k v acc) hg.2
      (suppF_insertFieldR k v acc hg.1.1 hak ha) ?_
    intro k2 hk2
    have hne : ¬ (k = k2) := by
      intro he
      rw [← he] at hk2
      rw [hg.1.2] at hk2
      exact nomatch hk2
    rw [hasKeyR_insertFieldR, decide_eq_false hne]
    have hacc2 : acc.hasKey k2 = false := hdisj k2 (by
      rw [RFields.hasKey, RFields.lookup, if_neg hne]
      rw [RFields.hasKey] at hk2
      exact hk2)
    rw [hacc2]
    rfl

theorem suppF_sortR (fl : RFields) (h : suppF fl = true) :
    suppF (sortR fl) = true :=
  suppF_sortRGo fl .nil h rfl (fun _ _ => rfl)

theorem lookup_sortKeysFields (k : String) : ∀ fl : JFields,
    (sortKeysFields fl).lookup k = (fl.lookup k).map sortKeysJ
  | .nil => rfl
  | .cons k2 v t => by
    by_cases h : k2 = k
    · simp [sortKeysFields, JFields.lookup, h]
    · simp only [sortKeysFields, JFields.lookup, h, if_false]
      exact lookup_sortKeysFields k t

theorem sortKeysJ_str_iff (j : Json) (s : String) :
    sortKeysJ j = .str s ↔ j = .str s := by
  constructor
  · intro h
    cases j with
    | str s2 =>
      injection h with h1
      exact congrArg Json.str h1
    | null => exact nomatch h
    | bool b => exact nomatch h
    | num d => exact nomatch h
    | arr l => exact nomatch h
    | obj fl => exact nomatch h
  · intro h
    rw [h]
    rfl

theorem sortKeysJ_tagged (name : String) (p : Json) :
    sortKeysJ (tagged name p) = tagged name (sortKeysJ p) := rfl

mutual

/-- `srv` preserves supportedness. -/
theorem srv_supp : ∀ v : RVal, SupportedB v = true → SupportedB (srv v) = true
  | .rnull, h => h
  | .rundef, h => nomatch h
  | .rfun, h => nomatch h
  | .rsym, h => nomatch h
  | .rbool _, h => h
  | .rnum _, h => h
  | .rstr _, h => h
  | .rbigint _, h => h
  | .rdate _, h => h
  | .rregexp _ _, h => h
  | .rurl _, h => h
  | .ref _, h => nomatch h
  | .rarr l, h => srvL_supp l h
  | .robj fl tj, h => by
    cases tj with
    | some r => exact nomatch h
    | none =>
      simp only [SupportedB, Bool.true_and, Bool.and_eq_true,
        Bool.not_eq_true'] at h
      have h1 : suppF (srvF fl) = true := srvF_supp fl h.1
      simp only [srv, SupportedB, Bool.true_and, Bool.and_eq_true,
        Bool.not_eq_true']
      refine ⟨suppF_sortR _ h1, ?_⟩
      rw [isTagLike, lookupR_sortR _ _ h1, lookup_srvF]
      have h2 := h.2
      rw [isTagLike] at h2
      cases hlk : fl.lookup "$type" with
      | none => rfl
      | some x =>
        rw [hlk] at h2
        rw [show Option.map srv (some x) = some (srv x) from rfl]
        cases x with
        | rstr s =>
          rw [show srv (.rstr s) = .rstr s from rfl]
          show (sortR (srvF fl)).hasKey "$value" = false
          rw [hasKeyR_sortR, hasKey_srvF]
          exact h2
        | rnull => rfl
        | rundef => rfl
        | rfun => rfl
        | rsym => rfl
        | rbool b => rfl
        | rnum n => rfl
        | rbigint z => rfl
        | rdate iso => rfl
        | rregexp a b => rfl
        | rurl u => rfl
        | rarr l2 => rfl
        | robj fl2 tj2 => rfl
        | rset l2 => rfl
        | rmap ps2 => rfl
        | ref i => rfl
  | .rset l, h => by
    simp only [SupportedB, Bool.and_eq_true, decide_eq_true_eq] at h
    simp only [srv, SupportedB, Bool.and_eq_true, decide_eq_true_eq]
    refine ⟨srvL_supp l h.1, ?_⟩
    rw [srvL_toList, dedupPrim_srv, h.2]
  | .rmap ps, h => by
    simp only [SupportedB, Bool.and_eq_true, decide_eq_true_eq] at h
    simp only [srv, SupportedB, Bool.and_eq_true, decide_eq_true_eq]
    exact ⟨srvP_supp ps h.1, mkMap_srvP ps h.2⟩
termination_by v => sizeOf v

theorem srvL_supp : ∀ l : RList, suppL l = true → suppL (srvL l) = true
  | .nil, h => h
  | .cons x t, h => by
    rw [suppL, Bool.and_eq_true] at h
    rw [srvL, suppL, Bool.and_eq_true]
    exact ⟨srv_supp x h.1, srvL_supp t h.2⟩
termination_by l => sizeOf l

theorem srvF_supp : ∀ fl : RFields, suppF fl = true → suppF (srvF fl) = true
  | .nil, h => h
  | .cons k v t, h => by
    rw [suppF, Bool.and_eq_true, Bool.and_eq_true, Bool.not_eq_true'] at h
    rw [srvF, suppF, Bool.and_eq_true, Bool.and_eq_true, Bool.not_eq_true']
    exact ⟨⟨srv_supp v h.1.1, by rw [hasKey_srvF]; exact h.1.2⟩, srvF_supp t h.2⟩
termination_by fl => sizeOf fl

theorem srvP_supp : ∀ ps : RPairs, suppP ps = true → suppP (srvP ps) = true
  | .nil, h => h
  | .cons k v t, h => by
    rw [suppP, Bool.and_eq_true, Bool.and_eq_true] at h
    rw [srvP, suppP, Bool.and_eq_true, Bool.and_eq_true]
    exact ⟨⟨srv_supp k h.1.1, srv_supp v h.1.2⟩, srvP_supp t h.2⟩
termination_by ps => sizeOf ps

end

mutual

/-- `srv` leaves the sorted stringification image unchanged. -/
theorem scv_eq : ∀ v : RVal, sortKeysJ (cvJ (srv v)) = sortKeysJ (cvJ v)
  | .rnull => rfl
  | .rundef => rfl
  | .rfun => rfl
  | .rsym => rfl
  | .rbool _ => rfl
  | .rnum _ => rfl
  | .rstr _ => rfl
  | .rbigint _ => rfl
  | .rdate _ => rfl
  | .rregexp _ _ => rfl
  | .rurl _ => rfl
  | .ref _ => rfl
  | .rarr l => by
    show Json.arr (sortKeysArr (cvA (srvL l))) = Json.arr (sortKeysArr (cvA l))
    rw [scvA_eq l]
  | .robj fl tj => by
    show Json.obj (sortFields (sortKeysFields (cvF (sortR (srvF fl)))))
      = Json.obj (sortFields (sortKeysFields (cvF fl)))
    rw [cvF_sortR, sortKeysFields_sortFields, sortFields_idem, scvF_eq fl]
  | .rset l => by
    show tagged "Set" (.arr (sortKeysArr (cvA (srvL l))))
      = tagged "Set" (.arr (sortKeysArr (cvA l)))
    rw [scvA_eq l]
  | .rmap ps => by
    show tagged "Map" (.arr (sortKeysArr (cvP (srvP ps))))
      = tagged "Map" (.arr (sortKeysArr (cvP ps)))
    rw [scvP_eq ps]
termination_by v => sizeOf v

theorem scvA_eq : ∀ l : RList, sortKeysArr (cvA (srvL l)) = sortKeysArr (cvA l)
  | .nil => rfl
  | .cons x t => by
    show JArr.cons (sortKeysJ (cvJ (srv x))) (sortKeysArr (cvA (srvL t)))
      = JArr.cons (sortKeysJ (cvJ x)) (sortKeysArr (cvA t))
    rw [scv_eq x, scvA_eq t]
termination_by l => sizeOf l

theorem scvF_eq : ∀ fl : RFields,
    sortKeysFields (cvF (srvF fl)) = sortKeysFields (cvF fl)
  | .nil => rfl
  | .cons k v t => by
    show JFields.cons k (sortKeysJ (cvJ (srv v))) (sortKeysFields (cvF (srvF t)))
      = JFields.cons k (sortKeysJ (cvJ v)) (sortKeysFields (cvF t))
    rw [scv_eq v, scvF_eq t]
termination_by fl => sizeOf fl

theorem scvP_eq : ∀ ps : RPairs, sortKeysArr (cvP (srvP ps)) = sortKeysArr (cvP ps)
  | .nil => rfl
  | .cons k v t => by
    show JArr.cons
        (.arr (.cons (sortKeysJ (cvJ (srv k)))
          (.cons (sortKeysJ (cvJ (srv v))) .nil)))
        (sortKeysArr (cvP (srvP t)))
      = JArr.cons
        (.arr (.cons (sortKeysJ (cvJ k)) (.cons (sortKeysJ (cvJ v)) .nil)))
        (sortKeysArr (cvP t))
    rw [scv_eq k, scv_eq v, scvP_eq t]
termination_by ps => sizeOf ps

end

theorem reviveValue_regexp2 (f : Nat) (src flgs : String) :
    reviveValue (f + 2) (tagged "RegExp"
        (.obj (.cons "flags" (.str flgs) (.cons "source" (.str src) .nil))))
      = some (.ok (.rregexp src flgs)) := rfl

mutual

/-- **Revival of the sorted stringification**: reviving the key-sorted
conversion image of a supported value returns its `srv` image. -/
theorem revS (f : Nat) (v : RVal) (hs : SupportedB v = true)
    (hf : jsizeJ (sortKeysJ (cvJ v)) ≤ f) :
    reviveValue f (sortKeysJ (cvJ v)) = some (.ok (srv v)) := by
  obtain ⟨f2, rfl⟩ : ∃ f2, f = f2 + 2 :=
    ⟨f - 2, by have := jsizeJ_ge2 (sortKeysJ (cvJ v)); omega⟩
  cases v with
  | rnull => rfl
  | rbool b => rfl
  | rstr s => rfl
  | rundef => exact nomatch hs
  | rfun => exact nomatch hs
  | rsym => exact nomatch hs
  | ref i => exact nomatch hs
  | rnum n =>
    cases n with
    | fin d => rfl
    | posInf => exact nomatch hs
    | negInf => exact nomatch hs
    | nan => exact nomatch hs
  | rbigint z =>
    show reviveValue (f2 + 2) (tagged "BigInt" (.str (intDecStr z))) = _
    rw [reviveValue_bigint, parse_intDecStr z]
    rfl
  | rdate iso =>
    have hiso : isCanonIso iso = true := by simpa [SupportedB] using hs
    show reviveValue (f2 + 2) (tagged "Date" (.str iso)) = _
    rw [reviveValue_tagdate, parseDateIso_canon iso hiso]
    rfl
  | rregexp src flgs => exact reviveValue_regexp2 f2 src flgs
  | rurl href => exact reviveValue_url f2 href
  | rarr l =>
    have hsl : suppL l = true := by simpa [SupportedB] using hs
    have hfl : jsizeA (sortKeysArr (cvA l)) ≤ f2 + 1 := by
      simp only [cvJ, sortKeysJ, jsizeJ] at hf
      omega
    show reviveValue (f2 + 2) (.arr (sortKeysArr (cvA l))) = _
    rw [reviveValue_jarr, revS_A (f2 + 1) l hsl hfl]
    rfl
  | robj fl tj =>
    cases tj with
    | some r => exact nomatch hs
    | none =>
      have hs2 : suppF fl = true := by
        simp only [SupportedB, Bool.true_and, Bool.and_eq_true] at hs
        exact hs.1
      have hnt : isTagLike fl = false := by
        simp only [SupportedB, Bool.true_and, Bool.and_eq_true,
          Bool.not_eq_true'] at hs
        exact hs.2
      have hsrt : suppF (sortR fl) = true := suppF_sortR fl hs2
      have hG : sortFields (sortKeysFields (cvF fl))
          = sortKeysFields (cvF (sortR fl)) := by
        rw [cvF_sortR, sortKeysFields_sortFields]
      have hfl : jsizeF (sortKeysFields (cvF (sortR fl))) ≤ f2 + 1 := by
        rw [← hG]
        simp only [cvJ, sortKeysJ, jsizeJ] at hf
        omega
      show reviveValue (f2 + 2) (.obj (sortFields (sortKeysFields (cvF fl)))) = _
      rw [hG]
      cases hlk : fl.lookup "$type" with
      | none =>
        have hplain : ∀ s,
            (sortKeysFields (cvF (sortR fl))).lookup "$type" ≠ some (.str s) := by
          intro s hcontra
          rw [lookup_sortKeysFields, lookup_cvF, lookupR_sortR _ _ hs2,
            hlk] at hcontra
          exact nomatch hcontra
        rw [reviveValue_plain (f2 + 1) _ hplain]
        rw [revS_F (f2 + 1) (sortR fl) hsrt hfl]
        show some (Except.ok (RVal.robj (srvF (sortR fl)) ROpt.none))
          = some (Except.ok (RVal.robj (sortR (srvF fl)) ROpt.none))
        rw [srvF_sortR]
      | some x =>
        by_cases hxs : ∃ s, x = .rstr s
        · obtain ⟨s, rfl⟩ := hxs
          have hlk2 : (sortKeysFields (cvF (sortR fl))).lookup "$type"
              = some (.str s) := by
            rw [lookup_sortKeysFields, lookup_cvF, lookupR_sortR _ _ hs2, hlk]
            rfl
          have hnv : fl.hasKey "$value" = false := by
            rw [isTagLike, hlk] at hnt
            exact hnt
          have hnv2 : (sortKeysFields (cvF (sortR fl))).hasKey "$value" = false := by
            rw [hasKey_sortKeysFields, hasKey_cvF, hasKeyR_sortR]
            exact hnv
          rw [reviveValue_strNoVal (f2 + 1) _ s hlk2 hnv2]
          rw [revS_F (f2 + 1) (sortR fl) hsrt hfl]
          show some (Except.ok (RVal.robj (srvF (sortR fl)) ROpt.none))
            = some (Except.ok (RVal.robj (sortR (srvF fl)) ROpt.none))
          rw [srvF_sortR]
        · have hplain : ∀ s,
              (sortKeysFields (cvF (sortR fl))).lookup "$type" ≠ some (.str s) := by
            intro s hcontra
            rw [lookup_sortKeysFields, lookup_cvF, lookupR_sortR _ _ hs2,
              hlk] at hcontra
            rw [show Option.map sortKeysJ (Option.map cvJ (some x))
                = some (sortKeysJ (cvJ x)) from rfl] at hcontra
            injection hcontra with hc2
            exact hxs ⟨s, (cvJ_str_iff x s).mp ((sortKeysJ_str_iff (cvJ x) s).mp hc2)⟩
          rw [reviveValue_plain (f2 + 1) _ hplain]
          rw [revS_F (f2 + 1) (sortR fl) hsrt hfl]
          show some (Except.ok (RVal.robj (srvF (sortR fl)) ROpt.none))
            = some (Except.ok (RVal.robj (sortR (srvF fl)) ROpt.none))
          rw [srvF_sortR]
  | rset l =>
    have hs12 : suppL l = true ∧ dedupPrim l.toList = l.toList := by
      simp only [SupportedB, Bool.and_eq_true, decide_eq_true_eq] at hs
      exact hs
    have hfl : jsizeA (sortKeysArr (cvA l)) ≤ f2 := by
      rw [show cvJ (.rset l) = tagged "Set" (.arr (cvA l)) from rfl,
        sortKeysJ_tagged] at hf
      simp only [tagged, sortKeysJ, jsizeJ, jsizeF] at hf
      omega
    show reviveValue (f2 + 2) (tagged "Set" (.arr (sortKeysArr (cvA l)))) = _
    rw [reviveValue_set, revS_A f2 l hs12.1 hfl]
    show some (Except.ok (RVal.rset (mkSet (srvL l))))
      = some (Except.ok (RVal.rset (srvL l)))
    rw [mkSet_srvL l hs12.2]
  | rmap ps =>
    have hs12 : suppP ps = true ∧ mkMap ps = ps := by
      simp only [SupportedB, Bool.and_eq_true, decide_eq_true_eq] at hs
      exact hs
    have hfl : jsizeA (sortKeysArr (cvP ps)) ≤ f2 := by
      rw [show cvJ (.rmap ps) = tagged "Map" (.arr (cvP ps)) from rfl,
        sortKeysJ_tagged] at hf
      simp only [tagged, sortKeysJ, jsizeJ, jsizeF] at hf
      omega
    show reviveValue (f2 + 2) (tagged "Map" (.arr (sortKeysArr (cvP ps)))) = _
    rw [reviveValue_tagmap, revS_P f2 ps hs12.1 hfl]
    show some (Except.ok (RVal.rmap (mkMap (srvP ps))))
      = some (Except.ok (RVal.rmap (srvP ps)))
    rw [mkMap_srvP ps hs12.2]
termination_by f

/-- Element-wise revival of a key-sorted converted array. -/
theorem revS_A (f : Nat) (l : RList) (hs : suppL l = true)
    (hf : jsizeA (sortKeysArr (cvA l)) ≤ f) :
    revArr f (sortKeysArr (cvA l)) = some (.ok (srvL l)) := by
  obtain ⟨f2, rfl⟩ : ∃ f2, f = f2 + 1 :=
    ⟨f - 1, by have := jsizeA_ge1 (sortKeysArr (cvA l)); omega⟩
  cases l with
  | nil => rfl
  | cons x t =>
    have hx : SupportedB x = true := by
      simp only [suppL, Bool.and_eq_true] at hs; exact hs.1
    have ht : suppL t = true := by
      simp only [suppL, Bool.and_eq_true] at hs; exact hs.2
    have hfx : jsizeJ (sortKeysJ (cvJ x)) ≤ f2 := by
      have := jsizeA_ge1 (sortKeysArr (cvA t))
      simp only [cvA, sortKeysArr, jsizeA] at hf
      omega
    have hft : jsizeA (sortKeysArr (cvA t)) ≤ f2 := by
      have := jsizeJ_ge2 (sortKeysJ (cvJ x))
      simp only [cvA, sortKeysArr, jsizeA] at hf
      omega
    show revArr (f2 + 1) (.cons (sortKeysJ (cvJ x)) (sortKeysArr (cvA t))) = _
    simp only [revArr]
    rw [revS f2 x hx hfx]
    rw [revS_A f2 t ht hft]
    rfl
termination_by f

/-- Field-wise revival of a key-sorted converted object. -/
theorem revS_F (f : Nat) (fl : RFields) (hs : suppF fl = true)
    (hf : jsizeF (sortKeysFields (cvF fl)) ≤ f) :
    revFields f (sortKeysFields (cvF fl)) = some (.ok (srvF fl)) := by
  obtain ⟨f2, rfl⟩ : ∃ f2, f = f2 + 1 :=
    ⟨f - 1, by have := jsizeF_ge1 (sortKeysFields (cvF fl)); omega⟩
  cases fl with
  | nil => rfl
  | cons k v t =>
    have hx : SupportedB v = true := by
      simp only [suppF, Bool.and_eq_true] at hs; exact hs.1.1
    have ht : suppF t = true := by
      simp only [suppF, Bool.and_eq_true] at hs; exact hs.2
    have hfx : jsizeJ (sortKeysJ (cvJ v)) ≤ f2 := by
      have := jsizeF_ge1 (sortKeysFields (cvF t))
      simp only [cvF, sortKeysFields, jsizeF] at hf
      omega
    have hft : jsizeF (sortKeysFields (cvF t)) ≤ f2 := by
      have := jsizeJ_ge2 (sortKeysJ (cvJ v))
      simp only [cvF, sortKeysFields, jsizeF] at hf
      omega
    show revFields (f2 + 1)
        (.cons k (sortKeysJ (cvJ v)) (sortKeysFields (cvF t))) = _
    simp only [revFields]
    rw [revS f2 v hx hfx]
    rw [revS_F f2 t ht hft]
    rfl
termination_by f

/-- Entry-wise revival of key-sorted converted map entries. -/
theorem revS_P (f : Nat) (ps : RPairs) (hs : suppP ps = true)
    (hf : jsizeA (sortKeysArr (cvP ps)) ≤ f) :
    revMapEntries f (sortKeysArr (cvP ps)) = some (.ok (srvP ps)) := by
  obtain ⟨f2, rfl⟩ : ∃ f2, f = f2 + 1 :=
    ⟨f - 1, by have := jsizeA_ge1 (sortKeysArr (cvP ps)); omega⟩
  cases ps with
  | nil => rfl
  | cons k v t =>
    have hk : SupportedB k = true := by
      simp only [suppP, Bool.and_eq_true] at hs; exact hs.1.1
    have hv : SupportedB v = true := by
      simp only [suppP, Bool.and_eq_true] at hs; exact hs.1.2
    have ht : suppP t = true := by
      simp only [suppP, Bool.and_eq_true] at hs; exact hs.2
    have hfk : jsizeJ (sortKeysJ (cvJ k)) ≤ f2 := by
      have h1 := jsizeA_ge1 (sortKeysArr (cvP t))
      have h2 := jsizeJ_ge2 (sortKeysJ (cvJ v))
      simp only [cvP, sortKeysArr, sortKeysJ, jsizeA, jsizeJ, jsizeF] at hf
      omega
    have hfv : jsizeJ (sortKeysJ (cvJ v)) ≤ f2 := by
      have h1 := jsizeA_ge1 (sortKeysArr (cvP t))
      have h2 := jsizeJ_ge2 (sortKeysJ (cvJ k))
      simp only [cvP, sortKeysArr, sortKeysJ, jsizeA, jsizeJ, jsizeF] at hf
      omega
    have hft : jsizeA (sortKeysArr (cvP t)) ≤ f2 := by
      have h1 := jsizeJ_ge2 (sortKeysJ (cvJ k))
      have h2 := jsizeJ_ge2 (sortKeysJ (cvJ v))
      simp only [cvP, sortKeysArr, sortKeysJ, jsizeA, jsizeJ, jsizeF] at hf
      omega
    show revMapEntries (f2 + 1)
        (.cons (.arr (.cons (sortKeysJ (cvJ k))
          (.cons (sortKeysJ (cvJ v)) .nil))) (sortKeysArr (cvP t))) = _
    simp only [revMapEntries]
    rw [revS f2 k hk hfk]
    rw [revS f2 v hv hfv]
    rw [revS_P f2 t ht hft]
    rfl
termination_by f

end

/-- **C6** (corrected): with `sorted` enabled, stringify sorts object keys
alphabetically at every nesting depth and never alters array element order;
and for every *supported* value (canonical dates, no tag-shaped plain
objects, deduplicated sets, normalised maps and numbers) stringifying,
parsing the result, and stringifying again yields byte-identical text.  The
literal claim — byte-identical restringification for *every* value on which
stringify succeeds — is refuted by the counterexample: a plain object shaped
like a `Date` tag with a date-only payload stringifies, parses to a
canonicalised date, and restringifies to different bytes. -/
theorem c6_sorted_deterministic :
    (∀ j : Json, ksJ (sortKeysJ j) = true) ∧
    (∀ l : JArr, (sortKeysArr l).toList = l.toList.map sortKeysJ) ∧
    (∀ v : RVal, SupportedB v = true →
      ∃ s : String, tsonStringifyT v ⟨true, false⟩ = some (.ok s) ∧
        ∃ w : RVal, tsonParse s = some (.ok w) ∧
          tsonStringifyT w ⟨true, false⟩ = some (.ok s)) := by
  refine ⟨ks_sortKeys, sortKeysArr_toList, ?_⟩
  intro v hs
  refine ⟨⟨printJsonL (sortKeysJ (cvJ v))⟩, ?_, srv v, ?_, ?_⟩
  · rw [tsonStringifyT_eq]
    rw [conv_supp (rsize v + 1) v (StringifyOptions.strict ⟨true, false⟩) [] false
      hs (Nat.le_succ _)]
    rfl
  · rw [tsonParse_okj _ (sortKeysJ (cvJ v))
      (parseJson_print _ (goodJ_sortKeys _ (goodJ_cv v hs)))]
    rw [revS (jsizeJ (sortKeysJ (cvJ v)) + 1) v hs (Nat.le_succ _)]
  · rw [tsonStringifyT_eq]
    rw [conv_supp (rsize (srv v) + 1) (srv v) (StringifyOptions.strict ⟨true, false⟩)
      [] false (srv_supp v hs) (Nat.le_succ _)]
    show some (Except.ok (⟨printJsonL (sortKeysJ (cvJ (srv v)))⟩ : String))
      = some (Except.ok (⟨printJsonL (sortKeysJ (cvJ v))⟩ : String))
    rw [scv_eq v]

/-- **C6, counterexample to the literal claim**: the plain object
`$type: "Date", $value: "2024-01-01"` stringifies (sorted mode) and parses
successfully, but the parse canonicalises the date-only payload, so the
second stringification is not byte-identical to the first. -/
theorem c6_counterexample :
    tsonStringifyT (.robj (.cons "$type" (.rstr "Date")
        (.cons "$value" (.rstr "2024-01-01") .nil)) .none) ⟨true, false⟩
      = some (.ok "\x7b\"$type\":\"Date\",\"$value\":\"2024-01-01\"\x7d") ∧
    tsonParse "\x7b\"$type\":\"Date\",\"$value\":\"2024-01-01\"\x7d"
      = some (.ok (.rdate "2024-01-01T00:00:00.000Z")) ∧
    tsonStringifyT (.rdate "2024-01-01T00:00:00.000Z") ⟨true, false⟩
      = some (.ok
        "\x7b\"$type\":\"Date\",\"$value\":\"2024-01-01T00:00:00.000Z\"\x7d") := by
  refine ⟨?_, ?_, ?_⟩ <;> decide

/-- **C6, witness**: the three parts at concrete inputs — an unsorted
two-key object gets sorted at depth, a singleton array keeps its order, and
an unsorted supported object restringifies byte-identically. -/
theorem c6_sorted_deterministic_witness :
    ksJ (sortKeysJ (.obj (.cons "b" .null (.cons "a" .null .nil)))) = true ∧
    (sortKeysArr (.cons .null .nil)).toList
      = (JArr.cons .null .nil).toList.map sortKeysJ ∧
    SupportedB (.robj (.cons "b" (.rbool true) (.cons "a" .rnull .nil)) .none)
      = true ∧
    (∃ s : String,
      tsonStringifyT (.robj (.cons "b" (.rbool true) (.cons "a" .rnull .nil)) .none)
          ⟨true, false⟩ = some (.ok s) ∧
      ∃ w : RVal, tsonParse s = some (.ok w) ∧
        tsonStringifyT w ⟨true, false⟩ = some (.ok s)) :=
  ⟨c6_sorted_deterministic.1 _, c6_sorted_deterministic.2.1 _, by decide,
    c6_sorted_deterministic.2.2 _ (by decide)⟩
